import Mathlib

/-!
# The out-of-core patch log (`diff_oocore_storage_t`)

A shallow embedding of `src/buffer_cache/mirrored/diff_out_of_core_storage.cc`.

* A log block buffer is a list of bytes (natural numbers, below 256 in real buffers); the
  log owns one buffer per log block. Block ids (`block_id_t`) are natural numbers.
* `buf_patch_t` (the patch codec), the block size and `LOG_BLOCK_MAGIC` are declared in
  headers that are not part of the sources, so they are parameters (`PatchCodec`, `Env`).
* The in-core patch index (`cache.diff_core_storage.get_patches`) and the serializer
  (`block_in_use`, the on-disk content of a block) are external collaborators and are
  passed to the operations that consult them.
* Every `guarantee` and `rassert` of the source is checked: a violated one, an access
  outside the vector of buffers, or a scan that never stops, is the result `none`.
* Scan cursors are `uint16_t` in the source, so cursor arithmetic is modulo `65536`.
  `next_patch_offset` is assigned from such a cursor; its declaration is in the absent
  header and it is taken to be 16 bits wide as well. The log range is assumed far from the
  top of `block_id_t`, so block id arithmetic does not wrap.
* A store outside a buffer is undefined in the source; here the bytes that fall outside
  are dropped (`write_at`).
* Coroutines are not modelled: the flush tasks of `flush_n_oldest_blocks` run to completion
  one after another, and no other call interleaves with a flush.
-/

namespace DiffOocore

/-- Number of values of a `uint16_t` scan cursor. -/
def UINT16 : Nat := 65536

/-- Number of values of a `size_t`. -/
def SIZE_T : Nat := 2 ^ 64

/-- The interface of `buf_patch_t` that the log uses. -/
structure PatchCodec (P : Type) where
  /-- `patch.get_serialized_size()`. -/
  get_serialized_size : P → Nat
  /-- `buf_patch_t::get_min_serialized_size()`. -/
  get_min_serialized_size : Nat
  /-- The bytes `patch.serialize(dst)` stores at `dst`. -/
  serialize : P → List Nat
  /-- `buf_patch_t::load_patch(src)`, given the bytes of the buffer from `src` on. -/
  load_patch : List Nat → Option P
  /-- `patch.get_block_id()`: the data block the patch amends. -/
  get_block_id : P → Nat
  /-- `*a < *b`, the order of `dereferencing_compare_t<buf_patch_t>`. -/
  lt : P → P → Bool

/-- The configuration the log reads from the cache: codec, block size and magic. -/
structure Env (P : Type) where
  codec : PatchCodec P
  /-- `cache.get_block_size().value()`. -/
  block_size : Nat
  /-- The bytes of `LOG_BLOCK_MAGIC`, `sizeof(LOG_BLOCK_MAGIC)` of them. -/
  LOG_BLOCK_MAGIC : List Nat

/-- The in-core patch index: `cache.diff_core_storage.get_patches(block_id)`. -/
abbrev CoreIndex (P : Type) := Nat → Option (List P)

/-- The members of `diff_oocore_storage_t`; `log_block_bufs` holds each buffer's bytes. -/
structure Storage where
  first_block : Nat
  number_of_blocks : Nat
  active_log_block : Nat
  next_patch_offset : Nat
  block_is_empty : List Bool
  log_block_bufs : List (List Nat)
deriving DecidableEq, Repr

/-- The state the constructor leaves. -/
def constructed : Storage :=
  { first_block := 0, number_of_blocks := 0, active_log_block := 0, next_patch_offset := 0,
    block_is_empty := [], log_block_bufs := [] }

/-- A checked condition (`guarantee`, `rassert`). -/
def check (b : Bool) : Option Unit := if b then some () else none

/-- The comparison `strncmp(a, b, n) == 0`: bytes are compared up to `n` of them, and the
comparison ends early at a NUL that both strings share. -/
def strncmp_eq : List Nat → List Nat → Nat → Bool
  | _, _, 0 => true
  | a :: as, b :: bs, n + 1 =>
    if a = b then (if a = 0 then true else strncmp_eq as bs n) else false
  | _, _, _ + 1 => false

/-- The test `strncmp((char*)buf_data, LOG_BLOCK_MAGIC, sizeof(LOG_BLOCK_MAGIC)) == 0`. -/
def magic_ok {P : Type} (env : Env P) (data : List Nat) : Bool :=
  strncmp_eq data env.LOG_BLOCK_MAGIC env.LOG_BLOCK_MAGIC.length

/-- Storing `bytes` at offset `off` of a buffer; bytes that would fall outside the buffer
are not part of the block and are dropped. -/
def write_at (buf : List Nat) (off : Nat) (bytes : List Nat) : List Nat :=
  buf.take off ++ bytes.take (buf.length - off) ++ buf.drop (off + bytes.length)

/-- `log_block_bufs[log_block_id - first_block]`. -/
def get_buf (s : Storage) (id : Nat) : Option (List Nat) :=
  if s.first_block ≤ id then s.log_block_bufs[id - s.first_block]? else none

/-- Replacing the bytes of the buffer of log block `id`. -/
def set_buf (s : Storage) (id : Nat) (data : List Nat) : Storage :=
  { s with log_block_bufs := s.log_block_bufs.set (id - s.first_block) data }

/-- `block_is_empty[log_block_id - first_block]`. -/
def get_empty (s : Storage) (id : Nat) : Option Bool :=
  if s.first_block ≤ id then s.block_is_empty[id - s.first_block]? else none

/-- `block_is_empty[log_block_id - first_block] = b`. -/
def set_empty (s : Storage) (id : Nat) (b : Bool) : Storage :=
  { s with block_is_empty := s.block_is_empty.set (id - s.first_block) b }

/-- The bytes `init_log_block` leaves in a buffer: `memcpy` of the magic, then `bzero` of
`block_size - sizeof(LOG_BLOCK_MAGIC)` bytes behind it. -/
def init_log_block_data {P : Type} (env : Env P) (data : List Nat) : List Nat :=
  write_at (write_at data 0 env.LOG_BLOCK_MAGIC) env.LOG_BLOCK_MAGIC.length
    (List.replicate (env.block_size - env.LOG_BLOCK_MAGIC.length) 0)

/-- `init_log_block(log_block_id)`. -/
def init_log_block {P : Type} (env : Env P) (s : Storage) (id : Nat) : Option Storage := do
  let data ← get_buf s id
  some (set_buf s id (init_log_block_data env data))

/-- The record scan shared by `set_active_log_block`, `compress_block`, `flush_block` and
`load_patches`: `while (current_offset + min_size < block_size)` load a patch at
`current_offset`, stop if there is none, else advance the `uint16_t` cursor by its size.
Returns the patches loaded and the final cursor; `none` when the fuel runs out. -/
def scan_from {P : Type} (env : Env P) (data : List Nat) : Nat → Nat → Option (List P × Nat)
  | 0, _ => none
  | fuel + 1, off =>
    if off + env.codec.get_min_serialized_size < env.block_size then
      match env.codec.load_patch (data.drop off) with
      | none => some ([], off)
      | some p =>
        (scan_from env data fuel ((off + env.codec.get_serialized_size p) % UINT16)).map
          (fun r => (p :: r.1, r.2))
    else some ([], off)

/-- The scan of one log block: the magic is checked, the cursor starts behind it. A cursor
has `UINT16` values, so a scan that has not stopped after `UINT16` records never stops. -/
def scan_block {P : Type} (env : Env P) (data : List Nat) : Option (List P × Nat) := do
  check (magic_ok env data)
  scan_from env data UINT16 env.LOG_BLOCK_MAGIC.length

/-- `set_active_log_block(log_block_id)`. -/
def set_active_log_block {P : Type} (env : Env P) (s : Storage) (id : Nat) :
    Option Storage := do
  check (decide (s.first_block ≤ id ∧ id < s.first_block + s.number_of_blocks))
  let data ← get_buf s id
  let r ← scan_block env data
  some { s with active_log_block := id, next_patch_offset := r.2 }

/-- `select_log_block_for_compression()`. -/
def select_log_block_for_compression (s : Storage) : Nat :=
  let result := s.active_log_block + 1
  if result ≥ s.first_block + s.number_of_blocks then result - s.number_of_blocks else result

/-- The test `patches && !(*patch < *patches->front())` of `compress_block`. -/
def keep_patch {P : Type} (env : Env P) (idx : CoreIndex P) (p : P) : Bool :=
  match idx (env.codec.get_block_id p) with
  | some (q :: _) => !env.codec.lt p q
  | _ => false

/-- The assertion `rassert(!patches || patches->size() > 0)` of `compress_block`. -/
def patches_nonempty {P : Type} (env : Env P) (idx : CoreIndex P) (p : P) : Bool :=
  match idx (env.codec.get_block_id p) with
  | some [] => false
  | _ => true

/-- The write-back loop of `compress_block`: serialize each patch at the cursor and advance
the `uint16_t` cursor by its size. -/
def write_patches {P : Type} (env : Env P) : List Nat → Nat → List P → List Nat
  | data, _, [] => data
  | data, off, p :: ps =>
    write_patches env (write_at data off (env.codec.serialize p))
      ((off + env.codec.get_serialized_size p) % UINT16) ps

/-- `compress_block(log_block_id)`. -/
def compress_block {P : Type} (env : Env P) (idx : CoreIndex P) (s : Storage) (id : Nat) :
    Option Storage := do
  let data ← get_buf s id
  let r ← scan_block env data
  check (r.1.all (patches_nonempty env idx))
  let live_patches := r.1.filter (keep_patch env idx)
  let log_block_changed := r.1.any (fun p => !keep_patch env idx p)
  if log_block_changed then
    let s1 ← init_log_block env s id
    let data1 ← get_buf s1 id
    check (magic_ok env data1)
    some (set_buf s1 id (write_patches env data1 env.LOG_BLOCK_MAGIC.length live_patches))
  else
    some s

/-- `reclaim_space(space_required)`. -/
def reclaim_space {P : Type} (env : Env P) (idx : CoreIndex P) (s : Storage)
    (_space_required : Nat) : Option Storage := do
  let compress_block_id := select_log_block_for_compression s
  let s1 ← compress_block env idx s compress_block_id
  set_active_log_block env s1 compress_block_id

/-- Lines 137 to 148 of `store_patch`: serialize the patch at `next_patch_offset` of the
active block and advance the offset. -/
def store_patch_write {P : Type} (env : Env P) (s : Storage) (p : P) :
    Option (Storage × Bool) := do
  let data ← get_buf s s.active_log_block
  let s1 := set_empty s s.active_log_block false
  let s2 := set_buf s1 s1.active_log_block
    (write_at data s1.next_patch_offset (env.codec.serialize p))
  some ({ s2 with next_patch_offset :=
            (s2.next_patch_offset + env.codec.get_serialized_size p) % UINT16 }, true)

/-- `store_patch(patch)`; `free_space` is computed in `size_t`. -/
def store_patch {P : Type} (env : Env P) (idx : CoreIndex P) (s : Storage) (p : P) :
    Option (Storage × Bool) := do
  check (decide (s.log_block_bufs.length = s.number_of_blocks))
  if s.number_of_blocks = 0 then
    some (s, false)
  else
    let patch_serialized_size := env.codec.get_serialized_size p
    check (decide (env.block_size ≥ s.next_patch_offset))
    let free_space := env.block_size - s.next_patch_offset
    if patch_serialized_size > free_space then
      let initial_log_block := s.active_log_block
      let s1 ← reclaim_space env idx s patch_serialized_size
      let free_space1 := (env.block_size + SIZE_T - s1.next_patch_offset) % SIZE_T
      if patch_serialized_size > free_space1 then
        let s2 ← set_active_log_block env s1 initial_log_block
        some (s2, false)
      else
        store_patch_write env s1 p
    else
      store_patch_write env s p

/-- `flush_block(log_block_id)`: the new state and the data blocks on which `ensure_flush`
was called, in scan order. The acquisition of a data block is taken not to change the
answer of the in-core index for it. -/
def flush_block {P : Type} (env : Env P) (idx : CoreIndex P) (s : Storage) (id : Nat) :
    Option (Storage × List Nat) := do
  let data ← get_buf s id
  let r ← scan_block env data
  let flushed := (r.1.filter (fun p => (idx (env.codec.get_block_id p)).isSome)).map
    env.codec.get_block_id
  let s1 ← init_log_block env s id
  some (set_empty s1 id true, flushed)

/-- The ring position `active_log_block + i` of `flush_n_oldest_blocks`, wrapped. -/
def ring_block (s : Storage) (i : Nat) : Nat :=
  let current_block := s.active_log_block + i
  if current_block ≥ s.first_block + s.number_of_blocks then
    current_block - s.number_of_blocks
  else current_block

/-- The loop of `flush_n_oldest_blocks` over the ring positions `is`; flush tasks run to
completion one after another. -/
def flush_loop {P : Type} (env : Env P) (idx : CoreIndex P) :
    List Nat → Storage × List Nat → Option (Storage × List Nat)
  | [], acc => some acc
  | i :: is, (s, flushed) => do
    let current_block := ring_block s i
    let e ← get_empty s current_block
    if !e then
      let r ← flush_block env idx s current_block
      flush_loop env idx is (r.1, flushed ++ r.2)
    else
      flush_loop env idx is (s, flushed)

/-- `flush_n_oldest_blocks(n)`. -/
def flush_n_oldest_blocks {P : Type} (env : Env P) (idx : CoreIndex P) (s : Storage) (n : Nat) :
    Option (Storage × List Nat) := do
  check (decide (s.log_block_bufs.length = s.number_of_blocks))
  if s.number_of_blocks = 0 then
    some (s, [])
  else
    let n := min s.number_of_blocks n
    let r ← flush_loop env idx (List.range' 1 n) (s, [])
    if n = s.number_of_blocks then
      let s1 ← set_active_log_block env r.1 r.1.active_log_block
      some (s1, r.2)
    else
      some r

/-- The loop of `init` over the log blocks `ids`: a block in use is acquired with its disk
content and its magic checked, any other is created, wiped and marked empty. -/
def init_loop {P : Type} (env : Env P) (block_in_use : Nat → Bool)
    (disk : Nat → List Nat) : List Nat → Storage → Option Storage
  | [], s => some s
  | current_block :: ids, s =>
    if block_in_use current_block then do
      let s1 := { s with log_block_bufs := s.log_block_bufs ++ [disk current_block] }
      let data ← get_buf s1 current_block
      check (magic_ok env data)
      init_loop env block_in_use disk ids s1
    else do
      let s1 := { s with log_block_bufs :=
        s.log_block_bufs ++ [List.replicate env.block_size 0] }
      let s2 ← init_log_block env s1 current_block
      init_loop env block_in_use disk ids (set_empty s2 current_block true)

/-- `init(first_block, number_of_blocks)` on a constructed object. -/
def init {P : Type} (env : Env P) (block_in_use : Nat → Bool) (disk : Nat → List Nat)
    (first_block : Nat) (number_of_blocks : Nat) : Option Storage :=
  let s : Storage := { constructed with
    first_block := first_block, number_of_blocks := number_of_blocks,
    block_is_empty := List.replicate number_of_blocks false }
  if number_of_blocks = 0 then some s
  else do
    let s1 ← init_loop env block_in_use disk (List.range' first_block number_of_blocks) s
    check (decide (s1.log_block_bufs.length = number_of_blocks))
    set_active_log_block env s1 first_block

/-- The statement `patch_map[block_id].push_back(patch)` on a `std::map`, kept as an
association list in increasing key order. -/
def map_push_back {P : Type} : List (Nat × List P) → Nat → P → List (Nat × List P)
  | [], k, p => [(k, [p])]
  | (k1, l) :: m, k, p =>
    if k < k1 then (k, [p]) :: (k1, l) :: m
    else if k = k1 then (k1, l ++ [p]) :: m
    else (k1, l) :: map_push_back m k p

/-- The body of the scan loop of `load_patches` over the patches of one block: a patch is
stored in the map only if its data block is in use. -/
def load_block_into_map {P : Type} (env : Env P) (block_in_use : Nat → Bool) :
    List (Nat × List P) → List P → List (Nat × List P)
  | m, [] => m
  | m, p :: ps =>
    if block_in_use (env.codec.get_block_id p) then
      load_block_into_map env block_in_use (map_push_back m (env.codec.get_block_id p) p) ps
    else load_block_into_map env block_in_use m ps

/-- The first loop of `load_patches`: scan the buffers in order and fill the map. -/
def load_scan_all {P : Type} (env : Env P) (block_in_use : Nat → Bool) :
    List (List Nat) → List (Nat × List P) → Option (List (Nat × List P))
  | [], m => some m
  | data :: bufs, m => do
    let r ← scan_block env data
    load_scan_all env block_in_use bufs (load_block_into_map env block_in_use m r.1)

/-- The call `list.sort(dereferencing_compare_t<buf_patch_t>())`: a stable sort by `<`. -/
def sort_patches {P : Type} (env : Env P) (l : List P) : List P :=
  l.insertionSort (fun a b => env.codec.lt b a = false)

/-- `load_patches(in_core_storage)`: the calls `load_block_patch_list(block_id, list)` it
makes, in order. -/
def load_patches {P : Type} (env : Env P) (block_in_use : Nat → Bool) (s : Storage) :
    Option (List (Nat × List P)) := do
  check (decide (s.log_block_bufs.length = s.number_of_blocks))
  if s.number_of_blocks = 0 then
    some []
  else
    let patch_map ← load_scan_all env block_in_use s.log_block_bufs []
    some (patch_map.map (fun e => (e.1, sort_patches env e.2)))

/-- The bytes of a sequence of serialized patches. -/
def records {P : Type} (env : Env P) : List P → List Nat
  | [] => []
  | p :: ps => env.codec.serialize p ++ records env ps

/-- The sum of the serialized sizes of a sequence of patches. -/
def records_size {P : Type} (env : Env P) : List P → Nat
  | [] => 0
  | p :: ps => env.codec.get_serialized_size p + records_size env ps

/-- The contract of the patch codec: `serialize` stores `get_serialized_size` bytes,
`load_patch` reads back a serialized patch whatever follows it, `load_patch` finds no
patch in zero bytes, and no patch is smaller than `get_min_serialized_size`. -/
structure CodecLaws {P : Type} (env : Env P) : Prop where
  serialize_length : ∀ p, (env.codec.serialize p).length = env.codec.get_serialized_size p
  load_serialize : ∀ p rest, env.codec.load_patch (env.codec.serialize p ++ rest) = some p
  load_zero : ∀ bytes : List Nat, (∀ b ∈ bytes, b = 0) → env.codec.load_patch bytes = none
  min_size : ∀ p, env.codec.get_min_serialized_size ≤ env.codec.get_serialized_size p

/-- The order of the codec is a strict total order. -/
structure OrderLaws {P : Type} (env : Env P) : Prop where
  irrefl : ∀ a, env.codec.lt a a = false
  trans : ∀ a b c, env.codec.lt a b = true → env.codec.lt b c = true → env.codec.lt a c = true
  total : ∀ a b, a ≠ b → env.codec.lt a b = true ∨ env.codec.lt b a = true

/-- The configuration is sound: the magic fits in a block and offsets fit in `uint16_t`. -/
structure EnvOK {P : Type} (env : Env P) : Prop where
  magic_le : env.LOG_BLOCK_MAGIC.length ≤ env.block_size
  block_size_lt : env.block_size < UINT16

/-- The representation invariant the source asserts: one buffer of `block_size` bytes and
one flag per log block, and the active block inside the log range. -/
structure Shape {P : Type} (env : Env P) (s : Storage) : Prop where
  bufs_length : s.log_block_bufs.length = s.number_of_blocks
  empty_length : s.block_is_empty.length = s.number_of_blocks
  active_ge : s.first_block ≤ s.active_log_block
  active_lt : s.active_log_block < s.first_block + s.number_of_blocks
  buf_length : ∀ data ∈ s.log_block_bufs, data.length = env.block_size

/-- A patch of the sample codec: data block, counter, and number of payload bytes. -/
structure SamplePatch where
  block_id : Nat
  counter : Nat
  extra : Nat
deriving DecidableEq, Repr

/-- A sample codec: a record is its length, the data block, the counter, and `extra`
payload bytes of value 1; a record whose length byte is below 3 does not load. -/
def sampleCodec : PatchCodec SamplePatch where
  get_serialized_size p := 3 + p.extra
  get_min_serialized_size := 3
  serialize p := [3 + p.extra, p.block_id, p.counter] ++ List.replicate p.extra 1
  load_patch
    | n :: b :: c :: _ => if 3 ≤ n then some ⟨b, c, n - 3⟩ else none
    | _ => none
  get_block_id p := p.block_id
  lt p q := decide (p.block_id < q.block_id ∨ (p.block_id = q.block_id ∧
    (p.counter < q.counter ∨ (p.counter = q.counter ∧ p.extra < q.extra))))

/-- A sample configuration: blocks of 16 bytes, the magic `LOGB`. -/
def sampleEnv : Env SamplePatch :=
  { codec := sampleCodec, block_size := 16, LOG_BLOCK_MAGIC := [76, 79, 71, 66] }

/-- An in-core index in which every data block has the patch list `[⟨b, 0, 0⟩]`, so that
every patch is live. -/
def allLive : CoreIndex SamplePatch := fun b => some [⟨b, 0, 0⟩]

/-- An in-core index without any patch list. -/
def noneLive : CoreIndex SamplePatch := fun _ => none

/-- The bytes of a wiped log block: the magic followed by zero bytes. -/
def blank {P : Type} (env : Env P) : List Nat :=
  env.LOG_BLOCK_MAGIC ++ List.replicate (env.block_size - env.LOG_BLOCK_MAGIC.length) 0

/-- The scan of a sequence of records that lie back to back from offset `off`: the loop
guard is the only thing that can stop it before the end of the sequence. -/
def walk {P : Type} (env : Env P) : Nat → List P → List P × Nat
  | off, [] => ([], off)
  | off, p :: ps =>
    if off + env.codec.get_min_serialized_size < env.block_size then
      (p :: (walk env (off + env.codec.get_serialized_size p) ps).1,
        (walk env (off + env.codec.get_serialized_size p) ps).2)
    else ([], off)

/-- The layout of a log block written by the log: the magic, records back to back, zero
bytes up to the end of the block. -/
def BlockInv {P : Type} (env : Env P) (data : List Nat) : Prop :=
  ∃ (ps : List P) (k : Nat),
    data = env.LOG_BLOCK_MAGIC ++ records env ps ++ List.replicate k 0 ∧
    data.length = env.block_size

/-- What may follow `next_patch_offset` in the active block: zero bytes, or one record of
minimal size that ends the block. -/
def TailOK {P : Type} (env : Env P) (tail : List Nat) : Prop :=
  (∀ b ∈ tail, b = 0) ∨
    ∃ q, tail = env.codec.serialize q ∧
      env.codec.get_serialized_size q = env.codec.get_min_serialized_size

/-- The layout of the active block around `next_patch_offset`: the magic and the records
`ps` lie before it. -/
def ActiveLayout {P : Type} (env : Env P) (data : List Nat) (ps : List P) (next : Nat) : Prop :=
  ∃ tail : List Nat,
    data = env.LOG_BLOCK_MAGIC ++ records env ps ++ tail ∧
    data.length = env.block_size ∧
    next = env.LOG_BLOCK_MAGIC.length + records_size env ps ∧
    TailOK env tail

/-- The invariant of the log blocks: one buffer and one flag per block, every buffer laid
out as a log block, and a block flagged empty is wiped. -/
structure BlocksInv {P : Type} (env : Env P) (s : Storage) : Prop where
  bufs_length : s.log_block_bufs.length = s.number_of_blocks
  empty_length : s.block_is_empty.length = s.number_of_blocks
  block_inv : ∀ (i : Nat) (data : List Nat), s.log_block_bufs[i]? = some data →
    BlockInv env data
  empty_blank : ∀ i : Nat, s.block_is_empty[i]? = some true →
    s.log_block_bufs[i]? = some (blank env)

/-- The invariant of the log: the invariant of its blocks and, for a log that has blocks,
the active block inside the log range and laid out around `next_patch_offset`. -/
structure Inv {P : Type} (env : Env P) (s : Storage) : Prop where
  blocks : BlocksInv env s
  active_ge : s.number_of_blocks ≠ 0 → s.first_block ≤ s.active_log_block
  active_lt : s.number_of_blocks ≠ 0 → s.active_log_block < s.first_block + s.number_of_blocks
  active : s.number_of_blocks ≠ 0 → ∃ (data : List Nat) (ps : List P),
    get_buf s s.active_log_block = some data ∧ ActiveLayout env data ps s.next_patch_offset

/-- The log blocks that are in use when the log is opened were written by the log: each has
the layout of a log block. -/
def DiskOK {P : Type} (env : Env P) (block_in_use : Nat → Bool) (disk : Nat → List Nat)
    (first n : Nat) : Prop :=
  ∀ id : Nat, first ≤ id → id < first + n → block_in_use id = true →
    BlockInv env (disk id)

/-- A call of the public interface after `init`, with the in-core index it meets. -/
inductive Op (P : Type) where
  | store (idx : CoreIndex P) (p : P)
  | flush (idx : CoreIndex P) (n : Nat)

/-- The state after one call. -/
def step {P : Type} (env : Env P) (s : Storage) : Op P → Option Storage
  | Op.store idx p => (store_patch env idx s p).map (fun r => r.1)
  | Op.flush idx n => (flush_n_oldest_blocks env idx s n).map (fun r => r.1)

/-- The state after a sequence of calls. -/
def run_ops {P : Type} (env : Env P) : Storage → List (Op P) → Option Storage
  | s, [] => some s
  | s, op :: ops => (step env s op).bind (fun s1 => run_ops env s1 ops)

/-- Two states that differ at most in `active_log_block` and `next_patch_offset`. -/
def SameBlocks (s s1 : Storage) : Prop :=
  s1.first_block = s.first_block ∧ s1.number_of_blocks = s.number_of_blocks ∧
    s1.block_is_empty = s.block_is_empty ∧ s1.log_block_bufs = s.log_block_bufs

/-- An in-core index never answers with an empty patch list (the `rassert` of
`compress_block`). -/
def IndexOK {P : Type} (idx : CoreIndex P) : Prop := ∀ b : Nat, idx b ≠ some []

/-- A serializer in which no block is in use: every log block is fresh. -/
def noneInUse : Nat → Bool := fun _ => false

/-- A serializer in which every block is in use. -/
def allInUse : Nat → Bool := fun _ => true

/-- A disk without content (never read when no block is in use). -/
def noDisk : Nat → List Nat := fun _ => []

/-- The sample log right after `init 10 2` over fresh blocks. -/
def sampleFresh : Storage :=
  { first_block := 10, number_of_blocks := 2, active_log_block := 10, next_patch_offset := 4,
    block_is_empty := [true, true],
    log_block_bufs := [[76, 79, 71, 66, 0, 0, 0, 0, 0, 0, 0, 0, 0, 0, 0, 0],
                       [76, 79, 71, 66, 0, 0, 0, 0, 0, 0, 0, 0, 0, 0, 0, 0]] }

/-- Four patches of minimal size for data block 7, in increasing order. -/
def samplePatches : List SamplePatch := [⟨7, 1, 0⟩, ⟨7, 2, 0⟩, ⟨7, 3, 0⟩, ⟨7, 4, 0⟩]

/-- The calls that store the four sample patches while the index holds every patch live. -/
def sampleStores : List (Op SamplePatch) := samplePatches.map (Op.store allLive)

/-- The sample log after the four stores: the four records fill block 10 to its end. -/
def sampleFull : Storage :=
  { first_block := 10, number_of_blocks := 2, active_log_block := 10, next_patch_offset := 16,
    block_is_empty := [false, true],
    log_block_bufs := [[76, 79, 71, 66, 3, 7, 1, 3, 7, 2, 3, 7, 3, 3, 7, 4],
                       [76, 79, 71, 66, 0, 0, 0, 0, 0, 0, 0, 0, 0, 0, 0, 0]] }

/-- The sample log after the first three of the four stores. -/
def sampleThree : Storage :=
  { first_block := 10, number_of_blocks := 2, active_log_block := 10, next_patch_offset := 13,
    block_is_empty := [false, true],
    log_block_bufs := [[76, 79, 71, 66, 3, 7, 1, 3, 7, 2, 3, 7, 3, 0, 0, 0],
                       [76, 79, 71, 66, 0, 0, 0, 0, 0, 0, 0, 0, 0, 0, 0, 0]] }

/-- A patch of 23 bytes, larger than the room behind the magic of a sample block. -/
def sampleBig : SamplePatch := ⟨7, 5, 20⟩

/-- The sample log after `store_patch` has refused `sampleBig` on `sampleFull`. -/
def sampleRestored : Storage := { sampleFull with next_patch_offset := 13 }

/-- A sample log of one block right after `init 10 1` over a fresh block. -/
def sampleOne : Storage :=
  { first_block := 10, number_of_blocks := 1, active_log_block := 10, next_patch_offset := 4,
    block_is_empty := [true],
    log_block_bufs := [[76, 79, 71, 66, 0, 0, 0, 0, 0, 0, 0, 0, 0, 0, 0, 0]] }

/-- Two calls on the log of one block: a patch is stored, then a patch of 13 bytes is
refused while the in-core index holds no patch list, so that compaction drops the first. -/
def sampleDiscard : List (Op SamplePatch) :=
  [Op.store allLive ⟨7, 1, 0⟩, Op.store noneLive ⟨7, 2, 10⟩]

/-- The log of one block after `sampleDiscard`: the block is wiped, its flag is not set. -/
def sampleWiped : Storage :=
  { first_block := 10, number_of_blocks := 1, active_log_block := 10, next_patch_offset := 4,
    block_is_empty := [false],
    log_block_bufs := [[76, 79, 71, 66, 0, 0, 0, 0, 0, 0, 0, 0, 0, 0, 0, 0]] }

/-- The patches found by scanning the log blocks in order. -/
def scan_all {P : Type} (env : Env P) : List (List Nat) → Option (List P)
  | [] => some []
  | data :: bufs => do
    let r ← scan_block env data
    let rest ← scan_all env bufs
    some (r.1 ++ rest)

/-- The list stored under a key of the map of `load_patches`, if the key is present. -/
def map_find {P : Type} : List (Nat × List P) → Nat → Option (List P)
  | [], _ => none
  | (k1, l) :: m, k => if k = k1 then some l else map_find m k

/-- The patches of a sequence that amend the data block `b`, in order. -/
def patches_for {P : Type} (env : Env P) (b : Nat) (ps : List P) : List P :=
  ps.filter (fun p => decide (env.codec.get_block_id p = b))

/-- The invariant of the map of `load_patches` once the patches `done` have been scanned:
keys increase strictly, and the key `b` is present exactly when `b` is in use and some
scanned patch amends it, with the scanned patches for `b` in scan order. -/
def MapInv {P : Type} (env : Env P) (block_in_use : Nat → Bool) (done : List P)
    (m : List (Nat × List P)) : Prop :=
  (m.map Prod.fst).Pairwise (fun a b => a < b) ∧
    ∀ b : Nat, map_find m b =
      if block_in_use b = true ∧ (patches_for env b done).isEmpty = false then
        some (patches_for env b done)
      else none

/-- A serializer in which every data block but block 5 is in use. -/
def sampleInUse : Nat → Bool := fun b => b != 5

/-- A sample log whose two blocks hold patches for the data blocks 9, 7 and 5, out of
order. -/
def sampleMixed : Storage :=
  { first_block := 10, number_of_blocks := 2, active_log_block := 11, next_patch_offset := 10,
    block_is_empty := [false, false],
    log_block_bufs := [[76, 79, 71, 66, 3, 9, 2, 3, 7, 2, 3, 5, 1, 0, 0, 0],
                       [76, 79, 71, 66, 3, 7, 1, 3, 9, 1, 0, 0, 0, 0, 0, 0]] }

/-- The patches that the scans of the blocks of `sampleMixed` find. -/
def sampleMixedPatches : List SamplePatch :=
  [⟨9, 2, 0⟩, ⟨7, 2, 0⟩, ⟨5, 1, 0⟩, ⟨7, 1, 0⟩, ⟨9, 1, 0⟩]

/-- A sequence of `store_patch` calls, each with the in-core index it meets: the final
state and the patches for which `store_patch` returned `true`, in call order. -/
def run_stores {P : Type} (env : Env P) :
    Storage → List (CoreIndex P × P) → Option (Storage × List P)
  | s, [] => some (s, [])
  | s, c :: calls => do
    let r ← store_patch env c.1 s c.2
    let rest ← run_stores env r.1 calls
    some (rest.1, if r.2 then c.2 :: rest.2 else rest.2)

/-- Every in-core index of a sequence of `store_patch` calls holds live (`keep_patch`) every
patch stored before the call; `stored` are the patches stored before the sequence. -/
def LiveCalls {P : Type} (env : Env P) : Storage → List P → List (CoreIndex P × P) → Prop
  | _, _, [] => True
  | s, stored, c :: calls =>
    (∀ q ∈ stored, keep_patch env c.1 q = true) ∧
      ∀ (s1 : Storage) (b : Bool), store_patch env c.1 s c.2 = some (s1, b) →
        LiveCalls env s1 (if b then stored ++ [c.2] else stored) calls

/-- The patch `q` is found by the scan of some log block. -/
def OnDisk {P : Type} (env : Env P) (s : Storage) (q : P) : Prop :=
  ∃ (i : Nat) (data : List Nat) (r : List P × Nat),
    s.log_block_bufs[i]? = some data ∧ scan_block env data = some r ∧ q ∈ r.1

/-- The invariant of a log that is only written by `store_patch` under live indexes: the
patches that the scans find are the patches `stored`. -/
structure StoredInv {P : Type} (env : Env P) (s : Storage) (stored : List P) : Prop where
  inv : Inv env s
  sound : ∀ q, OnDisk env s q → q ∈ stored
  complete : ∀ q ∈ stored, OnDisk env s q

/-- The sample configuration with a smaller `get_min_serialized_size`: every patch is
larger than the minimal size. -/
def slackEnv : Env SamplePatch :=
  { sampleEnv with codec := { sampleCodec with get_min_serialized_size := 2 } }

/-- The four sample patches, each stored while the index holds every patch live. -/
def sampleCalls : List (CoreIndex SamplePatch × SamplePatch) :=
  samplePatches.map (fun p => (allLive, p))

/-- The blocks a run of the flush loop over the ring offsets `is` wipes: the block at index
`j` is visited and its flag is not set. -/
def Wiped (s : Storage) (is : List Nat) (j : Nat) : Prop :=
  (∃ i ∈ is, ring_block s i - s.first_block = j) ∧ s.block_is_empty[j]? = some false

/-- A sample log of three blocks: block 10 is active and holds one patch, block 11 holds
two patches, block 12 is blank. -/
def sampleUsed : Storage :=
  { first_block := 10, number_of_blocks := 3, active_log_block := 10, next_patch_offset := 7,
    block_is_empty := [false, false, true],
    log_block_bufs := [[76, 79, 71, 66, 3, 7, 3, 0, 0, 0, 0, 0, 0, 0, 0, 0],
                       [76, 79, 71, 66, 3, 7, 1, 3, 7, 2, 0, 0, 0, 0, 0, 0],
                       [76, 79, 71, 66, 0, 0, 0, 0, 0, 0, 0, 0, 0, 0, 0, 0]] }

/-- The loop guard of the scan holds in front of every record of a sequence of records
that lie back to back from offset `off`. -/
def Guarded {P : Type} (env : Env P) : Nat → List P → Prop
  | _, [] => True
  | off, p :: ps =>
    off + env.codec.get_min_serialized_size < env.block_size ∧
      Guarded env (off + env.codec.get_serialized_size p) ps

/-- A sample in-core index: data block 7 has the patch list `[⟨7, 2, 0⟩]`. -/
def sampleHalf : CoreIndex SamplePatch := fun b => if b = 7 then some [⟨7, 2, 0⟩] else none

/-- The sample log `sampleUsed` after `compress_block` of block 11 with the in-core index
`sampleHalf`: the first of the two patches of the block is discarded. -/
def sampleCompacted : Storage :=
  { sampleUsed with
    log_block_bufs := [[76, 79, 71, 66, 3, 7, 3, 0, 0, 0, 0, 0, 0, 0, 0, 0],
                       [76, 79, 71, 66, 3, 7, 2, 0, 0, 0, 0, 0, 0, 0, 0, 0],
                       [76, 79, 71, 66, 0, 0, 0, 0, 0, 0, 0, 0, 0, 0, 0, 0]] }

/-- A sequence of `store_patch` calls, each with the in-core index it meets: the final
state and the values the calls returned, in call order. -/
def store_results {P : Type} (env : Env P) :
    Storage → List (CoreIndex P × P) → Option (Storage × List Bool)
  | s, [] => some (s, [])
  | s, c :: calls => do
    let r ← store_patch env c.1 s c.2
    let rest ← store_results env r.1 calls
    some (rest.1, r.2 :: rest.2)

/-- The bytes of a log block that holds the records of `ps` behind the magic and zero bytes
up to the end of the block. -/
def block_of {P : Type} (env : Env P) (ps : List P) : List Nat :=
  env.LOG_BLOCK_MAGIC ++ records env ps ++
    List.replicate (env.block_size - env.LOG_BLOCK_MAGIC.length - records_size env ps) 0

/-- The log of two blocks that holds the patches `ps`, the first 40 of them in its first
block and the others in its second block, which is active once it holds a patch. -/
def fill_state {P : Type} (env : Env P) (first : Nat) (ps : List P) : Storage :=
  { first_block := first, number_of_blocks := 2,
    active_log_block := if ps.length ≤ 40 then first else first + 1,
    next_patch_offset := env.LOG_BLOCK_MAGIC.length +
      records_size env (if ps.length ≤ 40 then ps else ps.drop 40),
    block_is_empty := [ps.isEmpty, decide (ps.length ≤ 40)],
    log_block_bufs := [block_of env (ps.take 40), block_of env (ps.drop 40)] }

/-- A configuration with blocks of 4096 bytes and a magic of 8 bytes over the sample
codec. -/
def fillEnv : Env SamplePatch :=
  { codec := sampleCodec, block_size := 4096,
    LOG_BLOCK_MAGIC := [76, 79, 71, 66, 76, 79, 71, 66] }

/-- The calls that store 85 patches of 100 bytes for data block 7 while the index holds
every patch live. -/
def fillCalls : List (CoreIndex SamplePatch × SamplePatch) :=
  (List.range 85).map (fun c => (allLive, ⟨7, c, 97⟩))

/-- A block of 16 bytes that begins with the magic and was not written by the log: behind
the magic lies a record header that declares a length of 50 bytes. -/
def foreignBlock : List Nat := [76, 79, 71, 66, 50, 7, 2, 0, 0, 0, 0, 0, 0, 0, 0, 0]

/-- A disk on which every block holds `foreignBlock`. -/
def foreignDisk : Nat → List Nat := fun _ => foreignBlock

/-- The log after `init 10 2` over `foreignDisk` with both log blocks in use. -/
def sampleForeign : Storage :=
  { first_block := 10, number_of_blocks := 2, active_log_block := 10, next_patch_offset := 54,
    block_is_empty := [false, false],
    log_block_bufs := [foreignBlock, foreignBlock] }

/-- Consecutive `reclaim_space` calls, one for each in-core index of the list: the states
the calls return, in call order. -/
def reclaim_trace {P : Type} (env : Env P) : Storage → List (CoreIndex P) →
    Option (List Storage)
  | _, [] => some []
  | s, idx :: idxs => do
    let s1 ← reclaim_space env idx s 0
    let rest ← reclaim_trace env s1 idxs
    some (s1 :: rest)

/-- The difference between the states before and after a call that compacts the log block
`id` with the in-core index `idx` and makes it active: the block `id` is active, no flag has
changed, every other block has the bytes it had, and, with `ps` the patches that the scan of
block `id` found before the call, block `id` is unchanged if every patch of `ps` passes
`keep_patch`, and otherwise holds a wiped block into which the patches of `ps` that pass
`keep_patch` have been written back in order. -/
def Compacted {P : Type} (env : Env P) (idx : CoreIndex P) (before after : Storage)
    (id : Nat) : Prop :=
  after.active_log_block = id ∧
    after.block_is_empty = before.block_is_empty ∧
    (∀ id2 : Nat, id2 ≠ id → get_buf after id2 = get_buf before id2) ∧
    ∃ (data : List Nat) (ps : List P) (off : Nat),
      get_buf before id = some data ∧ scan_block env data = some (ps, off) ∧
      get_buf after id = some
        (if ps.any (fun p => !keep_patch env idx p) = true then
          write_patches env (init_log_block_data env data) env.LOG_BLOCK_MAGIC.length
            (ps.filter (keep_patch env idx))
        else data)

/-- A sample log of one block that holds one patch. -/
def sampleOneStored : Storage :=
  { first_block := 10, number_of_blocks := 1, active_log_block := 10, next_patch_offset := 7,
    block_is_empty := [false],
    log_block_bufs := [[76, 79, 71, 66, 3, 7, 1, 0, 0, 0, 0, 0, 0, 0, 0, 0]] }

/-- A sample log of three blocks, each holding a patch older than `⟨7, 2, 0⟩`; the middle
block is active. -/
def sampleRingUsed : Storage :=
  { first_block := 10, number_of_blocks := 3, active_log_block := 11, next_patch_offset := 10,
    block_is_empty := [false, false, false],
    log_block_bufs := [[76, 79, 71, 66, 3, 7, 1, 3, 7, 2, 0, 0, 0, 0, 0, 0],
                       [76, 79, 71, 66, 3, 7, 1, 3, 7, 3, 0, 0, 0, 0, 0, 0],
                       [76, 79, 71, 66, 3, 7, 1, 0, 0, 0, 0, 0, 0, 0, 0, 0]] }

/-- The states after the first and the second `reclaim_space` on `sampleRingUsed` with the
in-core index `sampleHalf`: block 12 is wiped, then block 10 keeps its second patch. -/
def sampleRingTrace : List Storage :=
  [{ sampleRingUsed with
      active_log_block := 12, next_patch_offset := 4,
      log_block_bufs := [[76, 79, 71, 66, 3, 7, 1, 3, 7, 2, 0, 0, 0, 0, 0, 0],
                         [76, 79, 71, 66, 3, 7, 1, 3, 7, 3, 0, 0, 0, 0, 0, 0],
                         [76, 79, 71, 66, 0, 0, 0, 0, 0, 0, 0, 0, 0, 0, 0, 0]] },
   { sampleRingUsed with
      active_log_block := 10, next_patch_offset := 7,
      log_block_bufs := [[76, 79, 71, 66, 3, 7, 2, 0, 0, 0, 0, 0, 0, 0, 0, 0],
                         [76, 79, 71, 66, 3, 7, 1, 3, 7, 3, 0, 0, 0, 0, 0, 0],
                         [76, 79, 71, 66, 0, 0, 0, 0, 0, 0, 0, 0, 0, 0, 0, 0]] }]

end DiffOocore

/-! ## Theorems -/

namespace DiffOocore

/-! ### Buffers -/

theorem write_at_length (buf : List Nat) (off : Nat) (bytes : List Nat) :
    (write_at buf off bytes).length = buf.length := by
  simp only [write_at, List.length_append, List.length_take, List.length_drop]
  omega

theorem write_at_fits (buf : List Nat) (off : Nat) (bytes : List Nat)
    (h : off + bytes.length ≤ buf.length) :
    write_at buf off bytes = buf.take off ++ bytes ++ buf.drop (off + bytes.length) := by
  have h1 : bytes.take (buf.length - off) = bytes := List.take_of_length_le (by omega)
  unfold write_at
  rw [h1]

theorem write_at_append (a t bytes : List Nat) (h : bytes.length ≤ t.length) :
    write_at (a ++ t) a.length bytes = a ++ bytes ++ t.drop bytes.length := by
  rw [write_at_fits _ _ _ (by simp; omega)]
  simp

theorem get_buf_lt (s : Storage) (id : Nat) (d : List Nat) (h : get_buf s id = some d) :
    s.first_block ≤ id ∧ id - s.first_block < s.log_block_bufs.length ∧
      s.log_block_bufs[id - s.first_block]? = some d := by
  unfold get_buf at h
  split at h
  · rename_i hle
    exact ⟨hle, (List.getElem?_eq_some_iff.1 h).1, h⟩
  · cases h

theorem get_buf_set_buf_self (s : Storage) (id : Nat) (data d : List Nat)
    (h : get_buf s id = some d) : get_buf (set_buf s id data) id = some data := by
  obtain ⟨hle, hlt, -⟩ := get_buf_lt s id d h
  simp [get_buf, set_buf, hle, hlt]

theorem get_buf_set_buf_other (s : Storage) (id id2 : Nat) (data : List Nat)
    (h : id2 ≠ id) (hid : s.first_block ≤ id) :
    get_buf (set_buf s id data) id2 = get_buf s id2 := by
  unfold get_buf set_buf
  by_cases h2 : s.first_block ≤ id2
  · simp only [h2, if_true]
    rw [List.getElem?_set_ne]
    omega
  · simp [h2]

theorem get_buf_of_shape {P : Type} (env : Env P) (s : Storage) (hs : Shape env s) :
    ∃ data, get_buf s s.active_log_block = some data ∧ data.length = env.block_size := by
  have hlt : s.active_log_block - s.first_block < s.log_block_bufs.length := by
    have h1 := hs.active_lt
    have h2 := hs.active_ge
    have h3 := hs.bufs_length
    omega
  refine ⟨s.log_block_bufs[s.active_log_block - s.first_block], ?_, ?_⟩
  · simp [get_buf, hs.active_ge, hlt]
  · exact hs.buf_length _ (List.getElem_mem _)

/-! ### Records and the record scan -/

theorem records_length {P : Type} (env : Env P) (h : CodecLaws env) (ps : List P) :
    (records env ps).length = records_size env ps := by
  induction ps with
  | nil => rfl
  | cons p ps ih => simp [records, records_size, ih, h.serialize_length]

theorem records_append {P : Type} (env : Env P) (ps qs : List P) :
    records env (ps ++ qs) = records env ps ++ records env qs := by
  induction ps with
  | nil => rfl
  | cons p ps ih => simp [records, ih]

theorem records_size_append {P : Type} (env : Env P) (ps qs : List P) :
    records_size env (ps ++ qs) = records_size env ps + records_size env qs := by
  induction ps with
  | nil => simp [records_size]
  | cons p ps ih => simp [records_size, ih]; omega

theorem size_pos {P : Type} (env : Env P) (h : CodecLaws env) (p : P) :
    0 < env.codec.get_serialized_size p := by
  rcases Nat.eq_zero_or_pos (env.codec.get_serialized_size p) with h0 | h0
  · have hnil : env.codec.serialize p = [] := by
      apply List.eq_nil_of_length_eq_zero
      rw [h.serialize_length, h0]
    have h1 := h.load_serialize p []
    rw [hnil] at h1
    have h2 := h.load_zero [] (by simp)
    simp at h1
    rw [h2] at h1
    cases h1
  · exact h0

theorem records_size_filter_le {P : Type} (env : Env P) (f : P → Bool) (ps : List P) :
    records_size env (ps.filter f) ≤ records_size env ps := by
  induction ps with
  | nil => simp [records_size]
  | cons p ps ih =>
    by_cases hf : f p = true
    · simp [List.filter, hf, records_size]; exact ih
    · simp [List.filter, hf, records_size]; omega

theorem strncmp_eq_append (m r : List Nat) : strncmp_eq (m ++ r) m m.length = true := by
  induction m with
  | nil => simp [strncmp_eq]
  | cons a m ih =>
    simp only [List.cons_append, List.length_cons, strncmp_eq, if_true]
    split
    · rfl
    · exact ih

theorem magic_ok_append {P : Type} (env : Env P) (r : List Nat) :
    magic_ok env (env.LOG_BLOCK_MAGIC ++ r) = true :=
  strncmp_eq_append _ _

/-- The scan of records that lie back to back either takes all of them, or stops at the
loop guard in front of some record. -/
theorem walk_split {P : Type} (env : Env P) (ps : List P) (off : Nat) :
    ∃ ps1 ps2 : List P, ps = ps1 ++ ps2 ∧
      walk env off ps = (ps1, off + records_size env ps1) ∧
      (ps2 = [] ∨ env.block_size ≤ off + records_size env ps1 +
        env.codec.get_min_serialized_size) := by
  induction ps generalizing off with
  | nil => exact ⟨[], [], rfl, by simp [walk, records_size], Or.inl rfl⟩
  | cons p ps ih =>
    by_cases hg : off + env.codec.get_min_serialized_size < env.block_size
    · obtain ⟨ps1, ps2, hps, hw, hstop⟩ := ih (off + env.codec.get_serialized_size p)
      refine ⟨p :: ps1, ps2, by simp [hps], ?_, ?_⟩
      · simp only [walk, hg, if_true, hw, records_size]
        simp; omega
      · rcases hstop with h | h
        · exact Or.inl h
        · right
          simp only [records_size]
          omega
    · refine ⟨[], p :: ps, rfl, by simp [walk, hg, records_size], Or.inr ?_⟩
      simp only [records_size]
      omega

theorem scan_from_records {P : Type} (env : Env P) (h : CodecLaws env)
    (hbs : env.block_size < UINT16) (ps : List P) :
    ∀ (pre : List Nat) (k fuel : Nat),
      pre.length + records_size env ps + k = env.block_size → ps.length < fuel →
      scan_from env (pre ++ records env ps ++ List.replicate k 0) fuel pre.length =
        some (walk env pre.length ps) := by
  induction ps with
  | nil =>
    intro pre k fuel hlen hfuel
    obtain ⟨f, rfl⟩ : ∃ f, fuel = f + 1 := ⟨fuel - 1, by simp at hfuel; omega⟩
    simp only [scan_from, records, List.append_nil, walk]
    split
    · rw [List.drop_left, h.load_zero _ (by intro b hb; exact (List.mem_replicate.1 hb).2)]
    · rfl
  | cons p ps ih =>
    intro pre k fuel hlen hfuel
    obtain ⟨f, rfl⟩ : ∃ f, fuel = f + 1 := ⟨fuel - 1, by simp at hfuel; omega⟩
    simp only [scan_from, walk]
    split
    · have hdrop : List.drop pre.length (pre ++ records env (p :: ps) ++ List.replicate k 0) =
          env.codec.serialize p ++ (records env ps ++ List.replicate k 0) := by
        rw [List.append_assoc, List.drop_left]
        simp [records]
      rw [hdrop, h.load_serialize]
      simp only [records_size] at hlen
      have hmod : (pre.length + env.codec.get_serialized_size p) % UINT16 =
          pre.length + env.codec.get_serialized_size p := by
        apply Nat.mod_eq_of_lt
        omega
      have hdata : pre ++ records env (p :: ps) ++ List.replicate k 0 =
          (pre ++ env.codec.serialize p) ++ records env ps ++ List.replicate k 0 := by
        simp [records]
      have hpl : (pre ++ env.codec.serialize p).length =
          pre.length + env.codec.get_serialized_size p := by
        simp [h.serialize_length]
      simp only []
      rw [hmod, hdata, ← hpl, ih (pre ++ env.codec.serialize p) k f (by rw [hpl]; omega)
        (by simp at hfuel; omega)]
      simp
    · rfl

theorem length_le_records_size {P : Type} (env : Env P) (h : CodecLaws env) (ps : List P) :
    ps.length ≤ records_size env ps := by
  induction ps with
  | nil => simp
  | cons p ps ih =>
    have := size_pos env h p
    simp only [List.length_cons, records_size]
    omega

theorem records_size_eq_zero {P : Type} (env : Env P) (h : CodecLaws env) (ps : List P)
    (h0 : records_size env ps = 0) : ps = [] := by
  have := length_le_records_size env h ps
  apply List.eq_nil_of_length_eq_zero
  omega

theorem zeros_eq_replicate (l : List Nat) (h : ∀ b ∈ l, b = 0) :
    l = List.replicate l.length 0 := by
  induction l with
  | nil => rfl
  | cons a l ih =>
    have ha : a = 0 := h a (by simp)
    have := ih (fun b hb => h b (by simp [hb]))
    simp only [List.length_cons, List.replicate_succ]
    rw [← this, ha]

theorem activeLayout_blockInv {P : Type} (env : Env P) (data : List Nat) (ps : List P)
    (next : Nat) (h : ActiveLayout env data ps next) : BlockInv env data := by
  obtain ⟨tail, hd, hl, -, ht⟩ := h
  rcases ht with hz | ⟨q, hq, -⟩
  · exact ⟨ps, tail.length, by rw [← zeros_eq_replicate tail hz]; exact hd, hl⟩
  · refine ⟨ps ++ [q], 0, ?_, hl⟩
    rw [hd, hq, records_append]
    simp [records]

/-- The scan of a block written by the log stops at the end of a sequence of its records, and
what follows is zero bytes or one last record of minimal size. -/
theorem scan_block_layout {P : Type} (env : Env P) (h : CodecLaws env) (hok : EnvOK env)
    (data : List Nat) (hb : BlockInv env data) :
    ∃ ps1 : List P,
      scan_block env data = some (ps1, env.LOG_BLOCK_MAGIC.length + records_size env ps1) ∧
      ActiveLayout env data ps1 (env.LOG_BLOCK_MAGIC.length + records_size env ps1) := by
  obtain ⟨ps, k, hd, hl⟩ := hb
  have hlen : env.LOG_BLOCK_MAGIC.length + records_size env ps + k = env.block_size := by
    rw [← hl, hd]
    simp only [List.length_append, List.length_replicate, records_length env h]
  have hbs := hok.block_size_lt
  have hfuel : ps.length < UINT16 := by
    have := length_le_records_size env h ps
    omega
  obtain ⟨ps1, ps2, hps, hw, hstop⟩ := walk_split env ps env.LOG_BLOCK_MAGIC.length
  have hscan : scan_block env data =
      some (ps1, env.LOG_BLOCK_MAGIC.length + records_size env ps1) := by
    have hm : magic_ok env data = true := by
      rw [hd, List.append_assoc]
      exact magic_ok_append env _
    simp only [scan_block, hm, check, if_true, Option.bind_eq_bind, Option.some_bind]
    rw [hd, scan_from_records env h hbs ps _ k UINT16 hlen hfuel, hw]
  refine ⟨ps1, hscan, records env ps2 ++ List.replicate k 0, ?_, hl, rfl, ?_⟩
  · rw [hd, hps, records_append]
    simp
  · rcases hstop with h2 | h2
    · left
      intro b hb
      rw [h2] at hb
      simp [records] at hb
      exact hb.2
    · cases ps2 with
      | nil =>
        left
        intro b hb
        simp [records] at hb
        exact hb.2
      | cons q rest =>
        right
        rw [hps, records_size_append] at hlen
        simp only [records_size] at hlen
        have hmin := h.min_size q
        have hrest : rest = [] := records_size_eq_zero env h rest (by omega)
        have hk : k = 0 := by omega
        refine ⟨q, ?_, by omega⟩
        rw [hrest, hk]
        simp [records]

theorem scan_block_blank {P : Type} (env : Env P) (h : CodecLaws env) (hok : EnvOK env) :
    scan_block env (blank env) = some (([] : List P), env.LOG_BLOCK_MAGIC.length) := by
  have hm : magic_ok env (blank env) = true := magic_ok_append env _
  simp only [scan_block, hm, check, if_true, Option.bind_eq_bind, Option.some_bind]
  have hmag := hok.magic_le
  have := scan_from_records env h hok.block_size_lt [] env.LOG_BLOCK_MAGIC
    (env.block_size - env.LOG_BLOCK_MAGIC.length) UINT16
    (by simp only [records_size]; omega) (by simp [UINT16])
  simpa [records, walk, blank] using this

theorem blank_blockInv {P : Type} (env : Env P) (hok : EnvOK env) : BlockInv env (blank env) := by
  refine ⟨[], env.block_size - env.LOG_BLOCK_MAGIC.length, by simp [blank, records], ?_⟩
  have := hok.magic_le
  simp [blank]
  omega

theorem init_log_block_data_eq {P : Type} (env : Env P) (hok : EnvOK env) (data : List Nat)
    (hl : data.length = env.block_size) : init_log_block_data env data = blank env := by
  have hm := hok.magic_le
  unfold init_log_block_data blank
  have h1 : write_at data 0 env.LOG_BLOCK_MAGIC =
      env.LOG_BLOCK_MAGIC ++ data.drop env.LOG_BLOCK_MAGIC.length := by
    rw [write_at_fits _ _ _ (by omega)]
    simp
  rw [h1]
  have h2 := write_at_append env.LOG_BLOCK_MAGIC (data.drop env.LOG_BLOCK_MAGIC.length)
    (List.replicate (env.block_size - env.LOG_BLOCK_MAGIC.length) 0) (by simp; omega)
  rw [h2]
  simp
  omega

theorem write_patches_zeros {P : Type} (env : Env P) (h : CodecLaws env)
    (hbs : env.block_size < UINT16) (ps : List P) :
    ∀ (pre : List Nat) (k : Nat), pre.length + k = env.block_size →
      records_size env ps ≤ k →
      write_patches env (pre ++ List.replicate k 0) pre.length ps =
        pre ++ records env ps ++ List.replicate (k - records_size env ps) 0 := by
  induction ps with
  | nil => intro pre k _ _; simp [write_patches, records, records_size]
  | cons p ps ih =>
    intro pre k hlen hk
    simp only [records_size] at hk
    have hmod : (pre.length + env.codec.get_serialized_size p) % UINT16 =
        pre.length + env.codec.get_serialized_size p := by
      apply Nat.mod_eq_of_lt
      omega
    have hw := write_at_append pre (List.replicate k 0) (env.codec.serialize p)
      (by simp [h.serialize_length]; omega)
    have hpl : (pre ++ env.codec.serialize p).length =
        pre.length + env.codec.get_serialized_size p := by
      simp [h.serialize_length]
    simp only [write_patches]
    rw [hmod, hw, h.serialize_length, List.drop_replicate, ← hpl,
      ih (pre ++ env.codec.serialize p) (k - env.codec.get_serialized_size p)
        (by rw [hpl]; omega) (by omega)]
    simp [records, records_size]
    omega

/-! ### The invariant of the log and the operations -/

theorem get_buf_in_range (s : Storage) (id : Nat) (hge : s.first_block ≤ id)
    (hlt : id - s.first_block < s.log_block_bufs.length) :
    get_buf s id = some (s.log_block_bufs[id - s.first_block]) := by
  simp [get_buf, hge, hlt]

/-- Replacing one buffer by a well laid out one, and changing flags only at that block,
keeps the invariant of the blocks. -/
theorem blocksInv_update {P : Type} (env : Env P) (s s1 : Storage) (j : Nat) (data : List Nat)
    (hs : BlocksInv env s) (hd : BlockInv env data)
    (hcount : s1.number_of_blocks = s.number_of_blocks)
    (hbufs : s1.log_block_bufs = s.log_block_bufs.set j data)
    (hlen : s1.block_is_empty.length = s.block_is_empty.length)
    (hflags : ∀ i : Nat, i ≠ j → s1.block_is_empty[i]? = s.block_is_empty[i]?)
    (hj : s1.block_is_empty[j]? = some true → data = blank env) :
    BlocksInv env s1 := by
  refine ⟨?_, ?_, ?_, ?_⟩
  · rw [hbufs, hcount, List.length_set, hs.bufs_length]
  · rw [hlen, hcount, hs.empty_length]
  · intro i d hi
    rw [hbufs, List.getElem?_set] at hi
    split at hi
    · split at hi
      · cases hi
        exact hd
      · cases hi
    · exact hs.block_inv i d hi
  · intro i hi
    have hil : i < s.log_block_bufs.length := by
      have := (List.getElem?_eq_some_iff.1 hi).1
      rw [hlen, hs.empty_length, ← hs.bufs_length] at this
      exact this
    by_cases hij : i = j
    · subst hij
      rw [hbufs, List.getElem?_set_self hil, hj hi]
    · rw [hbufs, List.getElem?_set_ne (Ne.symm hij)]
      rw [hflags i hij] at hi
      exact hs.empty_blank i hi

theorem blockInv_length {P : Type} (env : Env P) (data : List Nat) (h : BlockInv env data) :
    data.length = env.block_size := by
  obtain ⟨_, _, _, hl⟩ := h
  exact hl

theorem set_active_inv {P : Type} (env : Env P) (h : CodecLaws env) (hok : EnvOK env)
    (s : Storage) (id : Nat) (hs : BlocksInv env s) (hge : s.first_block ≤ id)
    (hlt : id < s.first_block + s.number_of_blocks) :
    ∃ s1, set_active_log_block env s id = some s1 ∧ Inv env s1 ∧ SameBlocks s s1 ∧
      s1.active_log_block = id ∧
      ∃ data r, get_buf s id = some data ∧ scan_block env data = some r ∧
        s1.next_patch_offset = r.2 := by
  have hj : id - s.first_block < s.log_block_bufs.length := by
    rw [hs.bufs_length]; omega
  have hget := get_buf_in_range s id hge hj
  have hb : BlockInv env (s.log_block_bufs[id - s.first_block]) :=
    hs.block_inv (id - s.first_block) _ (List.getElem?_eq_getElem hj)
  obtain ⟨ps1, hscan, hlay⟩ := scan_block_layout env h hok _ hb
  refine ⟨{ s with active_log_block := id,
                   next_patch_offset := env.LOG_BLOCK_MAGIC.length + records_size env ps1 },
    ?_, ?_, ⟨rfl, rfl, rfl, rfl⟩, rfl, _, _, hget, hscan, rfl⟩
  · simp [set_active_log_block, check, hge, hlt, hget, hscan]
  · refine ⟨⟨hs.bufs_length, hs.empty_length, hs.block_inv, hs.empty_blank⟩,
      fun _ => hge, fun _ => hlt, fun _ => ⟨_, ps1, hget, hlay⟩⟩

theorem patches_nonempty_of_indexOK {P : Type} (env : Env P) (idx : CoreIndex P)
    (hidx : IndexOK idx) (p : P) : patches_nonempty env idx p = true := by
  unfold patches_nonempty
  split
  · rename_i heq
    exact absurd heq (hidx _)
  · rfl

theorem activeLayout_size_le {P : Type} (env : Env P) (h : CodecLaws env) (data : List Nat)
    (ps : List P) (next : Nat) (hl : ActiveLayout env data ps next) :
    env.LOG_BLOCK_MAGIC.length + records_size env ps ≤ env.block_size := by
  obtain ⟨tail, hd, hlen, -, -⟩ := hl
  rw [← hlen, hd]
  simp only [List.length_append, records_length env h]
  omega

theorem compress_block_inv {P : Type} (env : Env P) (h : CodecLaws env) (hok : EnvOK env)
    (idx : CoreIndex P) (s : Storage) (id : Nat) (hs : BlocksInv env s)
    (hge : s.first_block ≤ id) (hlt : id < s.first_block + s.number_of_blocks) :
    (compress_block env idx s id = none ∧ ¬ IndexOK idx) ∨
    ∃ s1, compress_block env idx s id = some s1 ∧ BlocksInv env s1 ∧
      s1.first_block = s.first_block ∧ s1.number_of_blocks = s.number_of_blocks ∧
      s1.active_log_block = s.active_log_block ∧
      s1.next_patch_offset = s.next_patch_offset ∧ s1.block_is_empty = s.block_is_empty := by
  have hj : id - s.first_block < s.log_block_bufs.length := by
    rw [hs.bufs_length]; omega
  have hget := get_buf_in_range s id hge hj
  have hgetE : s.log_block_bufs[id - s.first_block]? =
      some (s.log_block_bufs[id - s.first_block]) := List.getElem?_eq_getElem hj
  have hb : BlockInv env (s.log_block_bufs[id - s.first_block]) :=
    hs.block_inv (id - s.first_block) _ hgetE
  obtain ⟨ps1, hscan, hlay⟩ := scan_block_layout env h hok _ hb
  by_cases hall : ps1.all (patches_nonempty env idx) = true
  swap
  · left
    constructor
    · simp only [compress_block, hget, hscan, hall, check, Option.bind_eq_bind,
        Option.some_bind]
      rfl
    · intro hidx
      apply hall
      rw [List.all_eq_true]
      intro p _
      exact patches_nonempty_of_indexOK env idx hidx p
  right
  by_cases hch : ps1.any (fun p => !keep_patch env idx p) = true
  · have hinit : init_log_block_data env (s.log_block_bufs[id - s.first_block]) = blank env :=
      init_log_block_data_eq env hok _ (blockInv_length env _ hb)
    have hget1 : get_buf (set_buf s id (blank env)) id = some (blank env) :=
      get_buf_set_buf_self s id _ _ hget
    have hsz := activeLayout_size_le env h _ _ _ hlay
    have hfl := records_size_filter_le env (keep_patch env idx) ps1
    have hmag := hok.magic_le
    have hw : write_patches env (blank env) env.LOG_BLOCK_MAGIC.length
        (ps1.filter (keep_patch env idx)) =
        env.LOG_BLOCK_MAGIC ++ records env (ps1.filter (keep_patch env idx)) ++
          List.replicate (env.block_size - env.LOG_BLOCK_MAGIC.length -
            records_size env (ps1.filter (keep_patch env idx))) 0 :=
      write_patches_zeros env h hok.block_size_lt (ps1.filter (keep_patch env idx))
        env.LOG_BLOCK_MAGIC (env.block_size - env.LOG_BLOCK_MAGIC.length) (by omega) (by omega)
    have hmb : magic_ok env (blank env) = true := magic_ok_append env _
    have hres : compress_block env idx s id = some (set_buf (set_buf s id (blank env)) id
        (write_patches env (blank env) env.LOG_BLOCK_MAGIC.length
          (ps1.filter (keep_patch env idx)))) := by
      simp only [compress_block, hget, hscan, hall, check, if_true, Option.bind_eq_bind,
        Option.some_bind, hch, init_log_block, hinit, hget1, hmb]
    refine ⟨_, hres, ?_, rfl, rfl, rfl, rfl, rfl⟩
    apply blocksInv_update env s _ (id - s.first_block)
      (write_patches env (blank env) env.LOG_BLOCK_MAGIC.length
        (ps1.filter (keep_patch env idx))) hs
    · refine ⟨ps1.filter (keep_patch env idx), _, hw, ?_⟩
      rw [hw]
      simp only [List.length_append, List.length_replicate, records_length env h]
      omega
    · rfl
    · simp [set_buf]
    · rfl
    · intro _ _; rfl
    · intro hflag
      exfalso
      have hbl := hs.empty_blank _ hflag
      rw [hgetE] at hbl
      have hbl2 : s.log_block_bufs[id - s.first_block] = blank env := Option.some.inj hbl
      rw [hbl2, scan_block_blank env h hok] at hscan
      have hnil : ps1 = [] := by
        have := Option.some.inj hscan
        exact (congrArg Prod.fst this).symm
      rw [hnil] at hch
      simp at hch
  · have hres : compress_block env idx s id = some s := by
      simp only [compress_block, hget, hscan, hall, check, if_true, Option.bind_eq_bind,
        Option.some_bind, hch]
      rfl
    exact ⟨s, hres, hs, rfl, rfl, rfl, rfl, rfl⟩

theorem select_in_range (s : Storage) (hge : s.first_block ≤ s.active_log_block)
    (hlt : s.active_log_block < s.first_block + s.number_of_blocks) :
    s.first_block ≤ select_log_block_for_compression s ∧
      select_log_block_for_compression s < s.first_block + s.number_of_blocks := by
  unfold select_log_block_for_compression
  simp only
  split <;> omega

theorem reclaim_space_inv {P : Type} (env : Env P) (h : CodecLaws env) (hok : EnvOK env)
    (idx : CoreIndex P) (s : Storage) (n : Nat) (hs : BlocksInv env s)
    (hge : s.first_block ≤ s.active_log_block)
    (hlt : s.active_log_block < s.first_block + s.number_of_blocks) :
    (reclaim_space env idx s n = none ∧ ¬ IndexOK idx) ∨
    ∃ s1, reclaim_space env idx s n = some s1 ∧ Inv env s1 ∧
      s1.first_block = s.first_block ∧ s1.number_of_blocks = s.number_of_blocks := by
  obtain ⟨h1, h2⟩ := select_in_range s hge hlt
  rcases compress_block_inv env h hok idx s _ hs h1 h2 with
    ⟨hn, hi⟩ | ⟨s1, hc, hb, hf, hcnt, -, -, -⟩
  · left
    exact ⟨by simp [reclaim_space, hn], hi⟩
  · right
    obtain ⟨s2, hset, hinv, ⟨hf2, hc2, -, -⟩, -, -⟩ := set_active_inv env h hok s1
      (select_log_block_for_compression s) hb (by rw [hf]; exact h1) (by rw [hf, hcnt]; exact h2)
    refine ⟨s2, ?_, hinv, by rw [hf2, hf], by rw [hc2, hcnt]⟩
    simp [reclaim_space, hc, hset]

theorem inv_next_le {P : Type} (env : Env P) (h : CodecLaws env) (s : Storage)
    (hs : Inv env s) (hne : s.number_of_blocks ≠ 0) :
    env.LOG_BLOCK_MAGIC.length ≤ s.next_patch_offset ∧
      s.next_patch_offset ≤ env.block_size := by
  obtain ⟨data, ps, -, hl⟩ := hs.active hne
  have := activeLayout_size_le env h _ _ _ hl
  obtain ⟨_, _, _, hn, _⟩ := hl
  omega

theorem store_patch_write_inv {P : Type} (env : Env P) (h : CodecLaws env) (hok : EnvOK env)
    (s : Storage) (p : P) (hs : Inv env s) (hne : s.number_of_blocks ≠ 0)
    (hfit : env.codec.get_serialized_size p ≤ env.block_size - s.next_patch_offset) :
    ∃ s1, store_patch_write env s p = some (s1, true) ∧ Inv env s1 ∧
      s1.next_patch_offset = s.next_patch_offset + env.codec.get_serialized_size p ∧
      ∃ data1, get_buf s1 s1.active_log_block = some data1 ∧
        (data1.drop s.next_patch_offset).take (env.codec.get_serialized_size p) =
          env.codec.serialize p := by
  obtain ⟨data, ps, hget, tail, hd, hlen, hnext, htail⟩ := hs.active hne
  obtain ⟨hge, hlt, hgetE⟩ := get_buf_lt s _ _ hget
  have hbs := hok.block_size_lt
  have htl : env.LOG_BLOCK_MAGIC.length + records_size env ps + tail.length = env.block_size := by
    rw [← hlen, hd]
    simp only [List.length_append, records_length env h]
  have hal : (env.LOG_BLOCK_MAGIC ++ records env ps).length = s.next_patch_offset := by
    rw [hnext]
    simp only [List.length_append, records_length env h]
  have hw : write_at data s.next_patch_offset (env.codec.serialize p) =
      env.LOG_BLOCK_MAGIC ++ records env (ps ++ [p]) ++
        tail.drop (env.codec.get_serialized_size p) := by
    rw [hd, ← hal, write_at_append _ _ _ (by rw [h.serialize_length]; omega),
      h.serialize_length, records_append]
    simp [records]
  have hmod : (s.next_patch_offset + env.codec.get_serialized_size p) % UINT16 =
      s.next_patch_offset + env.codec.get_serialized_size p := by
    apply Nat.mod_eq_of_lt
    omega
  have hget0 : get_buf (set_empty s s.active_log_block false) s.active_log_block = some data := by
    simpa [get_buf, set_empty] using hget
  have hlay : ActiveLayout env (write_at data s.next_patch_offset (env.codec.serialize p))
      (ps ++ [p]) (s.next_patch_offset + env.codec.get_serialized_size p) := by
    refine ⟨tail.drop (env.codec.get_serialized_size p), hw, ?_, ?_, ?_⟩
    · rw [write_at_length, hlen]
    · rw [records_size_append, hnext]
      simp only [records_size]
      omega
    · left
      rcases htail with hz | ⟨q, hq, hqs⟩
      · intro b hb
        exact hz b (List.mem_of_mem_drop hb)
      · intro b hb
        have hmin := h.min_size p
        have : tail.length = env.codec.get_min_serialized_size := by
          rw [hq, h.serialize_length, hqs]
        rw [List.drop_eq_nil_of_le (by omega)] at hb
        cases hb
  have hgetnew : get_buf { set_buf (set_empty s s.active_log_block false) s.active_log_block
      (write_at data s.next_patch_offset (env.codec.serialize p)) with
      next_patch_offset := s.next_patch_offset + env.codec.get_serialized_size p }
      s.active_log_block =
      some (write_at data s.next_patch_offset (env.codec.serialize p)) := by
    have := get_buf_set_buf_self (set_empty s s.active_log_block false) s.active_log_block
      (write_at data s.next_patch_offset (env.codec.serialize p)) data hget0
    simpa [get_buf, set_buf, set_empty] using this
  have hrec : ((write_at data s.next_patch_offset (env.codec.serialize p)).drop
      s.next_patch_offset).take (env.codec.get_serialized_size p) = env.codec.serialize p := by
    rw [hd, ← hal, write_at_append _ _ _ (by rw [h.serialize_length]; omega),
      List.append_assoc, List.drop_left, ← h.serialize_length, List.take_left]
  refine ⟨{ set_buf (set_empty s s.active_log_block false) s.active_log_block
      (write_at data s.next_patch_offset (env.codec.serialize p)) with
      next_patch_offset := s.next_patch_offset + env.codec.get_serialized_size p }, ?_, ?_, rfl,
    _, hgetnew, hrec⟩
  · simp only [store_patch_write, hget, Option.bind_eq_bind, Option.some_bind, set_empty,
      set_buf, hmod]
  · refine ⟨?_, fun _ => hs.active_ge hne, fun _ => hs.active_lt hne,
      fun _ => ⟨_, ps ++ [p], hgetnew, hlay⟩⟩
    · refine blocksInv_update env s _ (s.active_log_block - s.first_block)
        (write_at data s.next_patch_offset (env.codec.serialize p)) hs.blocks
        (activeLayout_blockInv env _ _ _ hlay) ?_ ?_ ?_ ?_ ?_
      · rfl
      · rfl
      · simp [set_buf, set_empty]
      · intro i hi
        simp only [set_buf, set_empty]
        rw [List.getElem?_set_ne (Ne.symm hi)]
      · intro hflag
        exfalso
        simp only [set_buf, set_empty] at hflag
        have hl2 : s.active_log_block - s.first_block < s.block_is_empty.length := by
          rw [hs.blocks.empty_length, ← hs.blocks.bufs_length]; exact hlt
        rw [List.getElem?_set_self hl2] at hflag
        cases hflag

theorem set_active_eq_some {P : Type} (env : Env P) (s s1 : Storage) (id : Nat)
    (h : set_active_log_block env s id = some s1) :
    ∃ data r, get_buf s id = some data ∧ scan_block env data = some r ∧
      s1 = { s with active_log_block := id, next_patch_offset := r.2 } := by
  unfold set_active_log_block at h
  simp only [Option.bind_eq_bind, Option.bind_eq_some] at h
  obtain ⟨_, _, data, hd, r, hr, hs⟩ := h
  exact ⟨data, r, hd, hr, (Option.some.inj hs).symm⟩

theorem store_patch_write_true {P : Type} (env : Env P) (s s1 : Storage) (p : P) (b : Bool)
    (h : store_patch_write env s p = some (s1, b)) : b = true := by
  unfold store_patch_write at h
  simp only [Option.bind_eq_bind, Option.bind_eq_some] at h
  obtain ⟨_, _, hs⟩ := h
  have := Option.some.inj hs
  exact (congrArg Prod.snd this).symm

theorem size_t_sub (a b : Nat) (hb : b ≤ a) (ha : a < UINT16) :
    (a + SIZE_T - b) % SIZE_T = a - b := by
  have h1 : a + SIZE_T - b = (a - b) + SIZE_T := by omega
  have h2 : a - b < SIZE_T := by
    have : UINT16 < SIZE_T := by decide
    omega
  rw [h1, Nat.add_mod_right, Nat.mod_eq_of_lt h2]

theorem store_patch_inv {P : Type} (env : Env P) (h : CodecLaws env) (hok : EnvOK env)
    (idx : CoreIndex P) (s : Storage) (p : P) (hs : Inv env s) :
    (store_patch env idx s p = none ∧ ¬ IndexOK idx) ∨
    ∃ s1 b, store_patch env idx s p = some (s1, b) ∧ Inv env s1 ∧
      s1.first_block = s.first_block ∧ s1.number_of_blocks = s.number_of_blocks ∧
      (s.number_of_blocks = 0 → s1 = s) ∧
      (b = true → env.LOG_BLOCK_MAGIC.length + env.codec.get_serialized_size p ≤
          s1.next_patch_offset ∧
        ∃ data1, get_buf s1 s1.active_log_block = some data1 ∧
          (data1.drop (s1.next_patch_offset - env.codec.get_serialized_size p)).take
            (env.codec.get_serialized_size p) = env.codec.serialize p) ∧
      (b = false ↔ (s.number_of_blocks = 0 ∨
        (env.block_size - s.next_patch_offset < env.codec.get_serialized_size p ∧
          ∃ s2, reclaim_space env idx s (env.codec.get_serialized_size p) = some s2 ∧
            env.block_size - s2.next_patch_offset < env.codec.get_serialized_size p))) := by
  have hbl := hs.blocks.bufs_length
  by_cases hne : s.number_of_blocks = 0
  · right
    refine ⟨s, false, ?_, hs, rfl, rfl, fun _ => rfl, (fun hb => by cases hb), by simp [hne]⟩
    simp [store_patch, hbl, check, hne]
  · obtain ⟨hnge, hnle⟩ := inv_next_le env h s hs hne
    by_cases hfit : env.codec.get_serialized_size p > env.block_size - s.next_patch_offset
    · rcases reclaim_space_inv env h hok idx s (env.codec.get_serialized_size p) hs.blocks
        (hs.active_ge hne) (hs.active_lt hne) with ⟨hn, hi⟩ | ⟨s2, hr, hinv2, hf2, hc2⟩
      · left
        refine ⟨?_, hi⟩
        simp [store_patch, hbl, check, hne, hnle, hfit, hn]
      · right
        have hne2 : s2.number_of_blocks ≠ 0 := by rw [hc2]; exact hne
        obtain ⟨hnge2, hnle2⟩ := inv_next_le env h s2 hinv2 hne2
        have hsub := size_t_sub env.block_size s2.next_patch_offset hnle2 hok.block_size_lt
        by_cases hfit2 : env.codec.get_serialized_size p > env.block_size - s2.next_patch_offset
        · obtain ⟨s3, hset, hinv3, ⟨hf3, hc3, -, -⟩, -, -⟩ := set_active_inv env h hok s2
            s.active_log_block hinv2.blocks (by rw [hf2]; exact hs.active_ge hne)
            (by rw [hf2, hc2]; exact hs.active_lt hne)
          refine ⟨s3, false, ?_, hinv3, by rw [hf3, hf2], by rw [hc3, hc2],
            fun h0 => absurd h0 hne, (fun hb => by cases hb), ?_⟩
          · simp [store_patch, hbl, check, hne, hnle, hfit, hr, hsub, hfit2, hset]
          · simp only [true_iff]
            right
            exact ⟨hfit, s2, hr, hfit2⟩
        · obtain ⟨s3, hw, hinv3, hnx3, data1, hg1, hrec1⟩ :=
            store_patch_write_inv env h hok s2 p hinv2 hne2 (by omega)
          have hw2 := hw
          unfold store_patch_write at hw2
          simp only [Option.bind_eq_bind, Option.bind_eq_some] at hw2
          obtain ⟨_, _, hw3⟩ := hw2
          have hw4 := congrArg Prod.fst (Option.some.inj hw3)
          simp only at hw4
          refine ⟨s3, true, ?_, hinv3, ?_, ?_, fun h0 => absurd h0 hne,
            (fun _ => ⟨by rw [hnx3]; omega, data1, hg1, by
              rw [hnx3, Nat.add_sub_cancel]; exact hrec1⟩), ?_⟩
          · simp [store_patch, hbl, check, hne, hnle, hfit, hr, hsub, hfit2, hw]
          · rw [← hw4, ← hf2]; rfl
          · rw [← hw4, ← hc2]; rfl
          · constructor
            · intro hb
              cases hb
            · rintro (h0 | ⟨_, s2', hr', hf'⟩)
              · exact absurd h0 hne
              · rw [hr] at hr'
                cases hr'
                exact absurd hf' hfit2
    · right
      obtain ⟨s3, hw, hinv3, hnx3, data1, hg1, hrec1⟩ :=
        store_patch_write_inv env h hok s p hs hne (by omega)
      have hw2 := hw
      unfold store_patch_write at hw2
      simp only [Option.bind_eq_bind, Option.bind_eq_some] at hw2
      obtain ⟨_, _, hw3⟩ := hw2
      have hw4 := congrArg Prod.fst (Option.some.inj hw3)
      simp only at hw4
      refine ⟨s3, true, ?_, hinv3, ?_, ?_, fun h0 => absurd h0 hne,
        (fun _ => ⟨by rw [hnx3]; omega, data1, hg1, by
          rw [hnx3, Nat.add_sub_cancel]; exact hrec1⟩), ?_⟩
      · simp [store_patch, hbl, check, hne, hnle, hfit, hw]
      · rw [← hw4]; rfl
      · rw [← hw4]; rfl
      · constructor
        · intro hb
          cases hb
        · rintro (h0 | ⟨hf', -⟩)
          · exact absurd h0 hne
          · exact absurd hf' hfit

theorem ring_block_range (s : Storage) (i : Nat) (hge : s.first_block ≤ s.active_log_block)
    (hlt : s.active_log_block < s.first_block + s.number_of_blocks)
    (hi : i ≤ s.number_of_blocks) :
    s.first_block ≤ ring_block s i ∧ ring_block s i < s.first_block + s.number_of_blocks := by
  unfold ring_block
  simp only
  split <;> omega

theorem ring_block_ne_active (s : Storage) (i : Nat) (hge : s.first_block ≤ s.active_log_block)
    (h1 : 1 ≤ i) (hi : i < s.number_of_blocks) :
    ring_block s i - s.first_block ≠ s.active_log_block - s.first_block := by
  unfold ring_block
  simp only
  split <;> omega

theorem flush_block_inv {P : Type} (env : Env P) (h : CodecLaws env) (hok : EnvOK env)
    (idx : CoreIndex P) (s : Storage) (id : Nat) (hs : BlocksInv env s)
    (hge : s.first_block ≤ id) (hlt : id < s.first_block + s.number_of_blocks) :
    ∃ s1 fl, flush_block env idx s id = some (s1, fl) ∧ BlocksInv env s1 ∧
      s1.first_block = s.first_block ∧ s1.number_of_blocks = s.number_of_blocks ∧
      s1.active_log_block = s.active_log_block ∧
      s1.next_patch_offset = s.next_patch_offset ∧
      s1.log_block_bufs = s.log_block_bufs.set (id - s.first_block) (blank env) ∧
      s1.block_is_empty = s.block_is_empty.set (id - s.first_block) true := by
  have hj : id - s.first_block < s.log_block_bufs.length := by
    rw [hs.bufs_length]; omega
  have hget := get_buf_in_range s id hge hj
  have hb : BlockInv env (s.log_block_bufs[id - s.first_block]) :=
    hs.block_inv (id - s.first_block) _ (List.getElem?_eq_getElem hj)
  obtain ⟨ps1, hscan, -⟩ := scan_block_layout env h hok _ hb
  have hinit : init_log_block_data env (s.log_block_bufs[id - s.first_block]) = blank env :=
    init_log_block_data_eq env hok _ (blockInv_length env _ hb)
  refine ⟨set_empty (set_buf s id (blank env)) id true,
    (ps1.filter (fun p => (idx (env.codec.get_block_id p)).isSome)).map env.codec.get_block_id,
    ?_, ?_, rfl, rfl, rfl, rfl, rfl, rfl⟩
  · simp only [flush_block, hget, hscan, Option.bind_eq_bind, Option.some_bind, init_log_block,
      hinit]
  · refine blocksInv_update env s _ (id - s.first_block) (blank env) hs
      (blank_blockInv env hok) ?_ ?_ ?_ ?_ ?_
    · rfl
    · rfl
    · simp [set_buf, set_empty]
    · intro i hi
      simp only [set_buf, set_empty]
      rw [List.getElem?_set_ne (Ne.symm hi)]
    · intro _
      rfl

theorem flush_loop_inv {P : Type} (env : Env P) (h : CodecLaws env) (hok : EnvOK env)
    (idx : CoreIndex P) (is : List Nat) :
    ∀ (s : Storage) (acc : List Nat), BlocksInv env s →
      s.first_block ≤ s.active_log_block →
      s.active_log_block < s.first_block + s.number_of_blocks →
      (∀ i ∈ is, i ≤ s.number_of_blocks) →
      ∃ r, flush_loop env idx is (s, acc) = some r ∧ BlocksInv env r.1 ∧
        r.1.first_block = s.first_block ∧ r.1.number_of_blocks = s.number_of_blocks ∧
        r.1.active_log_block = s.active_log_block ∧
        r.1.next_patch_offset = s.next_patch_offset ∧
        ∀ j : Nat, (∀ i ∈ is, ring_block s i - s.first_block ≠ j) →
          r.1.log_block_bufs[j]? = s.log_block_bufs[j]? ∧
          r.1.block_is_empty[j]? = s.block_is_empty[j]? := by
  induction is with
  | nil =>
    intro s acc hs _ _ _
    exact ⟨(s, acc), rfl, hs, rfl, rfl, rfl, rfl, fun _ _ => ⟨rfl, rfl⟩⟩
  | cons i is ih =>
    intro s acc hs hge hlt his
    obtain ⟨hr1, hr2⟩ := ring_block_range s i hge hlt (his i (by simp))
    have hj : ring_block s i - s.first_block < s.block_is_empty.length := by
      rw [hs.empty_length]; omega
    have hge0 : get_empty s (ring_block s i) =
        some (s.block_is_empty[ring_block s i - s.first_block]) := by
      simp [get_empty, hr1, hj]
    by_cases he : s.block_is_empty[ring_block s i - s.first_block] = true
    · obtain ⟨r, hr, hb, hf, hc, ha, hn, hun⟩ := ih s acc hs hge hlt
        (fun k hk => his k (by simp [hk]))
      refine ⟨r, ?_, hb, hf, hc, ha, hn, fun j hjn => hun j (fun k hk => hjn k (by simp [hk]))⟩
      simp only [flush_loop, hge0, he, Option.bind_eq_bind, Option.some_bind]
      simpa using hr
    · obtain ⟨s1, fl, hfl, hb1, hf1, hc1, ha1, hn1, hbufs1, hflags1⟩ :=
        flush_block_inv env h hok idx s (ring_block s i) hs hr1 hr2
      have hring : ∀ k, ring_block s1 k = ring_block s k := by
        intro k
        simp only [ring_block, hf1, hc1, ha1]
      obtain ⟨r, hr, hb, hf, hc, ha, hn, hun⟩ := ih s1 (acc ++ fl) hb1
        (by rw [hf1, ha1]; exact hge) (by rw [hf1, ha1, hc1]; exact hlt)
        (fun k hk => by rw [hc1]; exact his k (by simp [hk]))
      refine ⟨r, ?_, hb, by rw [hf, hf1], by rw [hc, hc1], by rw [ha, ha1], by rw [hn, hn1], ?_⟩
      · simp only [flush_loop, hge0, he, Option.bind_eq_bind, Option.some_bind, hfl]
        simpa using hr
      · intro j hjn
        have hj1 := hun j (fun k hk => by
          rw [hring k, hf1]; exact hjn k (by simp [hk]))
        have hne : ring_block s i - s.first_block ≠ j := hjn i (by simp)
        rw [hj1.1, hj1.2, hbufs1, hflags1, List.getElem?_set_ne hne, List.getElem?_set_ne hne]
        exact ⟨rfl, rfl⟩

theorem flush_n_inv {P : Type} (env : Env P) (h : CodecLaws env) (hok : EnvOK env)
    (idx : CoreIndex P) (s : Storage) (n : Nat) (hs : Inv env s) :
    ∃ r, flush_n_oldest_blocks env idx s n = some r ∧ Inv env r.1 ∧
      r.1.first_block = s.first_block ∧ r.1.number_of_blocks = s.number_of_blocks := by
  have hbl := hs.blocks.bufs_length
  by_cases hne : s.number_of_blocks = 0
  · refine ⟨(s, []), ?_, hs, rfl, rfl⟩
    simp [flush_n_oldest_blocks, hbl, check, hne]
  · have hge := hs.active_ge hne
    have hlt := hs.active_lt hne
    obtain ⟨r, hr, hb, hf, hc, ha, hn, hun⟩ := flush_loop_inv env h hok idx
      (List.range' 1 (min s.number_of_blocks n)) s [] hs.blocks hge hlt (by
        intro i hi
        rw [List.mem_range'_1] at hi
        omega)
    by_cases hall : min s.number_of_blocks n = s.number_of_blocks
    · obtain ⟨s3, hset, hinv3, ⟨hf3, hc3, -, -⟩, -, -⟩ := set_active_inv env h hok r.1
        r.1.active_log_block hb (by rw [hf, ha]; exact hge) (by rw [hf, ha, hc]; exact hlt)
      refine ⟨(s3, r.2), ?_, hinv3, by simp only; rw [hf3, hf], by simp only; rw [hc3, hc]⟩
      have hr2 := hr
      rw [hall] at hr2
      simp [flush_n_oldest_blocks, hbl, check, hne, hr2, hall, hset]
    · refine ⟨r, ?_, ?_, hf, hc⟩
      · simp [flush_n_oldest_blocks, hbl, check, hne, hr, hall]
      · obtain ⟨data, ps, hget, hlay⟩ := hs.active hne
        refine ⟨hb, fun _ => by rw [hf, ha]; exact hge, fun _ => by rw [hf, ha, hc]; exact hlt,
          fun _ => ⟨data, ps, ?_, by rw [hn]; exact hlay⟩⟩
        have hact := (hun (s.active_log_block - s.first_block) (by
          intro i hi
          rw [List.mem_range'_1] at hi
          exact ring_block_ne_active s i hge hi.1 (by omega))).1
        unfold get_buf at hget ⊢
        rw [hf, ha, hact]
        exact hget

theorem set_append_last (l : List (List Nat)) (a b : List Nat) :
    (l ++ [a]).set l.length b = l ++ [b] := by
  induction l with
  | nil => rfl
  | cons x l ih => simp [ih]

theorem blockInv_magic_ok {P : Type} (env : Env P) (data : List Nat) (h : BlockInv env data) :
    magic_ok env data = true := by
  obtain ⟨ps, k, hd, -⟩ := h
  rw [hd, List.append_assoc]
  exact magic_ok_append env _

theorem init_loop_inv {P : Type} (env : Env P) (hok : EnvOK env)
    (block_in_use : Nat → Bool) (disk : Nat → List Nat) (first n : Nat)
    (hdisk : DiskOK env block_in_use disk first n) (m : Nat) :
    ∀ (k : Nat) (s : Storage), k + m = n → s.first_block = first →
      s.log_block_bufs.length = k → s.block_is_empty.length = n →
      (∀ (i : Nat) (data : List Nat), s.log_block_bufs[i]? = some data → BlockInv env data) →
      (∀ i : Nat, s.block_is_empty[i]? = some true →
        s.log_block_bufs[i]? = some (blank env)) →
      (∀ d ∈ s.log_block_bufs, d = blank env ∨
        ∃ id : Nat, first ≤ id ∧ id < first + n ∧ block_in_use id = true ∧
          d = disk id) →
      ∃ s1, init_loop env block_in_use disk (List.range' (first + k) m) s = some s1 ∧
        s1.first_block = first ∧ s1.number_of_blocks = s.number_of_blocks ∧
        s1.log_block_bufs.length = n ∧ s1.block_is_empty.length = n ∧
        (∀ (i : Nat) (data : List Nat), s1.log_block_bufs[i]? = some data →
          BlockInv env data) ∧
        (∀ i : Nat, s1.block_is_empty[i]? = some true →
          s1.log_block_bufs[i]? = some (blank env)) ∧
        (∀ d ∈ s1.log_block_bufs, d = blank env ∨
          ∃ id : Nat, first ≤ id ∧ id < first + n ∧ block_in_use id = true ∧
            d = disk id) := by
  induction m with
  | zero =>
    intro k s hk hf hl he hb heb hq
    exact ⟨s, rfl, hf, rfl, by omega, he, hb, heb, hq⟩
  | succ m ih =>
    intro k s hk hf hl he hb heb hq
    have hidx : first + k - s.first_block = s.log_block_bufs.length := by omega
    have hle : s.first_block ≤ first + k := by omega
    have hbound : ∀ i : Nat, s.block_is_empty[i]? = some true →
        i < s.log_block_bufs.length := by
      intro i hi
      exact (List.getElem?_eq_some_iff.1 (heb i hi)).1
    by_cases hu : block_in_use (first + k) = true
    · have hbi := hdisk _ (by omega) (by omega) hu
      obtain ⟨s1, h1, h2, h3, h4, h5, h6, h7, h8⟩ := ih (k + 1)
        { s with log_block_bufs := s.log_block_bufs ++ [disk (first + k)] }
        (by omega) hf (by simp [hl]) he
        (by
          intro i data hi
          rw [List.getElem?_append] at hi
          split at hi
          · exact hb i data hi
          · have hi0 : i - s.log_block_bufs.length = 0 := by
              rcases Nat.eq_zero_or_pos (i - s.log_block_bufs.length) with h0 | h0
              · exact h0
              · rw [List.getElem?_eq_none (by simp; omega)] at hi
                cases hi
            rw [hi0] at hi
            simp at hi
            rw [← hi]
            exact hbi)
        (by
          intro i hi
          simp only
          rw [List.getElem?_append_left (hbound i hi)]
          exact heb i hi)
        (by
          intro d hd
          simp only [List.mem_append, List.mem_singleton] at hd
          rcases hd with hd | hd
          · exact hq d hd
          · exact Or.inr ⟨first + k, by omega, by omega, hu, hd⟩)
      refine ⟨s1, ?_, h2, h3, h4, h5, h6, h7, h8⟩
      rw [List.range'_succ]
      simp only [init_loop, hu, if_true, get_buf, hle, hidx, Option.bind_eq_bind]
      simp only [List.getElem?_concat_length, Option.some_bind, blockInv_magic_ok env _ hbi,
        check, if_true]
      exact h1
    · have hz : init_log_block_data env (List.replicate env.block_size 0) = blank env :=
        init_log_block_data_eq env hok _ (by simp)
      obtain ⟨s1, h1, h2, h3, h4, h5, h6, h7, h8⟩ := ih (k + 1)
        { s with log_block_bufs := s.log_block_bufs ++ [blank env],
                 block_is_empty := s.block_is_empty.set s.log_block_bufs.length true }
        (by omega) hf (by simp [hl]) (by simp [he])
        (by
          intro i data hi
          simp only at hi
          rw [List.getElem?_append] at hi
          split at hi
          · exact hb i data hi
          · have hi0 : i - s.log_block_bufs.length = 0 := by
              rcases Nat.eq_zero_or_pos (i - s.log_block_bufs.length) with h0 | h0
              · exact h0
              · rw [List.getElem?_eq_none (by simp; omega)] at hi
                cases hi
            rw [hi0] at hi
            simp at hi
            rw [← hi]
            exact blank_blockInv env hok)
        (by
          intro i hi
          simp only at hi ⊢
          by_cases hik : i = s.log_block_bufs.length
          · rw [hik]
            simp
          · rw [List.getElem?_set_ne (Ne.symm hik)] at hi
            rw [List.getElem?_append_left (hbound i hi)]
            exact heb i hi)
        (by
          intro d hd
          simp only [List.mem_append, List.mem_singleton] at hd
          rcases hd with hd | hd
          · exact hq d hd
          · exact Or.inl hd)
      refine ⟨s1, ?_, h2, h3, h4, h5, h6, h7, h8⟩
      have hu2 : block_in_use (first + k) = false := by simpa using hu
      rw [List.range'_succ]
      simp only [init_loop, hu2, get_buf, hle, hidx, Option.bind_eq_bind, init_log_block,
        set_buf, set_empty]
      simp only [List.getElem?_concat_length, Option.some_bind, hz, if_true, set_append_last,
        Bool.false_eq_true, if_false, hidx]
      exact h1

theorem init_inv {P : Type} (env : Env P) (h : CodecLaws env) (hok : EnvOK env)
    (block_in_use : Nat → Bool) (disk : Nat → List Nat) (first n : Nat)
    (hdisk : DiskOK env block_in_use disk first n) :
    ∃ s0, init env block_in_use disk first n = some s0 ∧ Inv env s0 ∧
      s0.first_block = first ∧ s0.number_of_blocks = n ∧
      (∀ d ∈ s0.log_block_bufs, d = blank env ∨
        ∃ id : Nat, first ≤ id ∧ id < first + n ∧ block_in_use id = true ∧
          d = disk id) := by
  by_cases hn : n = 0
  · subst hn
    refine ⟨{ constructed with first_block := first, number_of_blocks := 0,
                               block_is_empty := List.replicate 0 false },
      by simp [init], ?_, rfl, rfl, by simp [constructed]⟩
    refine ⟨⟨rfl, rfl, ?_, ?_⟩, fun h0 => absurd rfl h0, fun h0 => absurd rfl h0,
      fun h0 => absurd rfl h0⟩
    · intro i data hi
      simp [constructed] at hi
    · intro i hi
      simp at hi
  · obtain ⟨s1, h1, h2, h3, h4, h5, h6, h7, h8⟩ := init_loop_inv env hok block_in_use disk
      first n hdisk n 0
      { constructed with first_block := first, number_of_blocks := n,
                         block_is_empty := List.replicate n false }
      (by omega) rfl rfl (by simp)
      (by intro i data hi; simp [constructed] at hi)
      (by
        intro i hi
        simp only [List.getElem?_replicate] at hi
        split at hi <;> cases hi)
      (by intro d hd; simp [constructed] at hd)
    simp only at h3
    have hb1 : BlocksInv env s1 := ⟨by rw [h4, h3], by rw [h5, h3], h6, h7⟩
    obtain ⟨s2, hset, hinv, ⟨hf2, hc2, -, hb2⟩, -, -⟩ :=
      set_active_inv env h hok s1 first hb1 (by omega) (by omega)
    refine ⟨s2, ?_, hinv, by rw [hf2, h2], by rw [hc2, h3], by rw [hb2]; exact h8⟩
    simp only [init, hn, if_false, Option.bind_eq_bind]
    simp only [Nat.add_zero] at h1
    rw [h1]
    simp [check, h4, hset]

/-! ### Reachable states -/

theorem step_inv {P : Type} (env : Env P) (h : CodecLaws env) (hok : EnvOK env)
    (s s1 : Storage) (op : Op P) (hs : Inv env s) (hstep : step env s op = some s1) :
    Inv env s1 ∧ s1.first_block = s.first_block ∧ s1.number_of_blocks = s.number_of_blocks := by
  cases op with
  | store idx p =>
    rcases store_patch_inv env h hok idx s p hs with ⟨hn, -⟩ | ⟨s2, b, hst, hinv, hf, hc, -⟩
    · simp [step, hn] at hstep
    · simp only [step, hst, Option.map_some'] at hstep
      cases hstep
      exact ⟨hinv, hf, hc⟩
  | flush idx n =>
    obtain ⟨r, hr, hinv, hf, hc⟩ := flush_n_inv env h hok idx s n hs
    simp only [step, hr, Option.map_some'] at hstep
    cases hstep
    exact ⟨hinv, hf, hc⟩

theorem run_ops_inv {P : Type} (env : Env P) (h : CodecLaws env) (hok : EnvOK env)
    (ops : List (Op P)) :
    ∀ (s s1 : Storage), Inv env s → run_ops env s ops = some s1 →
      Inv env s1 ∧ s1.first_block = s.first_block ∧
        s1.number_of_blocks = s.number_of_blocks := by
  induction ops with
  | nil =>
    intro s s1 hs hrun
    simp only [run_ops] at hrun
    cases hrun
    exact ⟨hs, rfl, rfl⟩
  | cons op ops ih =>
    intro s s1 hs hrun
    simp only [run_ops, Option.bind_eq_some] at hrun
    obtain ⟨s2, hstep, hrest⟩ := hrun
    obtain ⟨hinv2, hf2, hc2⟩ := step_inv env h hok s s2 op hs hstep
    obtain ⟨hinv1, hf1, hc1⟩ := ih s2 s1 hinv2 hrest
    exact ⟨hinv1, by rw [hf1, hf2], by rw [hc1, hc2]⟩

/-- Every state reached from `init` by calls of `store_patch` and `flush_n_oldest_blocks`
satisfies the invariant of the log. -/
theorem reachable_inv {P : Type} (env : Env P) (h : CodecLaws env) (hok : EnvOK env)
    (block_in_use : Nat → Bool) (disk : Nat → List Nat) (first n : Nat)
    (hdisk : DiskOK env block_in_use disk first n) (s0 s : Storage) (ops : List (Op P))
    (hinit : init env block_in_use disk first n = some s0)
    (hrun : run_ops env s0 ops = some s) :
    Inv env s ∧ s.first_block = first ∧ s.number_of_blocks = n := by
  obtain ⟨s0', hi, hinv0, hf0, hc0, -⟩ := init_inv env h hok block_in_use disk first n hdisk
  rw [hinit] at hi
  cases hi
  obtain ⟨hinv, hf, hc⟩ := run_ops_inv env h hok ops s0 s hinv0 hrun
  exact ⟨hinv, by rw [hf, hf0], by rw [hc, hc0]⟩

theorem diskOK_fresh {P : Type} (env : Env P) (block_in_use : Nat → Bool)
    (disk : Nat → List Nat) (first n : Nat) (hfresh : ∀ id : Nat, block_in_use id = false) :
    DiskOK env block_in_use disk first n := by
  intro id _ _ hid
  rw [hfresh id] at hid
  cases hid

/-! ### The sample codec -/

theorem sampleEnv_laws : CodecLaws sampleEnv := by
  refine ⟨?_, ?_, ?_, ?_⟩
  · intro p
    simp [sampleEnv, sampleCodec]
    omega
  · intro p rest
    simp [sampleEnv, sampleCodec]
  · intro bytes hz
    match bytes, hz with
    | [], _ => rfl
    | [_], _ => rfl
    | [_, _], _ => rfl
    | n :: b :: c :: rest, hz =>
      have hn : n = 0 := hz n (by simp)
      subst hn
      simp [sampleEnv, sampleCodec]
  · intro p
    simp [sampleEnv, sampleCodec]

theorem sampleEnv_ok : EnvOK sampleEnv := ⟨by decide, by decide⟩

theorem allLive_ok : IndexOK allLive := by
  intro b hb
  simp [allLive] at hb

theorem sampleFresh_shape : Shape sampleEnv sampleFresh :=
  ⟨rfl, rfl, by decide, by decide, by decide⟩

theorem noneInUse_diskOK (first n : Nat) : DiskOK sampleEnv noneInUse noDisk first n :=
  diskOK_fresh sampleEnv noneInUse noDisk first n (fun _ => rfl)

/-! ### The claims on `store_patch`, the invariants and the empty flags -/

/-- C1. In a state with one buffer of `block_size` bytes and one flag per log block and the
active block inside the log range, a patch that fits in the free space of the active block
is stored: `store_patch` returns `true`, the bytes of the patch are written into the active
block from `next_patch_offset` on, no other byte of any log block changes, the active
block stays the same, its flag becomes `false`, and `next_patch_offset` grows by the
serialized size of the patch. -/
theorem store_patch_fits {P : Type} (env : Env P) (idx : CoreIndex P) (s : Storage) (p : P)
    (hok : EnvOK env) (hs : Shape env s)
    (hser : (env.codec.serialize p).length = env.codec.get_serialized_size p)
    (hhi : s.next_patch_offset ≤ env.block_size)
    (hfit : env.codec.get_serialized_size p ≤ env.block_size - s.next_patch_offset) :
    ∃ s1 data, get_buf s s.active_log_block = some data ∧
      store_patch env idx s p = some (s1, true) ∧
      get_buf s1 s.active_log_block = some (data.take s.next_patch_offset ++
        env.codec.serialize p ++
        data.drop (s.next_patch_offset + env.codec.get_serialized_size p)) ∧
      (∀ id : Nat, id ≠ s.active_log_block → get_buf s1 id = get_buf s id) ∧
      s1.active_log_block = s.active_log_block ∧
      get_empty s1 s.active_log_block = some false ∧
      s1.next_patch_offset = s.next_patch_offset + env.codec.get_serialized_size p := by
  obtain ⟨data, hdata, hlen⟩ := get_buf_of_shape env s hs
  have hne : s.number_of_blocks ≠ 0 := by
    have h1 := hs.active_lt
    have h2 := hs.active_ge
    omega
  have hbs := hok.block_size_lt
  have hmod : (s.next_patch_offset + env.codec.get_serialized_size p) % UINT16 =
      s.next_patch_offset + env.codec.get_serialized_size p := by
    apply Nat.mod_eq_of_lt
    omega
  have hw : write_at data s.next_patch_offset (env.codec.serialize p) =
      data.take s.next_patch_offset ++ env.codec.serialize p ++
        data.drop (s.next_patch_offset + env.codec.get_serialized_size p) := by
    rw [write_at_fits _ _ _ (by omega), hser]
  have hdata1 : get_buf (set_empty s s.active_log_block false) s.active_log_block = some data := by
    simpa [get_buf, set_empty] using hdata
  have hst : store_patch env idx s p = some
      ({ set_buf (set_empty s s.active_log_block false) s.active_log_block
          (write_at data s.next_patch_offset (env.codec.serialize p)) with
        next_patch_offset := s.next_patch_offset + env.codec.get_serialized_size p }, true) := by
    have hnot : ¬ (env.codec.get_serialized_size p > env.block_size - s.next_patch_offset) := by
      omega
    simp only [store_patch, hs.bufs_length, decide_True, check, if_true, Option.bind_eq_bind,
      Option.some_bind, hne, if_false, ge_iff_le, hhi, hnot, store_patch_write, hdata,
      set_empty, set_buf, hmod]
  refine ⟨_, data, hdata, hst, ?_, ?_, rfl, ?_, rfl⟩
  · rw [← hw]
    exact get_buf_set_buf_self (set_empty s s.active_log_block false) _ _ data hdata1
  · intro id hid
    have := get_buf_set_buf_other (set_empty s s.active_log_block false) s.active_log_block id
      (write_at data s.next_patch_offset (env.codec.serialize p)) hid hs.active_ge
    simpa [get_buf, set_empty, set_buf] using this
  · have hlt : s.active_log_block - s.first_block < s.block_is_empty.length := by
      have h1 := hs.active_lt
      have h2 := hs.active_ge
      have h3 := hs.empty_length
      omega
    simp [get_empty, set_buf, set_empty, hs.active_ge, hlt]

/-- C2. In every state reached from `init`, with an in-core index that holds no empty patch
list, `store_patch` returns, and it returns `false` exactly when the log has no block, or
the patch does not fit in the free space of the active block and still does not fit in the
free space of the block that `reclaim_space` compacted and made active; with no block the
state is unchanged. -/
theorem store_patch_false_iff {P : Type} (env : Env P) (h : CodecLaws env) (hok : EnvOK env)
    (block_in_use : Nat → Bool) (disk : Nat → List Nat) (first n : Nat)
    (hdisk : DiskOK env block_in_use disk first n) (s0 s : Storage) (ops : List (Op P))
    (hinit : init env block_in_use disk first n = some s0)
    (hrun : run_ops env s0 ops = some s)
    (idx : CoreIndex P) (hidx : IndexOK idx) (p : P) :
    ∃ s1 b, store_patch env idx s p = some (s1, b) ∧
      (b = false ↔ (s.number_of_blocks = 0 ∨
        (env.block_size - s.next_patch_offset < env.codec.get_serialized_size p ∧
          ∃ s2, reclaim_space env idx s (env.codec.get_serialized_size p) = some s2 ∧
            env.block_size - s2.next_patch_offset < env.codec.get_serialized_size p))) ∧
      (s.number_of_blocks = 0 → b = false ∧ s1 = s) := by
  obtain ⟨hinv, -, -⟩ := reachable_inv env h hok block_in_use disk first n hdisk s0 s ops
    hinit hrun
  rcases store_patch_inv env h hok idx s p hinv with
    ⟨-, hn⟩ | ⟨s1, b, hst, -, -, -, h0, -, hiff⟩
  · exact absurd hidx hn
  · exact ⟨s1, b, hst, hiff, fun hz => ⟨hiff.2 (Or.inl hz), h0 hz⟩⟩

/-- C3. Whenever `store_patch` returns `false` on a log that has blocks, the active block is
the one that was active before the call, and `next_patch_offset` is the offset at which the
scan of that block stops. -/
theorem store_patch_false_restores {P : Type} (env : Env P) (idx : CoreIndex P)
    (s s1 : Storage) (p : P) (hcount : 1 ≤ s.number_of_blocks)
    (hst : store_patch env idx s p = some (s1, false)) :
    s1.active_log_block = s.active_log_block ∧
      ∃ data r, get_buf s1 s.active_log_block = some data ∧
        scan_block env data = some r ∧ s1.next_patch_offset = r.2 := by
  have hne : s.number_of_blocks ≠ 0 := by omega
  unfold store_patch at hst
  simp only [Option.bind_eq_bind, Option.bind_eq_some, hne, if_false] at hst
  obtain ⟨_, _, _, _, hst⟩ := hst
  split at hst
  · simp only [Option.bind_eq_some] at hst
    obtain ⟨s2, _, hst⟩ := hst
    split at hst
    · simp only [Option.bind_eq_some] at hst
      obtain ⟨s3, hset, hst⟩ := hst
      have h3 : s3 = s1 := congrArg Prod.fst (Option.some.inj hst)
      subst h3
      obtain ⟨data, r, hget, hscan, hs3⟩ := set_active_eq_some env s2 s3 _ hset
      refine ⟨by rw [hs3], data, r, ?_, hscan, by rw [hs3]⟩
      rw [hs3]
      exact hget
    · have := store_patch_write_true env _ _ _ _ hst
      cases this
  · have := store_patch_write_true env _ _ _ _ hst
    cases this

/-- C6. In every state reached from `init` by calls of `store_patch` and
`flush_n_oldest_blocks`, there is one buffer per log block and the first
`sizeof(LOG_BLOCK_MAGIC)` bytes of every log block are `LOG_BLOCK_MAGIC`. -/
theorem magic_preserved {P : Type} (env : Env P) (h : CodecLaws env) (hok : EnvOK env)
    (block_in_use : Nat → Bool) (disk : Nat → List Nat) (first n : Nat)
    (hdisk : DiskOK env block_in_use disk first n) (s0 s : Storage) (ops : List (Op P))
    (hinit : init env block_in_use disk first n = some s0)
    (hrun : run_ops env s0 ops = some s) :
    s.log_block_bufs.length = n ∧
      ∀ data ∈ s.log_block_bufs,
        data.take env.LOG_BLOCK_MAGIC.length = env.LOG_BLOCK_MAGIC := by
  obtain ⟨hinv, -, hc⟩ := reachable_inv env h hok block_in_use disk first n hdisk s0 s ops
    hinit hrun
  refine ⟨by rw [hinv.blocks.bufs_length, hc], ?_⟩
  intro data hd
  obtain ⟨i, hi, hget⟩ := List.getElem_of_mem hd
  obtain ⟨ps, k, hdata, -⟩ := hinv.blocks.block_inv i data (by
    rw [List.getElem?_eq_getElem hi, hget])
  rw [hdata, List.append_assoc, List.take_left]

/-- C7. In every state reached from `init` over fresh blocks by calls of `store_patch` and
`flush_n_oldest_blocks`, `next_patch_offset` lies between `sizeof(LOG_BLOCK_MAGIC)` and the
block size; and a `store_patch` that succeeds from such a state has written its record
inside the bytes from `sizeof(LOG_BLOCK_MAGIC)` to the block size: the bytes of the patch
lie in the active block just before the new `next_patch_offset`, which is at most the
block size, and they start at or after `sizeof(LOG_BLOCK_MAGIC)`. -/
theorem next_offset_bounds {P : Type} (env : Env P) (h : CodecLaws env) (hok : EnvOK env)
    (block_in_use : Nat → Bool) (disk : Nat → List Nat)
    (hfresh : ∀ id : Nat, block_in_use id = false)
    (first n : Nat) (s0 s : Storage) (ops : List (Op P)) (hn : 1 ≤ n)
    (hinit : init env block_in_use disk first n = some s0)
    (hrun : run_ops env s0 ops = some s) :
    (env.LOG_BLOCK_MAGIC.length ≤ s.next_patch_offset ∧
      s.next_patch_offset ≤ env.block_size) ∧
    ∀ (idx : CoreIndex P) (p : P) (s1 : Storage),
      store_patch env idx s p = some (s1, true) →
      env.LOG_BLOCK_MAGIC.length + env.codec.get_serialized_size p ≤ s1.next_patch_offset ∧
        s1.next_patch_offset ≤ env.block_size ∧
        ∃ data1, get_buf s1 s1.active_log_block = some data1 ∧
          (data1.drop (s1.next_patch_offset - env.codec.get_serialized_size p)).take
            (env.codec.get_serialized_size p) = env.codec.serialize p := by
  have hdisk := diskOK_fresh env block_in_use disk first n hfresh
  obtain ⟨hinv, -, hc⟩ := reachable_inv env h hok block_in_use disk first n hdisk s0 s ops
    hinit hrun
  have hne : s.number_of_blocks ≠ 0 := by omega
  refine ⟨inv_next_le env h s hinv hne, ?_⟩
  intro idx p s1 hst
  rcases store_patch_inv env h hok idx s p hinv with ⟨hnone, -⟩ |
    ⟨s2, b, hst2, hinv2, -, hc2, -, hb, -⟩
  · rw [hnone] at hst
    cases hst
  · rw [hst2] at hst
    have hs : s2 = s1 := congrArg Prod.fst (Option.some.inj hst)
    have hbt : b = true := congrArg Prod.snd (Option.some.inj hst)
    subst hs
    exact ⟨(hb hbt).1, (inv_next_le env h s2 hinv2 (by rw [hc2]; exact hne)).2, (hb hbt).2⟩

theorem blank_layout_nil {P : Type} (env : Env P) (h : CodecLaws env) (ps : List P)
    (next : Nat) (hl : ActiveLayout env (blank env) ps next) :
    next = env.LOG_BLOCK_MAGIC.length := by
  obtain ⟨tail, hd, -, hn, -⟩ := hl
  cases ps with
  | nil => simpa [records_size] using hn
  | cons p ps =>
    exfalso
    unfold blank at hd
    rw [List.append_assoc, List.append_cancel_left_eq] at hd
    have h1 := h.load_serialize p (records env ps ++ tail)
    have h2 : env.codec.serialize p ++ (records env ps ++ tail) =
        List.replicate (env.block_size - env.LOG_BLOCK_MAGIC.length) 0 := by
      rw [hd]
      simp [records]
    rw [h2, h.load_zero _ (by intro b hb; exact (List.mem_replicate.1 hb).2)] at h1
    cases h1

/-- C9. In every state reached from `init` by calls of `store_patch` and
`flush_n_oldest_blocks`, if the active block is flagged empty then `next_patch_offset` is
`sizeof(LOG_BLOCK_MAGIC)`. -/
theorem empty_active_offset {P : Type} (env : Env P) (h : CodecLaws env) (hok : EnvOK env)
    (block_in_use : Nat → Bool) (disk : Nat → List Nat) (first n : Nat)
    (hdisk : DiskOK env block_in_use disk first n) (s0 s : Storage) (ops : List (Op P))
    (hn : 1 ≤ n)
    (hinit : init env block_in_use disk first n = some s0)
    (hrun : run_ops env s0 ops = some s)
    (hempty : get_empty s s.active_log_block = some true) :
    s.next_patch_offset = env.LOG_BLOCK_MAGIC.length := by
  obtain ⟨hinv, -, hc⟩ := reachable_inv env h hok block_in_use disk first n hdisk s0 s ops
    hinit hrun
  have hne : s.number_of_blocks ≠ 0 := by omega
  obtain ⟨data, ps, hget, hlay⟩ := hinv.active hne
  unfold get_empty at hempty
  rw [if_pos (hinv.active_ge hne)] at hempty
  have hb := hinv.blocks.empty_blank _ hempty
  unfold get_buf at hget
  rw [if_pos (hinv.active_ge hne), hb] at hget
  have hd : blank env = data := Option.some.inj hget
  rw [← hd] at hlay
  exact blank_layout_nil env h ps _ hlay

/-- C1 at the sample log: storing a patch of 3 bytes in a fresh block. -/
theorem store_patch_fits_witness :
    EnvOK sampleEnv ∧ Shape sampleEnv sampleFresh ∧
    ∃ s1 data, get_buf sampleFresh sampleFresh.active_log_block = some data ∧
      store_patch sampleEnv allLive sampleFresh ⟨7, 1, 0⟩ = some (s1, true) ∧
      get_buf s1 sampleFresh.active_log_block = some (data.take sampleFresh.next_patch_offset ++
        sampleEnv.codec.serialize ⟨7, 1, 0⟩ ++
        data.drop (sampleFresh.next_patch_offset +
          sampleEnv.codec.get_serialized_size ⟨7, 1, 0⟩)) ∧
      (∀ id : Nat, id ≠ sampleFresh.active_log_block →
        get_buf s1 id = get_buf sampleFresh id) ∧
      s1.active_log_block = sampleFresh.active_log_block ∧
      get_empty s1 sampleFresh.active_log_block = some false ∧
      s1.next_patch_offset = sampleFresh.next_patch_offset +
        sampleEnv.codec.get_serialized_size ⟨7, 1, 0⟩ :=
  ⟨sampleEnv_ok, sampleFresh_shape,
    store_patch_fits sampleEnv allLive sampleFresh ⟨7, 1, 0⟩ sampleEnv_ok sampleFresh_shape
      (by decide) (by decide) (by decide)⟩

/-- C2 at the sample log: the refused patch `sampleBig` on the full sample log. -/
theorem store_patch_false_iff_witness :
    init sampleEnv noneInUse noDisk 10 2 = some sampleFresh ∧
    run_ops sampleEnv sampleFresh sampleStores = some sampleFull ∧
    ∃ s1 b, store_patch sampleEnv allLive sampleFull sampleBig = some (s1, b) ∧
      (b = false ↔ (sampleFull.number_of_blocks = 0 ∨
        (sampleEnv.block_size - sampleFull.next_patch_offset <
            sampleEnv.codec.get_serialized_size sampleBig ∧
          ∃ s2, reclaim_space sampleEnv allLive sampleFull
              (sampleEnv.codec.get_serialized_size sampleBig) = some s2 ∧
            sampleEnv.block_size - s2.next_patch_offset <
              sampleEnv.codec.get_serialized_size sampleBig))) ∧
      (sampleFull.number_of_blocks = 0 → b = false ∧ s1 = sampleFull) :=
  ⟨by decide, by decide,
    store_patch_false_iff sampleEnv sampleEnv_laws sampleEnv_ok noneInUse noDisk
      10 2 (noneInUse_diskOK 10 2) sampleFresh sampleFull sampleStores (by decide) (by decide)
      allLive allLive_ok sampleBig⟩

/-- C3 at the sample log: `sampleBig` is refused and block 10 is active again. -/
theorem store_patch_false_restores_witness :
    store_patch sampleEnv allLive sampleFull sampleBig = some (sampleRestored, false) ∧
    sampleRestored.active_log_block = sampleFull.active_log_block ∧
      ∃ data r, get_buf sampleRestored sampleFull.active_log_block = some data ∧
        scan_block sampleEnv data = some r ∧ sampleRestored.next_patch_offset = r.2 :=
  ⟨by decide,
    store_patch_false_restores sampleEnv allLive sampleFull sampleRestored sampleBig
      (by decide) (by decide)⟩

/-- C6 at the sample log after the four stores. -/
theorem magic_preserved_witness :
    init sampleEnv noneInUse noDisk 10 2 = some sampleFresh ∧
    run_ops sampleEnv sampleFresh sampleStores = some sampleFull ∧
    sampleFull.log_block_bufs.length = 2 ∧
      ∀ data ∈ sampleFull.log_block_bufs,
        data.take sampleEnv.LOG_BLOCK_MAGIC.length = sampleEnv.LOG_BLOCK_MAGIC :=
  ⟨by decide, by decide,
    magic_preserved sampleEnv sampleEnv_laws sampleEnv_ok noneInUse noDisk
      10 2 (noneInUse_diskOK 10 2) sampleFresh sampleFull sampleStores (by decide) (by decide)⟩

/-- C7 at the sample log after the four stores. -/
theorem next_offset_bounds_witness :
    init sampleEnv noneInUse noDisk 10 2 = some sampleFresh ∧
    run_ops sampleEnv sampleFresh sampleStores = some sampleFull ∧
    ((sampleEnv.LOG_BLOCK_MAGIC.length ≤ sampleFull.next_patch_offset ∧
      sampleFull.next_patch_offset ≤ sampleEnv.block_size) ∧
    ∀ (idx : CoreIndex SamplePatch) (p : SamplePatch) (s1 : Storage),
      store_patch sampleEnv idx sampleFull p = some (s1, true) →
      sampleEnv.LOG_BLOCK_MAGIC.length + sampleEnv.codec.get_serialized_size p ≤
          s1.next_patch_offset ∧
        s1.next_patch_offset ≤ sampleEnv.block_size ∧
        ∃ data1, get_buf s1 s1.active_log_block = some data1 ∧
          (data1.drop (s1.next_patch_offset - sampleEnv.codec.get_serialized_size p)).take
            (sampleEnv.codec.get_serialized_size p) = sampleEnv.codec.serialize p) :=
  ⟨by decide, by decide,
    next_offset_bounds sampleEnv sampleEnv_laws sampleEnv_ok noneInUse noDisk (fun _ => rfl)
      10 2 sampleFresh sampleFull sampleStores (by decide) (by decide) (by decide)⟩

/-- C9 at the sample log right after `init`: the active block is flagged empty. -/
theorem empty_active_offset_witness :
    init sampleEnv noneInUse noDisk 10 2 = some sampleFresh ∧
    get_empty sampleFresh sampleFresh.active_log_block = some true ∧
    sampleFresh.next_patch_offset = sampleEnv.LOG_BLOCK_MAGIC.length :=
  ⟨by decide, by decide,
    empty_active_offset sampleEnv sampleEnv_laws sampleEnv_ok noneInUse noDisk
      10 2 (noneInUse_diskOK 10 2) sampleFresh sampleFresh [] (by decide) (by decide) rfl
      (by decide)⟩

/-- C10, counterexample. On a log of one fresh block, a patch is stored and a second one is
refused while the in-core index holds no patch list: `compress_block` wipes the block, which
then holds no patch, and `block_is_empty` still says `false`. -/
theorem empty_flag_iff_counterexample :
    init sampleEnv noneInUse noDisk 10 1 = some sampleOne ∧
    run_ops sampleEnv sampleOne sampleDiscard = some sampleWiped ∧
    sampleWiped.block_is_empty[0]? = some false ∧
    sampleWiped.log_block_bufs[0]? = some (blank sampleEnv) ∧
    scan_block sampleEnv (blank sampleEnv) = some ([], 4) := by
  decide

/-- C10, amended. In every state reached from `init` by calls of `store_patch` and
`flush_n_oldest_blocks`, a log block that is flagged empty holds the magic followed by zero
bytes, and the scan of it yields no patch. -/
theorem empty_flag_sound {P : Type} (env : Env P) (h : CodecLaws env) (hok : EnvOK env)
    (block_in_use : Nat → Bool) (disk : Nat → List Nat) (first n : Nat)
    (hdisk : DiskOK env block_in_use disk first n) (s0 s : Storage) (ops : List (Op P))
    (hinit : init env block_in_use disk first n = some s0)
    (hrun : run_ops env s0 ops = some s) (i : Nat)
    (hempty : s.block_is_empty[i]? = some true) :
    s.log_block_bufs[i]? = some (blank env) ∧
      scan_block env (blank env) = some (([] : List P), env.LOG_BLOCK_MAGIC.length) := by
  obtain ⟨hinv, -, -⟩ := reachable_inv env h hok block_in_use disk first n hdisk s0 s ops
    hinit hrun
  exact ⟨hinv.blocks.empty_blank i hempty, scan_block_blank env h hok⟩

/-- C10, amended, at the sample log after the four stores: block 11 is flagged empty. -/
theorem empty_flag_sound_witness :
    init sampleEnv noneInUse noDisk 10 2 = some sampleFresh ∧
    run_ops sampleEnv sampleFresh sampleStores = some sampleFull ∧
    sampleFull.block_is_empty[1]? = some true ∧
    sampleFull.log_block_bufs[1]? = some (blank sampleEnv) ∧
      scan_block sampleEnv (blank sampleEnv) =
        some (([] : List SamplePatch), sampleEnv.LOG_BLOCK_MAGIC.length) :=
  ⟨by decide, by decide, by decide,
    empty_flag_sound sampleEnv sampleEnv_laws sampleEnv_ok noneInUse noDisk
      10 2 (noneInUse_diskOK 10 2) sampleFresh sampleFull sampleStores (by decide) (by decide) 1
      (by decide)⟩

/-- C8, the failing input. On the sample log over fresh blocks, four patches of minimal size
are stored and fill block 10 to its end: `next_patch_offset` is 16, the block size, while
the scan of the active block stops at offset 13, in front of the fourth record. -/
theorem scan_stops_before_last_record :
    CodecLaws sampleEnv ∧
    init sampleEnv noneInUse noDisk 10 2 = some sampleFresh ∧
    run_ops sampleEnv sampleFresh sampleStores = some sampleFull ∧
    sampleFull.next_patch_offset = 16 ∧
    (get_buf sampleFull sampleFull.active_log_block).bind (scan_block sampleEnv) =
      some ([⟨7, 1, 0⟩, ⟨7, 2, 0⟩, ⟨7, 3, 0⟩], 13) :=
  ⟨sampleEnv_laws, by decide, by decide, by decide, by decide⟩

/-- C4, the failing input. On the sample log over fresh blocks, with every patch live and
the data block 7 in use, `store_patch` returns `true` for each of four patches of minimal
size; `load_patches` over the resulting log blocks delivers only the first three. -/
theorem load_patches_misses_stored_patch :
    init sampleEnv noneInUse noDisk 10 2 = some sampleFresh ∧
    run_ops sampleEnv sampleFresh (sampleStores.take 3) = some sampleThree ∧
    store_patch sampleEnv allLive sampleThree ⟨7, 4, 0⟩ = some (sampleFull, true) ∧
    load_patches sampleEnv allInUse sampleFull =
      some [(7, [⟨7, 1, 0⟩, ⟨7, 2, 0⟩, ⟨7, 3, 0⟩])] := by
  decide

/-! ### The map of `load_patches` -/

theorem load_block_into_map_append {P : Type} (env : Env P) (biu : Nat → Bool) (a b : List P) :
    ∀ m : List (Nat × List P), load_block_into_map env biu m (a ++ b) =
      load_block_into_map env biu (load_block_into_map env biu m a) b := by
  induction a with
  | nil => intro m; rfl
  | cons p a ih =>
    intro m
    simp only [List.cons_append, load_block_into_map]
    split
    · exact ih _
    · exact ih _

theorem load_scan_all_eq {P : Type} (env : Env P) (biu : Nat → Bool) (bufs : List (List Nat)) :
    ∀ m : List (Nat × List P), load_scan_all env biu bufs m =
      (scan_all env bufs).map (load_block_into_map env biu m) := by
  induction bufs with
  | nil => intro m; simp [load_scan_all, scan_all, load_block_into_map]
  | cons data bufs ih =>
    intro m
    simp only [load_scan_all, scan_all, Option.bind_eq_bind]
    cases hs : scan_block env data with
    | none => simp
    | some r =>
      simp only [Option.some_bind, ih]
      cases hr : scan_all env bufs with
      | none => simp
      | some rest => simp [load_block_into_map_append]

theorem map_push_back_keys {P : Type} (m : List (Nat × List P)) (k : Nat) (p : P) :
    ∀ x ∈ (map_push_back m k p).map Prod.fst, x = k ∨ x ∈ m.map Prod.fst := by
  induction m with
  | nil => intro x hx; simp [map_push_back] at hx; exact Or.inl hx
  | cons e m ih =>
    obtain ⟨k1, l⟩ := e
    intro x hx
    simp only [map_push_back] at hx
    split at hx
    · simp only [List.map_cons, List.mem_cons] at hx ⊢
      rcases hx with hx | hx | hx
      · exact Or.inl hx
      · exact Or.inr (Or.inl hx)
      · exact Or.inr (Or.inr hx)
    · split at hx
      · right
        exact hx
      · simp only [List.map_cons, List.mem_cons] at hx ⊢
        rcases hx with hx | hx
        · right; left; exact hx
        · rcases ih x hx with h1 | h1
          · left; exact h1
          · right; right; exact h1

theorem map_push_back_sorted {P : Type} (m : List (Nat × List P)) (k : Nat) (p : P)
    (hm : (m.map Prod.fst).Pairwise (· < ·)) :
    ((map_push_back m k p).map Prod.fst).Pairwise (· < ·) := by
  induction m with
  | nil => simp [map_push_back]
  | cons e m ih =>
    obtain ⟨k1, l⟩ := e
    simp only [List.map_cons, List.pairwise_cons] at hm
    simp only [map_push_back]
    split
    · rename_i hlt
      simp only [List.map_cons, List.pairwise_cons]
      refine ⟨?_, hm.1, hm.2⟩
      intro x hx
      simp only [List.mem_cons] at hx
      rcases hx with hx | hx
      · omega
      · have := hm.1 x hx
        omega
    · split
      · simp only [List.map_cons, List.pairwise_cons]
        exact hm
      · rename_i h1 h2
        simp only [List.map_cons, List.pairwise_cons]
        refine ⟨?_, ih hm.2⟩
        intro x hx
        rcases map_push_back_keys m k p x hx with h3 | h3
        · omega
        · exact hm.1 x h3

theorem map_find_none_of_lt {P : Type} (m : List (Nat × List P)) (k : Nat)
    (hm : ∀ x ∈ m.map Prod.fst, k < x) : map_find m k = none := by
  induction m with
  | nil => rfl
  | cons e m ih =>
    obtain ⟨k1, l⟩ := e
    have h1 : k < k1 := hm k1 (by simp)
    simp only [map_find]
    rw [if_neg (by omega)]
    exact ih (fun x hx => hm x (by simp only [List.map_cons, List.mem_cons]; right; exact hx))

theorem map_find_push_back {P : Type} (m : List (Nat × List P)) (k : Nat) (p : P)
    (hm : (m.map Prod.fst).Pairwise (· < ·)) (k2 : Nat) :
    map_find (map_push_back m k p) k2 =
      if k2 = k then some ((map_find m k).getD [] ++ [p]) else map_find m k2 := by
  induction m with
  | nil =>
    simp only [map_push_back, map_find]
    split <;> simp
  | cons e m ih =>
    obtain ⟨k1, l⟩ := e
    simp only [List.map_cons, List.pairwise_cons] at hm
    simp only [map_push_back]
    split
    · rename_i hlt
      have hnone : map_find ((k1, l) :: m) k = none := by
        apply map_find_none_of_lt
        intro x hx
        simp only [List.map_cons, List.mem_cons] at hx
        rcases hx with hx | hx
        · omega
        · have := hm.1 x hx
          omega
      rw [hnone]
      simp only [map_find]
      split <;> simp
    · split
      · rename_i h1 h2
        subst h2
        simp only [map_find]
        split <;> simp
      · rename_i h1 h2
        simp only [map_find]
        rw [ih hm.2]
        by_cases h3 : k2 = k1
        · have h4 : k2 ≠ k := by omega
          simp [h3, Ne.symm h2]
        · simp [h3, h2]

theorem map_find_of_mem {P : Type} (m : List (Nat × List P)) (k : Nat) (l : List P)
    (hm : (m.map Prod.fst).Pairwise (· < ·)) (hmem : (k, l) ∈ m) : map_find m k = some l := by
  induction m with
  | nil => cases hmem
  | cons e m ih =>
    obtain ⟨k1, l1⟩ := e
    simp only [List.map_cons, List.pairwise_cons] at hm
    simp only [List.mem_cons, Prod.mk.injEq] at hmem
    simp only [map_find]
    rcases hmem with ⟨h1, h2⟩ | hmem
    · simp [h1, h2]
    · have hk : k ∈ m.map Prod.fst := List.mem_map.2 ⟨(k, l), hmem, rfl⟩
      have := hm.1 k hk
      rw [if_neg (by omega)]
      exact ih hm.2 hmem

theorem map_find_isSome {P : Type} (m : List (Nat × List P)) (k : Nat) :
    k ∈ m.map Prod.fst ↔ ∃ l, map_find m k = some l := by
  induction m with
  | nil => simp [map_find]
  | cons e m ih =>
    obtain ⟨k1, l1⟩ := e
    simp only [List.map_cons, List.mem_cons, map_find]
    by_cases h : k = k1
    · simp [h]
    · simp only [h, if_false, false_or]
      exact ih

theorem patches_for_append {P : Type} (env : Env P) (b : Nat) (xs ys : List P) :
    patches_for env b (xs ++ ys) = patches_for env b xs ++ patches_for env b ys := by
  simp [patches_for]

theorem mapInv_step {P : Type} (env : Env P) (biu : Nat → Bool) (done : List P)
    (m : List (Nat × List P)) (p : P) (hm : MapInv env biu done m) :
    MapInv env biu (done ++ [p])
      (if biu (env.codec.get_block_id p) = true then
        map_push_back m (env.codec.get_block_id p) p
       else m) := by
  obtain ⟨hs, hf⟩ := hm
  by_cases hu : biu (env.codec.get_block_id p) = true
  · rw [if_pos hu]
    refine ⟨map_push_back_sorted m _ p hs, ?_⟩
    intro b
    rw [map_find_push_back m _ p hs b, patches_for_append]
    by_cases hb : b = env.codec.get_block_id p
    · subst hb
      have hp : patches_for env (env.codec.get_block_id p) [p] = [p] := by
        simp [patches_for]
      have hL : (map_find m (env.codec.get_block_id p)).getD [] =
          patches_for env (env.codec.get_block_id p) done := by
        rw [hf]
        by_cases hne : (patches_for env (env.codec.get_block_id p) done).isEmpty = false
        · rw [if_pos ⟨hu, hne⟩]
          rfl
        · have hnil : patches_for env (env.codec.get_block_id p) done = [] := by
            simpa using hne
          rw [if_neg (fun hc => hne hc.2), hnil]
          rfl
      rw [if_pos rfl, hp, hL, if_pos ⟨hu, by simp⟩]
    · have hp : patches_for env b [p] = [] := by
        simp [patches_for, Ne.symm hb]
      rw [if_neg hb, hp, hf, List.append_nil]
  · rw [if_neg hu]
    refine ⟨hs, ?_⟩
    intro b
    rw [hf, patches_for_append]
    by_cases hb : b = env.codec.get_block_id p
    · subst hb
      rw [if_neg (fun hc => hu hc.1), if_neg (fun hc => hu hc.1)]
    · have hp : patches_for env b [p] = [] := by
        simp [patches_for, Ne.symm hb]
      rw [hp, List.append_nil]

theorem load_block_into_map_inv {P : Type} (env : Env P) (biu : Nat → Bool) (ps : List P) :
    ∀ (done : List P) (m : List (Nat × List P)), MapInv env biu done m →
      MapInv env biu (done ++ ps) (load_block_into_map env biu m ps) := by
  induction ps with
  | nil => intro done m hm; simpa [load_block_into_map] using hm
  | cons p ps ih =>
    intro done m hm
    have hstep := mapInv_step env biu done m p hm
    have := ih (done ++ [p]) _ hstep
    rw [List.append_assoc] at this
    simp only [load_block_into_map]
    split
    · rename_i hu
      rw [if_pos hu] at this
      exact this
    · rename_i hu
      rw [if_neg hu] at this
      exact this

theorem mapInv_nil {P : Type} (env : Env P) (biu : Nat → Bool) :
    MapInv env biu ([] : List P) [] := by
  refine ⟨by simp, ?_⟩
  intro b
  simp [map_find, patches_for]

theorem sort_patches_sorted {P : Type} (env : Env P) (ho : OrderLaws env) (l : List P) :
    (sort_patches env l).Sorted (fun a b => env.codec.lt b a = false) := by
  haveI : IsTotal P (fun a b => env.codec.lt b a = false) := ⟨by
    intro a b
    by_cases h1 : env.codec.lt b a = true
    · right
      by_cases h2 : env.codec.lt a b = true
      · have h3 := ho.trans a b a h2 h1
        rw [ho.irrefl a] at h3
        cases h3
      · simpa using h2
    · left
      simpa using h1⟩
  haveI : IsTrans P (fun a b => env.codec.lt b a = false) := ⟨by
    intro a b c hab hbc
    by_cases hca : env.codec.lt c a = true
    · exfalso
      by_cases heq : a = b
      · subst heq
        rw [hca] at hbc
        cases hbc
      · rcases ho.total a b heq with h1 | h1
        · have h2 := ho.trans c a b hca h1
          rw [h2] at hbc
          cases hbc
        · rw [h1] at hab
          cases hab
    · simpa using hca⟩
  exact List.sorted_insertionSort _ l

theorem sort_patches_perm {P : Type} (env : Env P) (l : List P) :
    (sort_patches env l).Perm l :=
  List.perm_insertionSort _ l

theorem map_find_mem {P : Type} (m : List (Nat × List P)) (k : Nat) (l : List P)
    (hf : map_find m k = some l) : (k, l) ∈ m := by
  induction m with
  | nil => cases hf
  | cons e m ih =>
    obtain ⟨k1, l1⟩ := e
    simp only [map_find] at hf
    split at hf
    · rename_i hk
      have hl : l1 = l := Option.some.inj hf
      rw [hk, hl]
      exact List.mem_cons_self _ _
    · exact List.mem_cons_of_mem _ (ih hf)

/-- The result of `load_patches` in terms of the map that its first loop builds from the
scanned patches. -/
theorem load_patches_map {P : Type} (env : Env P) (block_in_use : Nat → Bool) (s : Storage)
    (all : List P) (hlen : s.log_block_bufs.length = s.number_of_blocks)
    (hscan : scan_all env s.log_block_bufs = some all) :
    ∃ m : List (Nat × List P),
      load_patches env block_in_use s =
        some (m.map (fun e => (e.1, sort_patches env e.2))) ∧
      MapInv env block_in_use all m := by
  have hinv : MapInv env block_in_use all (load_block_into_map env block_in_use [] all) := by
    have := load_block_into_map_inv env block_in_use all [] [] (mapInv_nil env block_in_use)
    simpa using this
  refine ⟨load_block_into_map env block_in_use [] all, ?_, hinv⟩
  by_cases hz : s.number_of_blocks = 0
  · have hnil : s.log_block_bufs = [] := List.eq_nil_of_length_eq_zero (by rw [hlen, hz])
    rw [hnil] at hscan
    simp only [scan_all] at hscan
    have hall : all = [] := (Option.some.inj hscan).symm
    subst hall
    simp [load_patches, hlen, check, hz, load_block_into_map]
  · simp [load_patches, hlen, check, hz, load_scan_all_eq, hscan]

/-- C5. Given the patches that the scans of the log blocks find, `load_patches` returns, and
it calls `load_block_patch_list` in strictly increasing order of data block (so at most
once for each), for exactly the data blocks that are in use and amended by a scanned
patch; each list is sorted by the order of the codec and is a permutation of the scanned
patches of all log blocks that amend that data block. -/
theorem load_patches_calls {P : Type} (env : Env P) (ho : OrderLaws env)
    (block_in_use : Nat → Bool) (s : Storage) (all : List P)
    (hlen : s.log_block_bufs.length = s.number_of_blocks)
    (hscan : scan_all env s.log_block_bufs = some all) :
    ∃ calls, load_patches env block_in_use s = some calls ∧
      (calls.map Prod.fst).Pairwise (fun a b => a < b) ∧
      (∀ b : Nat, b ∈ calls.map Prod.fst ↔
        (block_in_use b = true ∧ ∃ p ∈ all, env.codec.get_block_id p = b)) ∧
      (∀ (b : Nat) (L : List P), (b, L) ∈ calls →
        L.Sorted (fun x y => env.codec.lt y x = false) ∧
          L.Perm (patches_for env b all)) := by
  obtain ⟨m, hload, hsorted, hfind⟩ := load_patches_map env block_in_use s all hlen hscan
  have hkeys : (m.map (fun e => (e.1, sort_patches env e.2))).map Prod.fst =
      m.map Prod.fst := by
    simp [List.map_map, Function.comp]
  refine ⟨m.map (fun e => (e.1, sort_patches env e.2)), hload, ?_, ?_, ?_⟩
  · rw [hkeys]
    exact hsorted
  · intro b
    rw [hkeys, map_find_isSome, hfind]
    have hex : (patches_for env b all).isEmpty = false ↔
        ∃ p ∈ all, env.codec.get_block_id p = b := by
      simp [patches_for, List.filter_eq_nil_iff]
    constructor
    · rintro ⟨l, hl⟩
      split at hl
      · rename_i hc
        exact ⟨hc.1, hex.1 hc.2⟩
      · cases hl
    · rintro ⟨h1, h2⟩
      exact ⟨_, if_pos ⟨h1, hex.2 h2⟩⟩
  · intro b L hbL
    rw [List.mem_map] at hbL
    obtain ⟨⟨k, l⟩, hkl, heq⟩ := hbL
    simp only [Prod.mk.injEq] at heq
    obtain ⟨hk, hL⟩ := heq
    subst hk
    have hf := map_find_of_mem _ k l hsorted hkl
    rw [hfind] at hf
    split at hf
    · have hl : patches_for env k all = l := Option.some.inj hf
      rw [← hL, ← hl]
      exact ⟨sort_patches_sorted env ho _, sort_patches_perm env _⟩
    · cases hf

theorem sampleEnv_order : OrderLaws sampleEnv := by
  refine ⟨?_, ?_, ?_⟩
  · intro a
    simp [sampleEnv, sampleCodec]
  · intro a b c hab hbc
    simp only [sampleEnv, sampleCodec, decide_eq_true_eq] at hab hbc ⊢
    omega
  · intro a b hne
    have hf : a.block_id ≠ b.block_id ∨ a.counter ≠ b.counter ∨ a.extra ≠ b.extra := by
      by_contra hc
      simp only [not_or, not_not] at hc
      apply hne
      cases a
      cases b
      simp only at hc
      simp [hc.1, hc.2.1, hc.2.2]
    simp only [sampleEnv, sampleCodec, decide_eq_true_eq]
    omega

/-- C5 at a sample log: the patches for the data blocks 7 and 9 are delivered sorted, the
patch for block 5, which is not in use, is dropped. -/
theorem load_patches_calls_witness :
    scan_all sampleEnv sampleMixed.log_block_bufs = some sampleMixedPatches ∧
    load_patches sampleEnv sampleInUse sampleMixed =
      some [(7, [⟨7, 1, 0⟩, ⟨7, 2, 0⟩]), (9, [⟨9, 1, 0⟩, ⟨9, 2, 0⟩])] ∧
    ∃ calls, load_patches sampleEnv sampleInUse sampleMixed = some calls ∧
      (calls.map Prod.fst).Pairwise (fun a b => a < b) ∧
      (∀ b : Nat, b ∈ calls.map Prod.fst ↔
        (sampleInUse b = true ∧
          ∃ p ∈ sampleMixedPatches, sampleEnv.codec.get_block_id p = b)) ∧
      (∀ (b : Nat) (L : List SamplePatch), (b, L) ∈ calls →
        L.Sorted (fun x y => sampleEnv.codec.lt y x = false) ∧
          L.Perm (patches_for sampleEnv b sampleMixedPatches)) :=
  ⟨by decide, by decide,
    load_patches_calls sampleEnv sampleEnv_order sampleInUse sampleMixed sampleMixedPatches
      (by decide) (by decide)⟩

/-! ### Patches larger than the minimal size -/

theorem scan_block_records {P : Type} (env : Env P) (h : CodecLaws env) (hok : EnvOK env)
    (ps : List P) (k : Nat)
    (hl : (env.LOG_BLOCK_MAGIC ++ records env ps ++ List.replicate k 0).length =
      env.block_size) :
    scan_block env (env.LOG_BLOCK_MAGIC ++ records env ps ++ List.replicate k 0) =
      some (walk env env.LOG_BLOCK_MAGIC.length ps) := by
  have hlen : env.LOG_BLOCK_MAGIC.length + records_size env ps + k = env.block_size := by
    rw [← hl]
    simp only [List.length_append, List.length_replicate, records_length env h]
  have hbs := hok.block_size_lt
  have hfuel : ps.length < UINT16 := by
    have := length_le_records_size env h ps
    omega
  have hm : magic_ok env (env.LOG_BLOCK_MAGIC ++ records env ps ++ List.replicate k 0) =
      true := by
    rw [List.append_assoc]
    exact magic_ok_append env _
  simp only [scan_block, hm, check, if_true, Option.bind_eq_bind, Option.some_bind]
  exact scan_from_records env h hbs ps _ k UINT16 hlen hfuel

theorem walk_all_of_larger {P : Type} (env : Env P)
    (hlarger : ∀ p, env.codec.get_min_serialized_size < env.codec.get_serialized_size p)
    (ps : List P) :
    ∀ off : Nat, off + records_size env ps ≤ env.block_size →
      walk env off ps = (ps, off + records_size env ps) := by
  induction ps with
  | nil => intro off _; simp [walk, records_size]
  | cons p ps ih =>
    intro off hle
    simp only [records_size] at hle
    have hp := hlarger p
    simp only [walk]
    rw [if_pos (by omega), ih (off + env.codec.get_serialized_size p) (by omega)]
    simp only [records_size, Nat.add_assoc]

/-- The fuel of a scan that returns does not matter: more fuel gives the same result. -/
theorem scan_from_mono {P : Type} (env : Env P) (data : List Nat) (fuel : Nat) :
    ∀ (off k : Nat) (r : List P × Nat), scan_from env data fuel off = some r →
      scan_from env data (fuel + k) off = some r := by
  induction fuel with
  | zero => intro off k r hr; simp [scan_from] at hr
  | succ f ih =>
    intro off k r hr
    have hk : f + 1 + k = (f + k) + 1 := by omega
    rw [hk]
    simp only [scan_from] at hr ⊢
    split
    · rename_i hg
      rw [if_pos hg] at hr
      cases hl : env.codec.load_patch (data.drop off) with
      | none =>
        rw [hl] at hr
        exact hr
      | some p =>
        rw [hl] at hr
        simp only [Option.map_eq_some'] at hr ⊢
        obtain ⟨r1, hr1, hr2⟩ := hr
        exact ⟨r1, ih _ k r1 hr1, hr2⟩
    · rename_i hg
      rw [if_neg hg] at hr
      exact hr

theorem activeLayout_scan_of_larger {P : Type} (env : Env P) (h : CodecLaws env)
    (hok : EnvOK env)
    (hlarger : ∀ p, env.codec.get_min_serialized_size < env.codec.get_serialized_size p)
    (data : List Nat) (ps : List P) (next : Nat) (hl : ActiveLayout env data ps next) :
    scan_block env data = some (ps, next) := by
  obtain ⟨tail, hd, hlen, hnext, htail⟩ := hl
  have hz : ∀ b ∈ tail, b = 0 := by
    rcases htail with hz | ⟨q, -, hq⟩
    · exact hz
    · have := hlarger q
      omega
  have hd2 : data = env.LOG_BLOCK_MAGIC ++ records env ps ++ List.replicate tail.length 0 := by
    rw [← zeros_eq_replicate tail hz]
    exact hd
  have hsz : env.LOG_BLOCK_MAGIC.length + records_size env ps ≤ env.block_size := by
    rw [← hlen, hd]
    simp only [List.length_append, records_length env h]
    omega
  rw [hd2, scan_block_records env h hok ps tail.length (by rw [← hd2]; exact hlen),
    walk_all_of_larger env hlarger ps _ hsz, hnext]

theorem keep_patch_nonempty {P : Type} (env : Env P) (idx : CoreIndex P) (q : P)
    (hk : keep_patch env idx q = true) : patches_nonempty env idx q = true := by
  unfold keep_patch at hk
  unfold patches_nonempty
  split
  · rename_i heq
    rw [heq] at hk
    simp at hk
  · rfl

theorem compress_block_unchanged {P : Type} (env : Env P) (idx : CoreIndex P) (s : Storage)
    (id : Nat) (data : List Nat) (r : List P × Nat) (hget : get_buf s id = some data)
    (hscan : scan_block env data = some r)
    (hlive : ∀ q ∈ r.1, keep_patch env idx q = true) :
    compress_block env idx s id = some s := by
  have hall : r.1.all (patches_nonempty env idx) = true := by
    rw [List.all_eq_true]
    intro q hq
    exact keep_patch_nonempty env idx q (hlive q hq)
  have hany : r.1.any (fun p => !keep_patch env idx p) = false := by
    rw [List.any_eq_false]
    intro q hq
    simp [hlive q hq]
  simp only [compress_block, hget, hscan, hall, check, if_true, Option.bind_eq_bind,
    Option.some_bind, hany]
  rfl

theorem store_patch_write_bufs {P : Type} (env : Env P) (s s1 : Storage) (p : P) (b : Bool)
    (data : List Nat) (hget : get_buf s s.active_log_block = some data)
    (hw : store_patch_write env s p = some (s1, b)) :
    s1.log_block_bufs = s.log_block_bufs.set (s.active_log_block - s.first_block)
      (write_at data s.next_patch_offset (env.codec.serialize p)) := by
  simp only [store_patch_write, hget, Option.bind_eq_bind, Option.some_bind, set_empty,
    set_buf] at hw
  obtain ⟨h1, -⟩ := Prod.mk.inj (Option.some.inj hw)
  rw [← h1]

/-- What a `store_patch` under a live index does to the buffers when every patch is larger
than the minimal size: nothing when it returns `false`, and when it returns `true` one
buffer is replaced by one whose scan finds the same patches followed by the new one. -/
theorem store_patch_bufs {P : Type} (env : Env P) (h : CodecLaws env) (hok : EnvOK env)
    (hlarger : ∀ p, env.codec.get_min_serialized_size < env.codec.get_serialized_size p)
    (idx : CoreIndex P) (s s1 : Storage) (p : P) (b : Bool) (hs : Inv env s)
    (hlive : ∀ q, OnDisk env s q → keep_patch env idx q = true)
    (hst : store_patch env idx s p = some (s1, b)) :
    (b = false → s1.log_block_bufs = s.log_block_bufs) ∧
    (b = true → ∃ (j : Nat) (data data1 : List Nat) (ps : List P) (o o1 : Nat),
      s.log_block_bufs[j]? = some data ∧ s1.log_block_bufs = s.log_block_bufs.set j data1 ∧
      scan_block env data = some (ps, o) ∧ scan_block env data1 = some (ps ++ [p], o1)) := by
  have hwrite : ∀ (sw : Storage), Inv env sw → sw.number_of_blocks ≠ 0 →
      sw.log_block_bufs = s.log_block_bufs →
      env.codec.get_serialized_size p ≤ env.block_size - sw.next_patch_offset →
      store_patch_write env sw p = some (s1, b) →
      (b = false → s1.log_block_bufs = s.log_block_bufs) ∧
      (b = true → ∃ (j : Nat) (data data1 : List Nat) (ps : List P) (o o1 : Nat),
        s.log_block_bufs[j]? = some data ∧ s1.log_block_bufs = s.log_block_bufs.set j data1 ∧
        scan_block env data = some (ps, o) ∧ scan_block env data1 = some (ps ++ [p], o1)) := by
    intro sw hsw hne hbufs hfit hw
    have hbt := store_patch_write_true env _ _ _ _ hw
    subst hbt
    refine ⟨(fun hc => by cases hc), fun _ => ?_⟩
    obtain ⟨data, ps, hget, hlay⟩ := hsw.active hne
    obtain ⟨s1', hw', hinv1, hnx, data1, hget1, -⟩ :=
      store_patch_write_inv env h hok sw p hsw hne hfit
    rw [hw] at hw'
    have hs1 : s1 = s1' := congrArg Prod.fst (Option.some.inj hw')
    subst hs1
    have hb1 := store_patch_write_bufs env sw s1 p true data hget hw
    have hne1 : s1.number_of_blocks ≠ 0 := by
      obtain ⟨-, hlt1, -⟩ := get_buf_lt s1 _ _ hget1
      intro h0
      rw [hinv1.blocks.bufs_length, h0] at hlt1
      omega
    obtain ⟨data1', ps1, hget1', hlay1⟩ := hinv1.active hne1
    rw [hget1] at hget1'
    have hd1 : data1 = data1' := Option.some.inj hget1'
    subst hd1
    obtain ⟨hge, hlt, hgetE⟩ := get_buf_lt sw _ _ hget
    have hscan := activeLayout_scan_of_larger env h hok hlarger _ _ _ hlay
    have hscan1 := activeLayout_scan_of_larger env h hok hlarger _ _ _ hlay1
    have hdata1 : data1 = write_at data sw.next_patch_offset (env.codec.serialize p) := by
      obtain ⟨hge1, hlt1, hgetE1⟩ := get_buf_lt s1 _ _ hget1
      have hact : s1.active_log_block = sw.active_log_block := by
        have := hw
        simp only [store_patch_write, hget, Option.bind_eq_bind, Option.some_bind, set_empty,
          set_buf] at this
        obtain ⟨h1, -⟩ := Prod.mk.inj (Option.some.inj this)
        rw [← h1]
      have hfst : s1.first_block = sw.first_block := by
        have := hw
        simp only [store_patch_write, hget, Option.bind_eq_bind, Option.some_bind, set_empty,
          set_buf] at this
        obtain ⟨h1, -⟩ := Prod.mk.inj (Option.some.inj this)
        rw [← h1]
      rw [hb1, hact, hfst, List.getElem?_set_self hlt] at hgetE1
      exact (Option.some.inj hgetE1).symm
    -- the scan of the new buffer finds the old patches and the new one
    have hps1 : ps1 = ps ++ [p] := by
      obtain ⟨tail, hd, hlen, hnext, htail⟩ := hlay
      have hal : (env.LOG_BLOCK_MAGIC ++ records env ps).length = sw.next_patch_offset := by
        rw [hnext]
        simp only [List.length_append, records_length env h]
      have htl : env.LOG_BLOCK_MAGIC.length + records_size env ps + tail.length =
          env.block_size := by
        rw [← hlen, hd]
        simp only [List.length_append, records_length env h]
      have hz : ∀ b ∈ tail, b = 0 := by
        rcases htail with hz | ⟨q, -, hq⟩
        · exact hz
        · have := hlarger q
          omega
      have hlay2 : ActiveLayout env data1 (ps ++ [p])
          (sw.next_patch_offset + env.codec.get_serialized_size p) := by
        refine ⟨tail.drop (env.codec.get_serialized_size p), ?_, ?_, ?_, Or.inl ?_⟩
        · rw [hdata1, hd, ← hal, write_at_append _ _ _ (by rw [h.serialize_length]; omega),
            h.serialize_length, records_append]
          simp [records]
        · rw [hdata1, write_at_length, hlen]
        · rw [records_size_append, hnext]
          simp only [records_size]
          omega
        · intro b hb
          exact hz b (List.mem_of_mem_drop hb)
      have hscan2 := activeLayout_scan_of_larger env h hok hlarger _ _ _ hlay2
      rw [hscan1] at hscan2
      exact congrArg Prod.fst (Option.some.inj hscan2)
    rw [hps1] at hscan1
    refine ⟨sw.active_log_block - sw.first_block, data, data1, ps, _, _, ?_, ?_, hscan, hscan1⟩
    · rw [← hbufs]
      exact hgetE
    · rw [hb1, hbufs, hdata1]
  have hbl := hs.blocks.bufs_length
  by_cases hne : s.number_of_blocks = 0
  · simp [store_patch, hbl, check, hne] at hst
    obtain ⟨h1, h2⟩ := hst
    subst h1
    subst h2
    exact ⟨fun _ => rfl, fun hc => by cases hc⟩
  · obtain ⟨-, hnle⟩ := inv_next_le env h s hs hne
    by_cases hfit : env.codec.get_serialized_size p > env.block_size - s.next_patch_offset
    · -- the compaction changes nothing, since every patch on disk is live
      obtain ⟨hsel1, hsel2⟩ := select_in_range s (hs.active_ge hne) (hs.active_lt hne)
      have hj : select_log_block_for_compression s - s.first_block <
          s.log_block_bufs.length := by
        rw [hbl]; omega
      have hgetc := get_buf_in_range s _ hsel1 hj
      have hbc := hs.blocks.block_inv _ _ (List.getElem?_eq_getElem hj)
      obtain ⟨psc, hscanc, -⟩ := scan_block_layout env h hok _ hbc
      have hcomp := compress_block_unchanged env idx s _ _ _ hgetc hscanc (by
        intro q hq
        exact hlive q ⟨_, _, _, List.getElem?_eq_getElem hj, hscanc, hq⟩)
      obtain ⟨s2, hset2, hinv2, ⟨hf2, hc2, -, hb2⟩, -, -⟩ := set_active_inv env h hok s
        (select_log_block_for_compression s) hs.blocks hsel1 hsel2
      have hr : reclaim_space env idx s (env.codec.get_serialized_size p) = some s2 := by
        simp [reclaim_space, hcomp, hset2]
      have hne2 : s2.number_of_blocks ≠ 0 := by rw [hc2]; exact hne
      obtain ⟨-, hnle2⟩ := inv_next_le env h s2 hinv2 hne2
      have hsub := size_t_sub env.block_size s2.next_patch_offset hnle2 hok.block_size_lt
      by_cases hfit2 : env.codec.get_serialized_size p > env.block_size - s2.next_patch_offset
      · obtain ⟨s3, hset3, -, ⟨-, -, -, hb3⟩, -, -⟩ := set_active_inv env h hok s2
          s.active_log_block hinv2.blocks (by rw [hf2]; exact hs.active_ge hne)
          (by rw [hf2, hc2]; exact hs.active_lt hne)
        simp [store_patch, hbl, check, hne, hnle, hfit, hr, hsub, hfit2, hset3] at hst
        obtain ⟨h1, h2⟩ := hst
        subst h1
        subst h2
        exact ⟨fun _ => by rw [hb3, hb2], fun hc => by cases hc⟩
      · simp [store_patch, hbl, check, hne, hnle, hfit, hr, hsub, hfit2] at hst
        exact hwrite s2 hinv2 hne2 hb2 (by omega) hst
    · simp [store_patch, hbl, check, hne, hnle, hfit] at hst
      exact hwrite s hs hne rfl (by omega) hst

theorem storedInv_step {P : Type} (env : Env P) (h : CodecLaws env) (hok : EnvOK env)
    (hlarger : ∀ p, env.codec.get_min_serialized_size < env.codec.get_serialized_size p)
    (idx : CoreIndex P) (s s1 : Storage) (p : P) (b : Bool) (stored : List P)
    (hs : StoredInv env s stored) (hlive : ∀ q ∈ stored, keep_patch env idx q = true)
    (hst : store_patch env idx s p = some (s1, b)) :
    StoredInv env s1 (if b then stored ++ [p] else stored) := by
  have hinv1 : Inv env s1 := by
    rcases store_patch_inv env h hok idx s p hs.inv with ⟨hn, -⟩ | ⟨s2, b2, hst2, hinv2, -⟩
    · rw [hn] at hst
      cases hst
    · rw [hst] at hst2
      obtain ⟨h1, -⟩ := Prod.mk.inj (Option.some.inj hst2)
      rw [h1]
      exact hinv2
  obtain ⟨hfalse, htrue⟩ := store_patch_bufs env h hok hlarger idx s s1 p b hs.inv
    (fun q hq => hlive q (hs.sound q hq)) hst
  cases b with
  | false =>
    have hb := hfalse rfl
    refine ⟨hinv1, ?_, ?_⟩
    · rintro q ⟨i, data, r, hi, hr, hq⟩
      rw [hb] at hi
      exact hs.sound q ⟨i, data, r, hi, hr, hq⟩
    · intro q hq
      obtain ⟨i, data, r, hi, hr, hqr⟩ := hs.complete q hq
      exact ⟨i, data, r, by rw [hb]; exact hi, hr, hqr⟩
  | true =>
    obtain ⟨j, data, data1, ps, o, o1, hj, hb, hscan, hscan1⟩ := htrue rfl
    have hjl : j < s.log_block_bufs.length := (List.getElem?_eq_some_iff.1 hj).1
    refine ⟨hinv1, ?_, ?_⟩
    · rintro q ⟨i, d, r, hi, hr, hq⟩
      simp only [if_true, List.mem_append, List.mem_singleton]
      by_cases hij : i = j
      · subst hij
        rw [hb, List.getElem?_set_self hjl] at hi
        have hd : data1 = d := Option.some.inj hi
        subst hd
        rw [hscan1] at hr
        have hr1 : ps ++ [p] = r.1 := congrArg Prod.fst (Option.some.inj hr)
        rw [← hr1, List.mem_append, List.mem_singleton] at hq
        rcases hq with hq | hq
        · exact Or.inl (hs.sound q ⟨i, data, _, hj, hscan, hq⟩)
        · exact Or.inr hq
      · rw [hb, List.getElem?_set_ne (Ne.symm hij)] at hi
        exact Or.inl (hs.sound q ⟨i, d, r, hi, hr, hq⟩)
    · intro q hq
      simp only [if_true, List.mem_append, List.mem_singleton] at hq
      rcases hq with hq | hq
      · obtain ⟨i, d, r, hi, hr, hqr⟩ := hs.complete q hq
        by_cases hij : i = j
        · subst hij
          rw [hj] at hi
          have hd : data = d := Option.some.inj hi
          subst hd
          rw [hscan] at hr
          have hr1 : ps = r.1 := congrArg Prod.fst (Option.some.inj hr)
          refine ⟨i, data1, _, by rw [hb, List.getElem?_set_self hjl], hscan1, ?_⟩
          simp only [List.mem_append]
          left
          rw [hr1]
          exact hqr
        · exact ⟨i, d, r, by rw [hb, List.getElem?_set_ne (Ne.symm hij)]; exact hi, hr, hqr⟩
      · refine ⟨j, data1, _, by rw [hb, List.getElem?_set_self hjl], hscan1, ?_⟩
        simp [hq]

theorem run_stores_inv {P : Type} (env : Env P) (h : CodecLaws env) (hok : EnvOK env)
    (hlarger : ∀ p, env.codec.get_min_serialized_size < env.codec.get_serialized_size p)
    (calls : List (CoreIndex P × P)) :
    ∀ (s s1 : Storage) (stored new : List P), StoredInv env s stored →
      LiveCalls env s stored calls → run_stores env s calls = some (s1, new) →
      StoredInv env s1 (stored ++ new) := by
  induction calls with
  | nil =>
    intro s s1 stored new hs _ hrun
    simp only [run_stores] at hrun
    obtain ⟨h1, h2⟩ := Prod.mk.inj (Option.some.inj hrun)
    rw [← h1, ← h2, List.append_nil]
    exact hs
  | cons c calls ih =>
    intro s s1 stored new hs hlive hrun
    obtain ⟨hl1, hl2⟩ := hlive
    simp only [run_stores, Option.bind_eq_bind, Option.bind_eq_some] at hrun
    obtain ⟨⟨s2, b⟩, hst, ⟨s3, rest⟩, hrest, hres⟩ := hrun
    obtain ⟨h1, h2⟩ := Prod.mk.inj (Option.some.inj hres)
    simp only at h1 h2
    have hstep := storedInv_step env h hok hlarger c.1 s s2 c.2 b stored hs hl1 hst
    have := ih s2 s3 _ rest hstep (hl2 s2 b hst) hrest
    rw [← h1, ← h2]
    cases b with
    | false => simpa using this
    | true => simpa using this

theorem scan_all_of_blocks {P : Type} (env : Env P) (bufs : List (List Nat))
    (hscan : ∀ data ∈ bufs, ∃ r, scan_block env data = some r) :
    ∃ all : List P, scan_all env bufs = some all ∧
      ∀ q, q ∈ all ↔ ∃ (i : Nat) (data : List Nat) (r : List P × Nat),
        bufs[i]? = some data ∧ scan_block env data = some r ∧ q ∈ r.1 := by
  induction bufs with
  | nil =>
    refine ⟨[], rfl, ?_⟩
    intro q
    simp
  | cons d ds ih =>
    obtain ⟨r, hr⟩ := hscan d (by simp)
    obtain ⟨rest, hrest, hmem⟩ := ih (fun data hd => hscan data (by simp [hd]))
    refine ⟨r.1 ++ rest, by simp [scan_all, hr, hrest], ?_⟩
    intro q
    rw [List.mem_append, hmem]
    constructor
    · rintro (hq | ⟨i, data, r2, hi, hr2, hq⟩)
      · exact ⟨0, d, r, by simp, hr, hq⟩
      · exact ⟨i + 1, data, r2, by simpa using hi, hr2, hq⟩
    · rintro ⟨i, data, r2, hi, hr2, hq⟩
      cases i with
      | zero =>
        left
        simp only [List.getElem?_cons_zero] at hi
        have hd : d = data := Option.some.inj hi
        subst hd
        rw [hr] at hr2
        have : r = r2 := Option.some.inj hr2
        rw [this]
        exact hq
      | succ i =>
        right
        exact ⟨i, data, r2, by simpa using hi, hr2, hq⟩

theorem storedInv_init {P : Type} (env : Env P) (h : CodecLaws env) (hok : EnvOK env)
    (block_in_use : Nat → Bool) (disk : Nat → List Nat) (first n : Nat)
    (hfresh : ∀ id : Nat, block_in_use id = false) (s0 : Storage)
    (hinit : init env block_in_use disk first n = some s0) :
    StoredInv env s0 ([] : List P) := by
  obtain ⟨s0', hi, hinv0, -, -, hq⟩ := init_inv env h hok block_in_use disk first n
    (diskOK_fresh env block_in_use disk first n hfresh)
  rw [hinit] at hi
  have hs : s0 = s0' := Option.some.inj hi
  subst hs
  refine ⟨hinv0, ?_, ?_⟩
  · rintro q ⟨i, data, r, hi, hr, hqr⟩
    have hmem : data ∈ s0.log_block_bufs := List.getElem?_mem hi
    rcases hq data hmem with hb | ⟨id, -, -, hu, -⟩
    · rw [hb, scan_block_blank env h hok] at hr
      have : ([], env.LOG_BLOCK_MAGIC.length) = r := Option.some.inj hr
      rw [← this] at hqr
      cases hqr
    · rw [hfresh id] at hu
      cases hu
  · intro q hq
    cases hq

/-- Recovery when every patch is larger than the minimal size. On a log opened over fresh
blocks and written only by `store_patch` calls whose in-core index holds live every patch
stored so far, `load_patches` returns and delivers, for every stored patch whose data block
is in use, a sorted list for that data block that contains the patch. -/
theorem recovery_of_larger {P : Type} (env : Env P) (h : CodecLaws env) (hok : EnvOK env)
    (ho : OrderLaws env)
    (hlarger : ∀ p, env.codec.get_min_serialized_size < env.codec.get_serialized_size p)
    (block_in_use : Nat → Bool) (disk : Nat → List Nat) (first n : Nat)
    (hfresh : ∀ id : Nat, block_in_use id = false) (s0 s : Storage)
    (calls : List (CoreIndex P × P)) (stored : List P)
    (hinit : init env block_in_use disk first n = some s0)
    (hlive : LiveCalls env s0 [] calls)
    (hrun : run_stores env s0 calls = some (s, stored))
    (in_use : Nat → Bool) :
    ∃ delivered, load_patches env in_use s = some delivered ∧
      ∀ p ∈ stored, in_use (env.codec.get_block_id p) = true →
        ∃ L, (env.codec.get_block_id p, L) ∈ delivered ∧ p ∈ L ∧
          L.Sorted (fun x y => env.codec.lt y x = false) := by
  have hs0 := storedInv_init env h hok block_in_use disk first n hfresh s0 hinit
  have hs := run_stores_inv env h hok hlarger calls s0 s [] stored hs0 hlive hrun
  rw [List.nil_append] at hs
  obtain ⟨all, hall, hmem⟩ := scan_all_of_blocks env s.log_block_bufs (by
    intro data hd
    obtain ⟨i, hi, hget⟩ := List.getElem_of_mem hd
    have hb := hs.inv.blocks.block_inv i data (by rw [List.getElem?_eq_getElem hi, hget])
    obtain ⟨ps1, hscan, -⟩ := scan_block_layout env h hok data hb
    exact ⟨_, hscan⟩)
  obtain ⟨m, hload, -, hfind⟩ := load_patches_map env in_use s all
    hs.inv.blocks.bufs_length hall
  refine ⟨_, hload, ?_⟩
  intro p hp hu
  have hpall : p ∈ all := (hmem p).2 (hs.complete p hp)
  have hpf : p ∈ patches_for env (env.codec.get_block_id p) all := by
    simp [patches_for, hpall]
  have hne : (patches_for env (env.codec.get_block_id p) all).isEmpty = false := by
    cases hl : patches_for env (env.codec.get_block_id p) all with
    | nil => rw [hl] at hpf; cases hpf
    | cons a l => rfl
  have hf := hfind (env.codec.get_block_id p)
  rw [if_pos ⟨hu, hne⟩] at hf
  refine ⟨sort_patches env (patches_for env (env.codec.get_block_id p) all), ?_, ?_,
    sort_patches_sorted env ho _⟩
  · rw [List.mem_map]
    exact ⟨(_, _), map_find_mem m _ _ hf, rfl⟩
  · rw [(sort_patches_perm env _).mem_iff]
    exact hpf

/-- When every patch is larger than `get_min_serialized_size`, the scan of the active block
stops at `next_patch_offset` in every state reached from `init`: the scan guard then never
stops in front of a record. -/
theorem scan_offset_eq_of_larger {P : Type} (env : Env P) (h : CodecLaws env) (hok : EnvOK env)
    (hlarger : ∀ p, env.codec.get_min_serialized_size < env.codec.get_serialized_size p)
    (block_in_use : Nat → Bool) (disk : Nat → List Nat) (first n : Nat)
    (hdisk : DiskOK env block_in_use disk first n) (s0 s : Storage) (ops : List (Op P))
    (hn : 1 ≤ n) (hinit : init env block_in_use disk first n = some s0)
    (hrun : run_ops env s0 ops = some s) :
    ∃ data ps, get_buf s s.active_log_block = some data ∧
      scan_block env data = some (ps, s.next_patch_offset) ∧
      s.next_patch_offset = env.LOG_BLOCK_MAGIC.length + records_size env ps := by
  obtain ⟨hinv, -, hc⟩ := reachable_inv env h hok block_in_use disk first n hdisk s0 s ops
    hinit hrun
  have hne : s.number_of_blocks ≠ 0 := by omega
  obtain ⟨data, ps, hget, hlay⟩ := hinv.active hne
  refine ⟨data, ps, hget, activeLayout_scan_of_larger env h hok hlarger _ _ _ hlay, ?_⟩
  obtain ⟨_, _, _, hnext, _⟩ := hlay
  exact hnext

theorem slackEnv_laws : CodecLaws slackEnv := by
  refine ⟨?_, ?_, ?_, ?_⟩
  · intro p
    simp [slackEnv, sampleEnv, sampleCodec]
    omega
  · intro p rest
    simp [slackEnv, sampleEnv, sampleCodec]
  · intro bytes hz
    match bytes, hz with
    | [], _ => rfl
    | [_], _ => rfl
    | [_, _], _ => rfl
    | n :: b :: c :: rest, hz =>
      have hn : n = 0 := hz n (by simp)
      subst hn
      simp [slackEnv, sampleEnv, sampleCodec]
  · intro p
    simp [slackEnv, sampleEnv, sampleCodec]
    omega

theorem slackEnv_larger (p : SamplePatch) :
    slackEnv.codec.get_min_serialized_size < slackEnv.codec.get_serialized_size p := by
  simp [slackEnv, sampleEnv, sampleCodec]
  omega

theorem allLive_keeps (q : SamplePatch) : keep_patch slackEnv allLive q = true := by
  simp [keep_patch, allLive, slackEnv, sampleEnv, sampleCodec]

theorem slackEnv_order : OrderLaws slackEnv :=
  ⟨sampleEnv_order.irrefl, sampleEnv_order.trans, sampleEnv_order.total⟩

theorem sampleCalls_keep (c : CoreIndex SamplePatch × SamplePatch) (hc : c ∈ sampleCalls)
    (q : SamplePatch) : keep_patch slackEnv c.1 q = true := by
  simp only [sampleCalls, List.mem_map] at hc
  obtain ⟨p, -, hp⟩ := hc
  rw [← hp]
  exact allLive_keeps q

theorem liveCalls_of_keeps {P : Type} (env : Env P) (calls : List (CoreIndex P × P))
    (hk : ∀ c ∈ calls, ∀ q, keep_patch env c.1 q = true) :
    ∀ (s : Storage) (stored : List P), LiveCalls env s stored calls := by
  induction calls with
  | nil => intro s stored; trivial
  | cons c calls ih =>
    intro s stored
    refine ⟨fun q _ => hk c (by simp) q, fun s1 b _ => ?_⟩
    exact ih (fun c2 hc2 q => hk c2 (by simp [hc2]) q) s1 _

/-- The four sample patches with a minimal size of 2: the same four stores fill block 10 to
its end, the scan of the active block stops at `next_patch_offset` = 16, and `load_patches`
delivers all four patches. -/
theorem recovery_of_larger_sample :
    run_stores slackEnv sampleFresh sampleCalls = some (sampleFull, samplePatches) ∧
    scan_block slackEnv [76, 79, 71, 66, 3, 7, 1, 3, 7, 2, 3, 7, 3, 3, 7, 4] =
      some (samplePatches, 16) ∧
    load_patches slackEnv allInUse sampleFull = some [(7, samplePatches)] ∧
    ∃ delivered, load_patches slackEnv allInUse sampleFull = some delivered ∧
      ∀ p ∈ samplePatches, allInUse (slackEnv.codec.get_block_id p) = true →
        ∃ L, (slackEnv.codec.get_block_id p, L) ∈ delivered ∧ p ∈ L ∧
          L.Sorted (fun x y => slackEnv.codec.lt y x = false) :=
  ⟨by decide, by decide, by decide,
    recovery_of_larger slackEnv slackEnv_laws ⟨by decide, by decide⟩ slackEnv_order
      slackEnv_larger noneInUse noDisk 10 2 (fun _ => rfl) sampleFresh sampleFull sampleCalls
      samplePatches (by decide)
      (liveCalls_of_keeps slackEnv sampleCalls sampleCalls_keep sampleFresh [])
      (by decide) allInUse⟩

/-- The four sample stores with a minimal size of 2: the scan of the active block stops at
`next_patch_offset`. -/
theorem scan_offset_eq_of_larger_sample :
    init slackEnv noneInUse noDisk 10 2 = some sampleFresh ∧
    run_ops slackEnv sampleFresh sampleStores = some sampleFull ∧
    ∃ data ps, get_buf sampleFull sampleFull.active_log_block = some data ∧
      scan_block slackEnv data = some (ps, sampleFull.next_patch_offset) ∧
      sampleFull.next_patch_offset =
        slackEnv.LOG_BLOCK_MAGIC.length + records_size slackEnv ps :=
  ⟨by decide, by decide,
    scan_offset_eq_of_larger slackEnv slackEnv_laws ⟨by decide, by decide⟩ slackEnv_larger
      noneInUse noDisk 10 2 (diskOK_fresh slackEnv noneInUse noDisk 10 2 (fun _ => rfl))
      sampleFresh sampleFull sampleStores (by decide) (by decide) (by decide)⟩

/-! ### The compaction ring: C19, C20 -/

theorem add_mod_cases (o k c : Nat) (ho : o < c) (hk : k ≤ c) :
    (o + k) % c = if o + k < c then o + k else o + k - c := by
  split
  · rename_i h
    exact Nat.mod_eq_of_lt h
  · rename_i h
    rw [Nat.mod_eq_sub_mod (by omega)]
    exact Nat.mod_eq_of_lt (by omega)

theorem ring_block_eq_mod (s : Storage) (k : Nat) (hge : s.first_block ≤ s.active_log_block)
    (hlt : s.active_log_block < s.first_block + s.number_of_blocks)
    (hk : k ≤ s.number_of_blocks) :
    ring_block s k =
      s.first_block + (s.active_log_block - s.first_block + k) % s.number_of_blocks := by
  rw [add_mod_cases _ _ _ (by omega) hk]
  unfold ring_block
  simp only
  split <;> split <;> omega

theorem select_eq_ring_block (s : Storage) :
    select_log_block_for_compression s = ring_block s 1 := rfl

/-- C19. With at least one log block and the active block inside the log range,
`select_log_block_for_compression` returns the block at ring offset
`(active_log_block - first_block + 1) mod number_of_blocks`, which lies in the log range. -/
theorem select_eq_mod (s : Storage) (hcount : 1 ≤ s.number_of_blocks)
    (hge : s.first_block ≤ s.active_log_block)
    (hlt : s.active_log_block < s.first_block + s.number_of_blocks) :
    select_log_block_for_compression s =
        s.first_block + (s.active_log_block - s.first_block + 1) % s.number_of_blocks ∧
      s.first_block ≤ select_log_block_for_compression s ∧
      select_log_block_for_compression s < s.first_block + s.number_of_blocks := by
  have h1 := add_mod_cases (s.active_log_block - s.first_block) 1 s.number_of_blocks
    (by omega) hcount
  rw [h1]
  unfold select_log_block_for_compression
  simp only
  split <;> split <;> omega

/-- C19 at the sample log of two blocks: block 10 is active, block 11 is selected. -/
theorem select_eq_mod_witness :
    select_log_block_for_compression sampleFull = 11 ∧
    (select_log_block_for_compression sampleFull =
        sampleFull.first_block +
          (sampleFull.active_log_block - sampleFull.first_block + 1) %
            sampleFull.number_of_blocks ∧
      sampleFull.first_block ≤ select_log_block_for_compression sampleFull ∧
      select_log_block_for_compression sampleFull <
        sampleFull.first_block + sampleFull.number_of_blocks) :=
  ⟨by decide, select_eq_mod sampleFull (by decide) (by decide) (by decide)⟩

theorem compress_block_fields {P : Type} (env : Env P) (idx : CoreIndex P) (s s1 : Storage)
    (id : Nat) (h : compress_block env idx s id = some s1) :
    s1.first_block = s.first_block ∧ s1.number_of_blocks = s.number_of_blocks ∧
      s1.active_log_block = s.active_log_block ∧
      s1.next_patch_offset = s.next_patch_offset ∧ s1.block_is_empty = s.block_is_empty ∧
      s1.log_block_bufs.length = s.log_block_bufs.length := by
  unfold compress_block at h
  simp only [Option.bind_eq_bind, Option.bind_eq_some] at h
  obtain ⟨data, -, r, -, _, -, h⟩ := h
  split at h
  · simp only [Option.bind_eq_some] at h
    obtain ⟨s2, hi, d1, -, _, -, h⟩ := h
    unfold init_log_block at hi
    simp only [Option.bind_eq_bind, Option.bind_eq_some] at hi
    obtain ⟨d0, -, hs2⟩ := hi
    have e2 : set_buf s id (init_log_block_data env d0) = s2 := Option.some.inj hs2
    have e1 := Option.some.inj h
    rw [← e1, ← e2]
    simp [set_buf]
  · have e1 : s = s1 := Option.some.inj h
    rw [← e1]
    simp

theorem reclaim_space_fields {P : Type} (env : Env P) (idx : CoreIndex P) (s s1 : Storage)
    (n : Nat) (h : reclaim_space env idx s n = some s1) :
    s1.first_block = s.first_block ∧ s1.number_of_blocks = s.number_of_blocks ∧
      s1.active_log_block = select_log_block_for_compression s := by
  unfold reclaim_space at h
  simp only [Option.bind_eq_bind, Option.bind_eq_some] at h
  obtain ⟨s2, hc, hset⟩ := h
  obtain ⟨hf, hn, -⟩ := compress_block_fields env idx s s2 _ hc
  obtain ⟨data, r, -, -, hs1⟩ := set_active_eq_some env s2 s1 _ hset
  rw [hs1]
  exact ⟨hf, hn, rfl⟩

theorem compress_block_eq_some {P : Type} (env : Env P) (idx : CoreIndex P) (s s1 : Storage)
    (id : Nat) (h : compress_block env idx s id = some s1) :
    ∃ (data : List Nat) (ps : List P) (off : Nat),
      get_buf s id = some data ∧ scan_block env data = some (ps, off) ∧
      s1 = if ps.any (fun p => !keep_patch env idx p) = true then
          set_buf s id (write_patches env (init_log_block_data env data)
            env.LOG_BLOCK_MAGIC.length (ps.filter (keep_patch env idx)))
        else s := by
  unfold compress_block at h
  simp only [Option.bind_eq_bind, Option.bind_eq_some] at h
  obtain ⟨data, hd, r, hr, _, -, h⟩ := h
  refine ⟨data, r.1, r.2, hd, hr, ?_⟩
  split at h
  · rename_i hch
    simp only [Option.bind_eq_some] at h
    obtain ⟨s2, hi, d1, hd1, _, -, h⟩ := h
    unfold init_log_block at hi
    simp only [Option.bind_eq_bind, Option.bind_eq_some] at hi
    obtain ⟨d0, hd0, hs2⟩ := hi
    rw [hd] at hd0
    have e0 : data = d0 := Option.some.inj hd0
    have e2 : set_buf s id (init_log_block_data env d0) = s2 := Option.some.inj hs2
    rw [← e2, ← e0, get_buf_set_buf_self s id _ data hd] at hd1
    have e1 : init_log_block_data env data = d1 := Option.some.inj hd1
    have e3 := Option.some.inj h
    rw [if_pos hch, ← e3, ← e2, ← e1, ← e0]
    simp [set_buf]
  · rename_i hch
    rw [if_neg hch]
    exact (Option.some.inj h).symm

theorem reclaim_space_compacted {P : Type} (env : Env P) (idx : CoreIndex P)
    (s s1 : Storage) (n : Nat) (h : reclaim_space env idx s n = some s1) :
    Compacted env idx s s1 (select_log_block_for_compression s) := by
  unfold reclaim_space at h
  simp only [Option.bind_eq_bind, Option.bind_eq_some] at h
  obtain ⟨s2, hc, hset⟩ := h
  obtain ⟨data, ps, off, hd, hscan, hs2⟩ := compress_block_eq_some env idx s s2 _ hc
  obtain ⟨d, r, -, -, hs1⟩ := set_active_eq_some env s2 s1 _ hset
  obtain ⟨hge, -, -⟩ := get_buf_lt s _ data hd
  have hbuf : ∀ id2 : Nat, get_buf s1 id2 = get_buf s2 id2 := by
    intro id2
    rw [hs1]
    rfl
  refine ⟨by rw [hs1], ?_, fun id2 hne => ?_, data, ps, off, hd, hscan, ?_⟩
  · rw [hs1, hs2]
    split <;> rfl
  · rw [hbuf, hs2]
    split
    · exact get_buf_set_buf_other s _ id2 _ hne hge
    · rfl
  · rw [hbuf, hs2]
    split
    · exact get_buf_set_buf_self s _ _ data hd
    · exact hd



/-- C20, counterexample. On a log of one block `select_log_block_for_compression` returns
the active block, and `reclaim_space` compacts it: with an index that holds no patch list
the only block, which is active and holds a patch, is wiped. -/
theorem select_ne_active_counterexample :
    1 ≤ sampleOne.number_of_blocks ∧
    sampleOne.first_block ≤ sampleOne.active_log_block ∧
    sampleOne.active_log_block < sampleOne.first_block + sampleOne.number_of_blocks ∧
    select_log_block_for_compression sampleOne = sampleOne.active_log_block ∧
    (reclaim_space sampleEnv allLive sampleOne 3).map (fun s => s.active_log_block) =
      some sampleOne.active_log_block ∧
    1 ≤ sampleOneStored.number_of_blocks ∧
    sampleOneStored.first_block ≤ sampleOneStored.active_log_block ∧
    sampleOneStored.active_log_block <
      sampleOneStored.first_block + sampleOneStored.number_of_blocks ∧
    select_log_block_for_compression sampleOneStored = sampleOneStored.active_log_block ∧
    reclaim_space sampleEnv noneLive sampleOneStored 3 = some sampleWiped ∧
    get_buf sampleOneStored sampleOneStored.active_log_block =
      some [76, 79, 71, 66, 3, 7, 1, 0, 0, 0, 0, 0, 0, 0, 0, 0] ∧
    get_buf sampleWiped sampleOneStored.active_log_block =
      some [76, 79, 71, 66, 0, 0, 0, 0, 0, 0, 0, 0, 0, 0, 0, 0] := by
  decide

/-- C20, amended. With at least two log blocks and the active block inside the log range,
`select_log_block_for_compression` returns a block other than the active one, and a
`reclaim_space` that returns has compacted that block and made it active: the block that
was active, like every block other than the selected one, has the bytes it had, and no flag
has changed, while the selected block holds the patches of its scan that pass `keep_patch`.
Over a state that satisfies the invariant, with an index that holds no empty list,
`reclaim_space` returns. -/
theorem select_ne_active {P : Type} (env : Env P) (idx : CoreIndex P) (s : Storage) (n : Nat)
    (hcount : 2 ≤ s.number_of_blocks)
    (hlt : s.active_log_block < s.first_block + s.number_of_blocks) :
    select_log_block_for_compression s ≠ s.active_log_block ∧
      (∀ s1, reclaim_space env idx s n = some s1 →
        s1.active_log_block = select_log_block_for_compression s ∧
          s1.active_log_block ≠ s.active_log_block ∧
          get_buf s1 s.active_log_block = get_buf s s.active_log_block ∧
          Compacted env idx s s1 (select_log_block_for_compression s)) ∧
      (CodecLaws env → EnvOK env → Inv env s → IndexOK idx →
        ∃ s1, reclaim_space env idx s n = some s1) := by
  have hne : select_log_block_for_compression s ≠ s.active_log_block := by
    unfold select_log_block_for_compression
    simp only
    split <;> omega
  refine ⟨hne, fun s1 h1 => ?_, fun h hok hs hidx => ?_⟩
  · have hc := reclaim_space_compacted env idx s s1 n h1
    have ha := hc.1
    have hframe := hc.2.2.1
    exact ⟨ha, by rw [ha]; exact hne, hframe _ (Ne.symm hne), hc⟩
  · have hc0 : s.number_of_blocks ≠ 0 := by omega
    rcases reclaim_space_inv env h hok idx s n hs.blocks (hs.active_ge hc0) (hs.active_lt hc0)
      with ⟨-, hbad⟩ | ⟨s1, h1, -⟩
    · exact absurd hidx hbad
    · exact ⟨s1, h1⟩

/-- C20, amended, on the sample log of three blocks with an index that holds no patch list:
block 11 is wiped and made active, and the patch of block 10, which was active, stays. -/
theorem select_ne_active_witness :
    2 ≤ sampleUsed.number_of_blocks ∧
    sampleUsed.active_log_block < sampleUsed.first_block + sampleUsed.number_of_blocks ∧
    (reclaim_space sampleEnv noneLive sampleUsed 3).map (fun s => s.log_block_bufs) =
      some [[76, 79, 71, 66, 3, 7, 3, 0, 0, 0, 0, 0, 0, 0, 0, 0],
            [76, 79, 71, 66, 0, 0, 0, 0, 0, 0, 0, 0, 0, 0, 0, 0],
            [76, 79, 71, 66, 0, 0, 0, 0, 0, 0, 0, 0, 0, 0, 0, 0]] ∧
    (select_log_block_for_compression sampleUsed ≠ sampleUsed.active_log_block ∧
      (∀ s1, reclaim_space sampleEnv noneLive sampleUsed 3 = some s1 →
        s1.active_log_block = select_log_block_for_compression sampleUsed ∧
          s1.active_log_block ≠ sampleUsed.active_log_block ∧
          get_buf s1 sampleUsed.active_log_block =
            get_buf sampleUsed sampleUsed.active_log_block ∧
          Compacted sampleEnv noneLive sampleUsed s1
            (select_log_block_for_compression sampleUsed)) ∧
      (CodecLaws sampleEnv → EnvOK sampleEnv → Inv sampleEnv sampleUsed →
        IndexOK noneLive → ∃ s1, reclaim_space sampleEnv noneLive sampleUsed 3 = some s1)) :=
  ⟨by decide, by decide, by decide,
    select_ne_active sampleEnv noneLive sampleUsed 3 (by decide) (by decide)⟩

/-! ### Consecutive compactions walk the ring: C16 -/

theorem ring_mod_nodup (first o c n : Nat) (ho : o < c) (hn : n ≤ c) :
    ((List.range' 1 n).map (fun k => first + (o + k) % c)).Nodup := by
  apply List.Nodup.map_on _ (List.nodup_range' 1 n)
  intro i hi j hj hij
  rw [List.mem_range'_1] at hi hj
  simp only at hij
  rw [add_mod_cases o i c ho (by omega), add_mod_cases o j c ho (by omega)] at hij
  split at hij <;> split at hij <;> omega

theorem ring_mod_mem (first o c id : Nat) (ho : o < c) :
    id ∈ (List.range' 1 (c - 1)).map (fun k => first + (o + k) % c) ↔
      first ≤ id ∧ id < first + c ∧ id ≠ first + o := by
  rw [List.mem_map]
  constructor
  · rintro ⟨k, hk, rfl⟩
    rw [List.mem_range'_1] at hk
    rw [add_mod_cases o k c ho (by omega)]
    split <;> omega
  · rintro ⟨h1, h2, h3⟩
    by_cases hlt : first + o < id
    · refine ⟨id - (first + o), ?_, ?_⟩
      · rw [List.mem_range'_1]
        omega
      · rw [add_mod_cases o _ c ho (by omega)]
        split <;> omega
    · refine ⟨id + c - (first + o), ?_, ?_⟩
      · rw [List.mem_range'_1]
        omega
      · rw [add_mod_cases o _ c ho (by omega)]
        split <;> omega

theorem mod_shift (o k c : Nat) : ((o + 1) % c + k) % c = (o + (k + 1)) % c := by
  rw [Nat.add_mod, Nat.mod_mod, ← Nat.add_mod]
  congr 1
  omega

theorem reclaim_trace_steps {P : Type} (env : Env P) :
    ∀ (idxs : List (CoreIndex P)) (s : Storage) (tr : List Storage),
      1 ≤ s.number_of_blocks → s.first_block ≤ s.active_log_block →
      s.active_log_block < s.first_block + s.number_of_blocks →
      reclaim_trace env s idxs = some tr →
      tr.length = idxs.length ∧
        tr.map (fun t => t.active_log_block) = (List.range' 1 idxs.length).map (fun k =>
          s.first_block + (s.active_log_block - s.first_block + k) % s.number_of_blocks) ∧
        ∀ (k : Nat) (before after : Storage) (idx : CoreIndex P),
          (s :: tr)[k]? = some before → tr[k]? = some after → idxs[k]? = some idx →
          before.active_log_block = s.first_block +
              (s.active_log_block - s.first_block + k) % s.number_of_blocks ∧
            Compacted env idx before after (s.first_block +
              (s.active_log_block - s.first_block + (k + 1)) % s.number_of_blocks) := by
  intro idxs
  induction idxs with
  | nil =>
    intro s tr hc hge hlt h
    have e : [] = tr := Option.some.inj h
    rw [← e]
    refine ⟨rfl, rfl, ?_⟩
    intro k before after idx _ h2 _
    simp at h2
  | cons idx0 idxs ih =>
    intro s tr hc hge hlt h
    unfold reclaim_trace at h
    simp only [Option.bind_eq_bind, Option.bind_eq_some] at h
    obtain ⟨s1, h1, rest, hrest, hr⟩ := h
    have e : s1 :: rest = tr := Option.some.inj hr
    obtain ⟨hf, hn, ha⟩ := reclaim_space_fields env idx0 s s1 0 h1
    have hsel : select_log_block_for_compression s =
        s.first_block + (s.active_log_block - s.first_block + 1) % s.number_of_blocks := by
      rw [select_eq_ring_block]
      exact ring_block_eq_mod s 1 hge hlt hc
    have hmod : (s.active_log_block - s.first_block + 1) % s.number_of_blocks <
        s.number_of_blocks := Nat.mod_lt _ (by omega)
    have hs1 : s1.active_log_block - s1.first_block =
        (s.active_log_block - s.first_block + 1) % s.number_of_blocks := by
      rw [ha, hf, hsel]
      omega
    obtain ⟨i1, i2, i3⟩ := ih s1 rest (by omega) (by rw [ha, hf, hsel]; omega)
      (by rw [ha, hf, hn, hsel]; omega) hrest
    rw [hs1, hf, hn] at i2 i3
    rw [← e]
    refine ⟨by simp [i1], ?_, ?_⟩
    · simp only [List.length_cons, List.map_cons]
      rw [List.range'_succ, List.map_cons, ha, ← hsel, i2]
      have h2 : List.range' (1 + 1) idxs.length = (List.range' 1 idxs.length).map (1 + ·) := by
        rw [List.map_add_range']
      rw [h2, List.map_map]
      congr 1
      apply List.map_congr_left
      intro k _
      simp only [Function.comp]
      rw [mod_shift, Nat.add_comm 1 k]
    · intro k before after idx hb hafter hidx
      cases k with
      | zero =>
        simp only [List.getElem?_cons_zero] at hb hafter hidx
        have eb : s = before := Option.some.inj hb
        have ea : s1 = after := Option.some.inj hafter
        have ei : idx0 = idx := Option.some.inj hidx
        rw [← eb, ← ea, ← ei]
        refine ⟨?_, ?_⟩
        · rw [Nat.add_zero, Nat.mod_eq_of_lt (by omega)]
          omega
        · have hcomp := reclaim_space_compacted env idx0 s s1 0 h1
          rw [hsel] at hcomp
          exact hcomp
      | succ k =>
        simp only [List.getElem?_cons_succ] at hb hafter hidx
        obtain ⟨j1, j2⟩ := i3 k before after idx hb hafter hidx
        rw [mod_shift] at j1 j2
        exact ⟨j1, j2⟩

theorem reclaim_trace_total {P : Type} (env : Env P) (h : CodecLaws env) (hok : EnvOK env) :
    ∀ (idxs : List (CoreIndex P)) (s : Storage), Inv env s → s.number_of_blocks ≠ 0 →
      (∀ idx ∈ idxs, IndexOK idx) → ∃ tr, reclaim_trace env s idxs = some tr := by
  intro idxs
  induction idxs with
  | nil =>
    intro s _ _ _
    exact ⟨[], rfl⟩
  | cons idx idxs ih =>
    intro s hs hc hidx
    rcases reclaim_space_inv env h hok idx s 0 hs.blocks (hs.active_ge hc) (hs.active_lt hc)
      with ⟨-, hbad⟩ | ⟨s1, h1, hi1, -, hn⟩
    · exact absurd (hidx idx (List.mem_cons_self _ _)) hbad
    · obtain ⟨rest, hrest⟩ := ih s1 hi1 (by rw [hn]; exact hc)
        (fun i hi => hidx i (List.mem_cons_of_mem _ hi))
      refine ⟨s1 :: rest, ?_⟩
      unfold reclaim_trace
      simp [h1, hrest]

/-- C16. With at least two log blocks and the active block inside the log range, take the
states that `number_of_blocks - 1` consecutive calls of `reclaim_space` return. The k-th
call compacts the block at ring offset
`(active_log_block - first_block + k) mod number_of_blocks` and makes it active: that block
is not the one active before the call, it holds afterwards the patches of its scan that
pass `keep_patch`, and every other block keeps its bytes. These blocks are pairwise distinct
and are exactly the log blocks other than the one active at the start. Over a state that
satisfies the invariant, with indexes that hold no empty list, the calls return. -/
theorem reclaim_ring {P : Type} (env : Env P) (s : Storage) (idxs : List (CoreIndex P))
    (hcount : 2 ≤ s.number_of_blocks) (hge : s.first_block ≤ s.active_log_block)
    (hlt : s.active_log_block < s.first_block + s.number_of_blocks)
    (hlen : idxs.length = s.number_of_blocks - 1) :
    (∀ tr, reclaim_trace env s idxs = some tr →
      tr.length = s.number_of_blocks - 1 ∧
      tr.map (fun t => t.active_log_block) =
        (List.range' 1 (s.number_of_blocks - 1)).map (fun k =>
          s.first_block + (s.active_log_block - s.first_block + k) % s.number_of_blocks) ∧
      (tr.map (fun t => t.active_log_block)).Nodup ∧
      (∀ id, id ∈ tr.map (fun t => t.active_log_block) ↔
        (s.first_block ≤ id ∧ id < s.first_block + s.number_of_blocks ∧
          id ≠ s.active_log_block)) ∧
      ∀ (k : Nat) (before after : Storage) (idx : CoreIndex P),
        (s :: tr)[k]? = some before → tr[k]? = some after → idxs[k]? = some idx →
        Compacted env idx before after (s.first_block +
            (s.active_log_block - s.first_block + (k + 1)) % s.number_of_blocks) ∧
          before.active_log_block ≠ s.first_block +
            (s.active_log_block - s.first_block + (k + 1)) % s.number_of_blocks ∧
          get_buf after before.active_log_block = get_buf before before.active_log_block) ∧
      (CodecLaws env → EnvOK env → Inv env s → (∀ idx ∈ idxs, IndexOK idx) →
        ∃ tr, reclaim_trace env s idxs = some tr) := by
  refine ⟨fun tr hr => ?_, fun h hok hs hidx =>
    reclaim_trace_total env h hok idxs s hs (by omega) hidx⟩
  obtain ⟨h1, h2, h3⟩ := reclaim_trace_steps env idxs s tr (by omega) hge hlt hr
  rw [hlen] at h1 h2
  refine ⟨h1, h2, ?_, fun id => ?_, fun k before after idx hb ha hi => ?_⟩
  · rw [h2]
    exact ring_mod_nodup _ _ _ _ (by omega) (by omega)
  · rw [h2, ring_mod_mem _ _ _ _ (by omega)]
    constructor
    · rintro ⟨a, b, c⟩
      exact ⟨a, b, by omega⟩
    · rintro ⟨a, b, c⟩
      exact ⟨a, b, by omega⟩
  · obtain ⟨j1, j2⟩ := h3 k before after idx hb ha hi
    have hk : k < s.number_of_blocks - 1 := by
      have := (List.getElem?_eq_some_iff.1 ha).1
      omega
    have hne : before.active_log_block ≠ s.first_block +
        (s.active_log_block - s.first_block + (k + 1)) % s.number_of_blocks := by
      rw [j1, add_mod_cases _ k _ (by omega) (by omega),
        add_mod_cases _ (k + 1) _ (by omega) (by omega)]
      split <;> split <;> omega
    exact ⟨j2, hne, j2.2.2.1 _ hne⟩

/-- C16 on a sample log of three blocks, each holding a patch that the index `sampleHalf`
discards, with block 11 active: the first call wipes block 12, the second compacts block 10,
and block 11 keeps its bytes. -/
theorem reclaim_ring_witness :
    2 ≤ sampleRingUsed.number_of_blocks ∧
    reclaim_trace sampleEnv sampleRingUsed [sampleHalf, sampleHalf] = some sampleRingTrace ∧
    sampleRingTrace.map (fun t => t.active_log_block) = [12, 10] ∧
    ((∀ tr, reclaim_trace sampleEnv sampleRingUsed [sampleHalf, sampleHalf] = some tr →
      tr.length = sampleRingUsed.number_of_blocks - 1 ∧
      tr.map (fun t => t.active_log_block) =
        (List.range' 1 (sampleRingUsed.number_of_blocks - 1)).map (fun k =>
          sampleRingUsed.first_block +
            (sampleRingUsed.active_log_block - sampleRingUsed.first_block + k) %
              sampleRingUsed.number_of_blocks) ∧
      (tr.map (fun t => t.active_log_block)).Nodup ∧
      (∀ id, id ∈ tr.map (fun t => t.active_log_block) ↔
        (sampleRingUsed.first_block ≤ id ∧
          id < sampleRingUsed.first_block + sampleRingUsed.number_of_blocks ∧
          id ≠ sampleRingUsed.active_log_block)) ∧
      ∀ (k : Nat) (before after : Storage) (idx : CoreIndex SamplePatch),
        (sampleRingUsed :: tr)[k]? = some before → tr[k]? = some after →
        [sampleHalf, sampleHalf][k]? = some idx →
        Compacted sampleEnv idx before after (sampleRingUsed.first_block +
            (sampleRingUsed.active_log_block - sampleRingUsed.first_block + (k + 1)) %
              sampleRingUsed.number_of_blocks) ∧
          before.active_log_block ≠ sampleRingUsed.first_block +
            (sampleRingUsed.active_log_block - sampleRingUsed.first_block + (k + 1)) %
              sampleRingUsed.number_of_blocks ∧
          get_buf after before.active_log_block = get_buf before before.active_log_block) ∧
      (CodecLaws sampleEnv → EnvOK sampleEnv → Inv sampleEnv sampleRingUsed →
        (∀ idx ∈ [sampleHalf, sampleHalf], IndexOK idx) →
        ∃ tr, reclaim_trace sampleEnv sampleRingUsed [sampleHalf, sampleHalf] = some tr)) :=
  ⟨by decide, by decide, by decide,
    reclaim_ring sampleEnv sampleRingUsed [sampleHalf, sampleHalf] (by decide) (by decide)
      (by decide) (by decide)⟩

/-! ### What a flush leaves behind: C14, C12, C11 -/

theorem flush_block_eq_some {P : Type} (env : Env P) (idx : CoreIndex P) (s s1 : Storage)
    (id : Nat) (fl : List Nat) (h : flush_block env idx s id = some (s1, fl)) :
    ∃ data r, get_buf s id = some data ∧ scan_block env data = some r ∧
      s1 = set_empty (set_buf s id (init_log_block_data env data)) id true := by
  unfold flush_block at h
  simp only [Option.bind_eq_bind, Option.bind_eq_some] at h
  obtain ⟨data, hd, r, hr, s2, hi, hs⟩ := h
  unfold init_log_block at hi
  simp only [Option.bind_eq_bind, Option.bind_eq_some] at hi
  obtain ⟨d0, hd0, hs2⟩ := hi
  rw [hd] at hd0
  have e0 : data = d0 := Option.some.inj hd0
  have e2 : set_buf s id (init_log_block_data env d0) = s2 := Option.some.inj hs2
  obtain ⟨e1, -⟩ := Prod.mk.inj (Option.some.inj hs)
  refine ⟨data, r, hd, hr, ?_⟩
  rw [← e1, ← e2, e0]

theorem scan_block_magic {P : Type} (env : Env P) (data : List Nat) (r : List P × Nat)
    (h : scan_block env data = some r) : magic_ok env data = true := by
  unfold scan_block at h
  by_cases hm : magic_ok env data = true
  · exact hm
  · simp [check, hm] at h

/-- C14. For a log block of `block_size` bytes, whatever patches it holds and whatever the
in-core index holds: when `flush_block` returns, which it does only if the block begins
with the magic, the block is flagged empty and its bytes are the magic followed by zeros.
Over a block with the layout of a log block and a lawful codec, `flush_block` returns. -/
theorem flush_block_blank {P : Type} (env : Env P) (idx : CoreIndex P) (s : Storage)
    (id : Nat) (data : List Nat) (hok : EnvOK env)
    (hflags : s.block_is_empty.length = s.number_of_blocks)
    (hlt : id < s.first_block + s.number_of_blocks)
    (hget : get_buf s id = some data) (hlen : data.length = env.block_size) :
    (∀ s1 fl, flush_block env idx s id = some (s1, fl) →
      magic_ok env data = true ∧ get_empty s1 id = some true ∧
      ∃ d1, get_buf s1 id = some d1 ∧ d1.length = env.block_size ∧
        d1.take env.LOG_BLOCK_MAGIC.length = env.LOG_BLOCK_MAGIC ∧
        d1.drop env.LOG_BLOCK_MAGIC.length =
          List.replicate (env.block_size - env.LOG_BLOCK_MAGIC.length) 0) ∧
      (CodecLaws env → BlockInv env data → ∃ r, flush_block env idx s id = some r) := by
  obtain ⟨hge, hj, hjd⟩ := get_buf_lt s id data hget
  constructor
  · intro s1 fl h1
    obtain ⟨d0, r, hd0, hr, hs1⟩ := flush_block_eq_some env idx s s1 id fl h1
    rw [hget] at hd0
    have e0 : data = d0 := Option.some.inj hd0
    rw [← e0] at hr hs1
    rw [init_log_block_data_eq env hok data hlen] at hs1
    refine ⟨scan_block_magic env data r hr, ?_, blank env, ?_, ?_, ?_, ?_⟩
    · rw [hs1]
      have hj2 : id - s.first_block < s.block_is_empty.length := by omega
      simp [get_empty, set_empty, set_buf, hge, hj2]
    · rw [hs1]
      simp [get_buf, set_empty, set_buf, hge, hj]
    · have := hok.magic_le
      simp only [blank, List.length_append, List.length_replicate]
      omega
    · simp [blank]
    · simp [blank]
  · intro h hb
    obtain ⟨ps1, hscan, -⟩ := scan_block_layout env h hok _ hb
    simp [flush_block, hget, hscan, init_log_block]

/-- C14 on the sample log, for the block that holds three patches. -/
theorem flush_block_blank_witness :
    EnvOK sampleEnv ∧ sampleThree.block_is_empty.length = sampleThree.number_of_blocks ∧
    10 < sampleThree.first_block + sampleThree.number_of_blocks ∧
    flush_block sampleEnv allLive sampleThree 10 =
      some ({ sampleThree with
        block_is_empty := [true, true],
        log_block_bufs := [[76, 79, 71, 66, 0, 0, 0, 0, 0, 0, 0, 0, 0, 0, 0, 0],
                           [76, 79, 71, 66, 0, 0, 0, 0, 0, 0, 0, 0, 0, 0, 0, 0]] },
        [7, 7, 7]) ∧
    ((∀ s1 fl, flush_block sampleEnv allLive sampleThree 10 = some (s1, fl) →
      magic_ok sampleEnv [76, 79, 71, 66, 3, 7, 1, 3, 7, 2, 3, 7, 3, 0, 0, 0] = true ∧
      get_empty s1 10 = some true ∧
      ∃ d1, get_buf s1 10 = some d1 ∧ d1.length = sampleEnv.block_size ∧
        d1.take sampleEnv.LOG_BLOCK_MAGIC.length = sampleEnv.LOG_BLOCK_MAGIC ∧
        d1.drop sampleEnv.LOG_BLOCK_MAGIC.length =
          List.replicate (sampleEnv.block_size - sampleEnv.LOG_BLOCK_MAGIC.length) 0) ∧
      (CodecLaws sampleEnv →
        BlockInv sampleEnv [76, 79, 71, 66, 3, 7, 1, 3, 7, 2, 3, 7, 3, 0, 0, 0] →
        ∃ r, flush_block sampleEnv allLive sampleThree 10 = some r)) :=
  ⟨sampleEnv_ok, by decide, by decide, by decide,
    flush_block_blank sampleEnv allLive sampleThree 10 _ sampleEnv_ok (by decide) (by decide)
      (by decide) (by decide)⟩

theorem flush_block_shape {P : Type} (env : Env P) (hok : EnvOK env) (idx : CoreIndex P)
    (s s1 : Storage) (id : Nat) (fl : List Nat) (hs : Shape env s)
    (h : flush_block env idx s id = some (s1, fl)) :
    Shape env s1 ∧ s1.first_block = s.first_block ∧
      s1.number_of_blocks = s.number_of_blocks ∧
      s1.active_log_block = s.active_log_block ∧
      s1.next_patch_offset = s.next_patch_offset ∧
      s1.log_block_bufs = s.log_block_bufs.set (id - s.first_block) (blank env) ∧
      s1.block_is_empty = s.block_is_empty.set (id - s.first_block) true := by
  obtain ⟨data, r, hd, -, hs1⟩ := flush_block_eq_some env idx s s1 id fl h
  obtain ⟨-, -, hjd⟩ := get_buf_lt s id data hd
  have hlen : data.length = env.block_size := hs.buf_length data (List.getElem?_mem hjd)
  rw [init_log_block_data_eq env hok data hlen] at hs1
  rw [hs1]
  refine ⟨⟨?_, ?_, hs.active_ge, hs.active_lt, ?_⟩, rfl, rfl, rfl, rfl, rfl, rfl⟩
  · simp [set_empty, set_buf, hs.bufs_length]
  · simp [set_empty, set_buf, hs.empty_length]
  · intro d hdm
    simp only [set_empty, set_buf] at hdm
    rcases List.mem_or_eq_of_mem_set hdm with hm | rfl
    · exact hs.buf_length d hm
    · have := hok.magic_le
      simp only [blank, List.length_append, List.length_replicate]
      omega

theorem flush_loop_exact {P : Type} (env : Env P) (hok : EnvOK env) (idx : CoreIndex P)
    (is : List Nat) :
    ∀ (s : Storage) (acc : List Nat) (r : Storage × List Nat), Shape env s →
      (∀ i ∈ is, i ≤ s.number_of_blocks) →
      flush_loop env idx is (s, acc) = some r →
      Shape env r.1 ∧ r.1.first_block = s.first_block ∧
        r.1.number_of_blocks = s.number_of_blocks ∧
        r.1.active_log_block = s.active_log_block ∧
        r.1.next_patch_offset = s.next_patch_offset ∧
        ∀ j : Nat,
          (Wiped s is j → r.1.log_block_bufs[j]? = some (blank env) ∧
            r.1.block_is_empty[j]? = some true) ∧
          (¬ Wiped s is j → r.1.log_block_bufs[j]? = s.log_block_bufs[j]? ∧
            r.1.block_is_empty[j]? = s.block_is_empty[j]?) := by
  induction is with
  | nil =>
    intro s acc r hs _ h
    have e : (s, acc) = r := Option.some.inj h
    rw [← e]
    refine ⟨hs, rfl, rfl, rfl, rfl, fun j => ⟨fun hw => ?_, fun _ => ⟨rfl, rfl⟩⟩⟩
    obtain ⟨⟨i, hi, -⟩, -⟩ := hw
    cases hi
  | cons i is ih =>
    intro s acc r hs his h
    obtain ⟨hr1, hr2⟩ := ring_block_range s i hs.active_ge hs.active_lt (his i (by simp))
    have hj : ring_block s i - s.first_block < s.block_is_empty.length := by
      rw [hs.empty_length]; omega
    have hjb : ring_block s i - s.first_block < s.log_block_bufs.length := by
      rw [hs.bufs_length]; omega
    have hge0 : get_empty s (ring_block s i) =
        some (s.block_is_empty[ring_block s i - s.first_block]) := by
      simp [get_empty, hr1, hj]
    have hflag : s.block_is_empty[ring_block s i - s.first_block]? =
        some (s.block_is_empty[ring_block s i - s.first_block]) :=
      List.getElem?_eq_getElem hj
    by_cases he : s.block_is_empty[ring_block s i - s.first_block] = true
    · simp only [flush_loop, hge0, he, Option.bind_eq_bind, Option.some_bind] at h
      have h2 : flush_loop env idx is (s, acc) = some r := by simpa using h
      obtain ⟨hsh, hf, hc, ha, hn, hun⟩ := ih s acc r hs (fun k hk => his k (by simp [hk])) h2
      have hiff : ∀ j, Wiped s (i :: is) j ↔ Wiped s is j := by
        intro j
        constructor
        · rintro ⟨⟨k, hk, hkj⟩, hfl⟩
          rcases List.mem_cons.1 hk with rfl | hk2
          · rw [← hkj, hflag, he] at hfl
            cases hfl
          · exact ⟨⟨k, hk2, hkj⟩, hfl⟩
        · rintro ⟨⟨k, hk, hkj⟩, hfl⟩
          exact ⟨⟨k, List.mem_cons_of_mem _ hk, hkj⟩, hfl⟩
      refine ⟨hsh, hf, hc, ha, hn, fun j => ?_⟩
      rw [hiff j]
      exact hun j
    · have hef : s.block_is_empty[ring_block s i - s.first_block] = false := by
        simpa using he
      simp only [flush_loop, hge0, hef, Option.bind_eq_bind, Option.some_bind,
        Option.bind_eq_some] at h
      have h3 : ((flush_block env idx s (ring_block s i)).bind fun a =>
          flush_loop env idx is (a.1, acc ++ a.2)) = some r := by simpa using h
      have h2 : ∃ a, flush_block env idx s (ring_block s i) = some a ∧
          flush_loop env idx is (a.1, acc ++ a.2) = some r := Option.bind_eq_some.1 h3
      obtain ⟨⟨s1, fl⟩, hfl, hrest⟩ := h2
      obtain ⟨hsh1, hf1, hc1, ha1, hn1, hbufs1, hflags1⟩ :=
        flush_block_shape env hok idx s s1 _ fl hs hfl
      have hring : ∀ k, ring_block s1 k = ring_block s k := by
        intro k
        simp only [ring_block, hf1, hc1, ha1]
      obtain ⟨hsh, hf, hc, ha, hn, hun⟩ := ih s1 (acc ++ fl) r hsh1
        (fun k hk => by rw [hc1]; exact his k (by simp [hk])) hrest
      refine ⟨hsh, by rw [hf, hf1], by rw [hc, hc1], by rw [ha, ha1], by rw [hn, hn1],
        fun j => ?_⟩
      by_cases hjj : ring_block s i - s.first_block = j
      · have hnw : ¬ Wiped s1 is j := by
          rintro ⟨-, hfl1⟩
          rw [hflags1, ← hjj, List.getElem?_set_eq_of_lt _ hj] at hfl1
          cases hfl1
        have hw : Wiped s (i :: is) j :=
          ⟨⟨i, List.mem_cons_self _ _, hjj⟩, by rw [← hjj, hflag, hef]⟩
        obtain ⟨u1, u2⟩ := (hun j).2 hnw
        refine ⟨fun _ => ?_, fun hn => absurd hw hn⟩
        rw [u1, u2, hbufs1, hflags1, ← hjj, List.getElem?_set_eq_of_lt _ hj,
          List.getElem?_set_eq_of_lt _ hjb]
        exact ⟨rfl, rfl⟩
      · have hsame : s1.log_block_bufs[j]? = s.log_block_bufs[j]? ∧
            s1.block_is_empty[j]? = s.block_is_empty[j]? := by
          rw [hbufs1, hflags1, List.getElem?_set_ne hjj, List.getElem?_set_ne hjj]
          exact ⟨rfl, rfl⟩
        have hiff : Wiped s (i :: is) j ↔ Wiped s1 is j := by
          constructor
          · rintro ⟨⟨k, hk, hkj⟩, hfl⟩
            rcases List.mem_cons.1 hk with rfl | hk2
            · exact absurd hkj hjj
            · exact ⟨⟨k, hk2, by rw [hring, hf1]; exact hkj⟩, by rw [hsame.2]; exact hfl⟩
          · rintro ⟨⟨k, hk, hkj⟩, hfl⟩
            rw [hring, hf1] at hkj
            exact ⟨⟨k, List.mem_cons_of_mem _ hk, hkj⟩, by rw [← hsame.2]; exact hfl⟩
        rw [hiff, ← hsame.1, ← hsame.2]
        exact hun j

theorem inv_shape {P : Type} (env : Env P) (s : Storage) (hs : Inv env s)
    (hc : s.number_of_blocks ≠ 0) : Shape env s :=
  ⟨hs.blocks.bufs_length, hs.blocks.empty_length, hs.active_ge hc, hs.active_lt hc,
    fun data hd => by
      obtain ⟨i, hi, hget⟩ := List.getElem_of_mem hd
      exact blockInv_length env data (hs.blocks.block_inv i data (by
        rw [List.getElem?_eq_getElem hi, hget]))⟩

theorem flush_n_eq_some {P : Type} (env : Env P) (idx : CoreIndex P) (s : Storage) (n : Nat)
    (r : Storage × List Nat) (hc : s.number_of_blocks ≠ 0)
    (h : flush_n_oldest_blocks env idx s n = some r) :
    ∃ r1, flush_loop env idx (List.range' 1 (min s.number_of_blocks n)) (s, []) = some r1 ∧
      if min s.number_of_blocks n = s.number_of_blocks then
        ∃ s1, set_active_log_block env r1.1 r1.1.active_log_block = some s1 ∧ r = (s1, r1.2)
      else r = r1 := by
  unfold flush_n_oldest_blocks at h
  simp only [Option.bind_eq_bind, Option.bind_eq_some, hc, if_false] at h
  obtain ⟨_, -, r1, hr1, h⟩ := h
  refine ⟨r1, hr1, ?_⟩
  split
  · rename_i hall
    simp only [hall, if_true, Option.bind_eq_some] at h
    obtain ⟨s1, hs1, e⟩ := h
    exact ⟨s1, hs1, (Option.some.inj e).symm⟩
  · rename_i hall
    simp only [hall, if_false] at h
    exact (Option.some.inj h).symm

/-- C12. For a log in the shape the source asserts and `n < number_of_blocks`, in
particular for at least two blocks and `1 ≤ n < number_of_blocks`: when `flush_n_oldest_blocks(n)` returns, the blocks at the ring
positions `active + 1 .. active + n` whose flag was not set are wiped to the magic followed
by zeros and flagged empty; every other log block keeps its bytes and its flag, the active
block among them, and `active_log_block` and `next_patch_offset` are unchanged. Over a state
that satisfies the invariant, with a lawful codec, the call returns. -/
theorem flush_n_some_blocks {P : Type} (env : Env P) (hok : EnvOK env) (idx : CoreIndex P)
    (s : Storage) (n : Nat) (hs : Shape env s) (hn : n < s.number_of_blocks) :
    (∀ r, flush_n_oldest_blocks env idx s n = some r →
      r.1.active_log_block = s.active_log_block ∧
      r.1.next_patch_offset = s.next_patch_offset ∧
      get_buf r.1 s.active_log_block = get_buf s s.active_log_block ∧
      ∀ id : Nat, s.first_block ≤ id → id < s.first_block + s.number_of_blocks →
        (((∃ i, 1 ≤ i ∧ i ≤ n ∧ ring_block s i = id) ∧ get_empty s id = some false) →
          get_buf r.1 id = some (blank env) ∧ get_empty r.1 id = some true) ∧
        (¬ ((∃ i, 1 ≤ i ∧ i ≤ n ∧ ring_block s i = id) ∧ get_empty s id = some false) →
          get_buf r.1 id = get_buf s id ∧ get_empty r.1 id = get_empty s id)) ∧
      (CodecLaws env → Inv env s → ∃ r, flush_n_oldest_blocks env idx s n = some r) := by
  constructor
  · intro r hr
    obtain ⟨r1, hloop, hfin⟩ := flush_n_eq_some env idx s n r (by omega) hr
    have hmin : min s.number_of_blocks n = n := by omega
    rw [hmin] at hloop hfin
    rw [if_neg (by omega)] at hfin
    rw [hfin]
    obtain ⟨-, hf, -, ha, hnx, hj⟩ := flush_loop_exact env hok idx (List.range' 1 n) s [] r1
      hs (fun i hi => by rw [List.mem_range'_1] at hi; omega) hloop
    have hiff : ∀ id : Nat, s.first_block ≤ id →
        (Wiped s (List.range' 1 n) (id - s.first_block) ↔
          ((∃ i, 1 ≤ i ∧ i ≤ n ∧ ring_block s i = id) ∧ get_empty s id = some false)) := by
      intro id hid
      have hge : get_empty s id = s.block_is_empty[id - s.first_block]? := by
        simp [get_empty, hid]
      unfold Wiped
      rw [hge]
      constructor
      · rintro ⟨⟨i, hi, hij⟩, hfl⟩
        rw [List.mem_range'_1] at hi
        have := (ring_block_range s i hs.active_ge hs.active_lt (by omega)).1
        exact ⟨⟨i, hi.1, by omega, by omega⟩, hfl⟩
      · rintro ⟨⟨i, hi1, hi2, hij⟩, hfl⟩
        exact ⟨⟨i, by rw [List.mem_range'_1]; omega, by rw [hij]⟩, hfl⟩
    have hgb : ∀ id : Nat, s.first_block ≤ id →
        get_buf r1.1 id = r1.1.log_block_bufs[id - s.first_block]? ∧
        get_empty r1.1 id = r1.1.block_is_empty[id - s.first_block]? ∧
        get_buf s id = s.log_block_bufs[id - s.first_block]? ∧
        get_empty s id = s.block_is_empty[id - s.first_block]? := by
      intro id hid
      simp [get_buf, get_empty, hf, hid]
    have hother : ∀ id : Nat, s.first_block ≤ id →
        ¬ ((∃ i, 1 ≤ i ∧ i ≤ n ∧ ring_block s i = id) ∧ get_empty s id = some false) →
        get_buf r1.1 id = get_buf s id ∧ get_empty r1.1 id = get_empty s id := by
      intro id hid hnw
      obtain ⟨g1, g2, g3, g4⟩ := hgb id hid
      rw [g1, g2, g3, g4]
      exact (hj (id - s.first_block)).2 (fun hw => hnw ((hiff id hid).1 hw))
    refine ⟨ha, hnx, ?_, fun id hid _ => ⟨fun hw => ?_, hother id hid⟩⟩
    · refine (hother s.active_log_block hs.active_ge ?_).1
      rintro ⟨⟨i, hi1, hi2, hij⟩, -⟩
      have := ring_block_ne_active s i hs.active_ge hi1 (by omega)
      rw [hij] at this
      exact this rfl
    · obtain ⟨g1, g2, -, -⟩ := hgb id hid
      rw [g1, g2]
      exact (hj (id - s.first_block)).1 ((hiff id hid).2 hw)
  · intro h hinv
    obtain ⟨r, hr, -⟩ := flush_n_inv env h hok idx s n hinv
    exact ⟨r, hr⟩

theorem sampleUsed_shape : Shape sampleEnv sampleUsed :=
  ⟨by decide, by decide, by decide, by decide, by decide⟩

/-- C12 on the sample log of three blocks: flushing one block wipes block 11 and leaves the
active block 10 and the blank block 12 as they were. -/
theorem flush_n_some_blocks_witness :
    2 ≤ sampleUsed.number_of_blocks ∧ 1 < sampleUsed.number_of_blocks ∧
    flush_n_oldest_blocks sampleEnv allLive sampleUsed 1 =
      some ({ sampleUsed with
        block_is_empty := [false, true, true],
        log_block_bufs := [[76, 79, 71, 66, 3, 7, 3, 0, 0, 0, 0, 0, 0, 0, 0, 0],
                           [76, 79, 71, 66, 0, 0, 0, 0, 0, 0, 0, 0, 0, 0, 0, 0],
                           [76, 79, 71, 66, 0, 0, 0, 0, 0, 0, 0, 0, 0, 0, 0, 0]] }, [7, 7]) ∧
    ((∀ r, flush_n_oldest_blocks sampleEnv allLive sampleUsed 1 = some r →
      r.1.active_log_block = sampleUsed.active_log_block ∧
      r.1.next_patch_offset = sampleUsed.next_patch_offset ∧
      get_buf r.1 sampleUsed.active_log_block = get_buf sampleUsed sampleUsed.active_log_block ∧
      ∀ id : Nat, sampleUsed.first_block ≤ id →
        id < sampleUsed.first_block + sampleUsed.number_of_blocks →
        (((∃ i, 1 ≤ i ∧ i ≤ 1 ∧ ring_block sampleUsed i = id) ∧
            get_empty sampleUsed id = some false) →
          get_buf r.1 id = some (blank sampleEnv) ∧ get_empty r.1 id = some true) ∧
        (¬ ((∃ i, 1 ≤ i ∧ i ≤ 1 ∧ ring_block sampleUsed i = id) ∧
            get_empty sampleUsed id = some false) →
          get_buf r.1 id = get_buf sampleUsed id ∧
            get_empty r.1 id = get_empty sampleUsed id)) ∧
      (CodecLaws sampleEnv → Inv sampleEnv sampleUsed →
        ∃ r, flush_n_oldest_blocks sampleEnv allLive sampleUsed 1 = some r)) :=
  ⟨by decide, by decide, by decide,
    flush_n_some_blocks sampleEnv sampleEnv_ok allLive sampleUsed 1 sampleUsed_shape (by decide)⟩

theorem ring_block_cover (s : Storage) (j : Nat) (hge : s.first_block ≤ s.active_log_block)
    (hlt : s.active_log_block < s.first_block + s.number_of_blocks)
    (hj : j < s.number_of_blocks) :
    ∃ i, 1 ≤ i ∧ i ≤ s.number_of_blocks ∧ ring_block s i - s.first_block = j := by
  by_cases h : s.active_log_block - s.first_block < j
  · refine ⟨j - (s.active_log_block - s.first_block), by omega, by omega, ?_⟩
    unfold ring_block
    simp only
    split <;> omega
  · refine ⟨j + s.number_of_blocks - (s.active_log_block - s.first_block), by omega,
      by omega, ?_⟩
    unfold ring_block
    simp only
    split <;> omega

theorem flush_all_blank {P : Type} (env : Env P) (h : CodecLaws env) (hok : EnvOK env)
    (idx : CoreIndex P) (s : Storage) (k : Nat) (hs : Inv env s)
    (hc : 1 ≤ s.number_of_blocks) (hk : s.number_of_blocks ≤ k) :
    ∃ r, flush_n_oldest_blocks env idx s k = some r ∧
      r.1.first_block = s.first_block ∧ r.1.number_of_blocks = s.number_of_blocks ∧
      r.1.active_log_block = s.active_log_block ∧
      r.1.next_patch_offset = env.LOG_BLOCK_MAGIC.length ∧
      ∀ j : Nat, j < s.number_of_blocks →
        r.1.log_block_bufs[j]? = some (blank env) ∧ r.1.block_is_empty[j]? = some true := by
  have hsh := inv_shape env s hs (by omega)
  obtain ⟨r, hr, -⟩ := flush_n_inv env h hok idx s k hs
  refine ⟨r, hr, ?_⟩
  obtain ⟨r1, hloop, hfin⟩ := flush_n_eq_some env idx s k r (by omega) hr
  have hmin : min s.number_of_blocks k = s.number_of_blocks := by omega
  rw [hmin] at hloop hfin
  rw [if_pos rfl] at hfin
  obtain ⟨s1, hset, hrs⟩ := hfin
  obtain ⟨-, hf, hcnt, ha, -, hj⟩ := flush_loop_exact env hok idx
    (List.range' 1 s.number_of_blocks) s [] r1 hsh
    (fun i hi => by rw [List.mem_range'_1] at hi; omega) hloop
  have hall : ∀ j : Nat, j < s.number_of_blocks →
      r1.1.log_block_bufs[j]? = some (blank env) ∧ r1.1.block_is_empty[j]? = some true := by
    intro j hjlt
    have hjl : j < s.block_is_empty.length := by rw [hsh.empty_length]; exact hjlt
    by_cases hfl : s.block_is_empty[j]? = some false
    · refine (hj j).1 ⟨?_, hfl⟩
      obtain ⟨i, hi1, hi2, hij⟩ := ring_block_cover s j hsh.active_ge hsh.active_lt hjlt
      exact ⟨i, by rw [List.mem_range'_1]; omega, hij⟩
    · have htrue : s.block_is_empty[j]? = some true := by
        rw [List.getElem?_eq_getElem hjl] at hfl ⊢
        cases hb : s.block_is_empty[j] with
        | true => rfl
        | false => rw [hb] at hfl; exact absurd rfl hfl
      obtain ⟨u1, u2⟩ := (hj j).2 (fun hw => hfl hw.2)
      rw [u1, u2]
      exact ⟨hs.blocks.empty_blank j htrue, htrue⟩
  obtain ⟨data, r2, hget, hscan, hs1⟩ := set_active_eq_some env r1.1 s1 _ hset
  have hact : get_buf r1.1 r1.1.active_log_block = some (blank env) := by
    have h1 := hsh.active_ge
    have h2 := hsh.active_lt
    have := (hall (s.active_log_block - s.first_block) (by omega)).1
    simp only [get_buf, hf, ha, h1, if_true]
    exact this
  rw [hact] at hget
  have e : blank env = data := Option.some.inj hget
  rw [← e, scan_block_blank env h hok] at hscan
  have e2 : (([] : List P), env.LOG_BLOCK_MAGIC.length) = r2 := Option.some.inj hscan
  rw [hrs, hs1, ← e2]
  exact ⟨hf, hcnt, ha, rfl, hall⟩

/-- C11. In every state reached from `init` by calls of `store_patch` and
`flush_n_oldest_blocks` over a log of at least one block, `flush_n_oldest_blocks(k)` with
`k ≥ number_of_blocks` returns and leaves every flag set, every log block holding the magic
followed by zeros, `active_log_block` unchanged and `next_patch_offset` equal to
`sizeof(LOG_BLOCK_MAGIC)`. -/
theorem flush_all {P : Type} (env : Env P) (h : CodecLaws env) (hok : EnvOK env)
    (block_in_use : Nat → Bool) (disk : Nat → List Nat) (first n : Nat)
    (hdisk : DiskOK env block_in_use disk first n) (s0 s : Storage) (ops : List (Op P))
    (hinit : init env block_in_use disk first n = some s0)
    (hrun : run_ops env s0 ops = some s)
    (idx : CoreIndex P) (k : Nat) (hn : 1 ≤ n) (hk : n ≤ k) :
    ∃ r, flush_n_oldest_blocks env idx s k = some r ∧
      r.1.active_log_block = s.active_log_block ∧
      r.1.next_patch_offset = env.LOG_BLOCK_MAGIC.length ∧
      r.1.block_is_empty = List.replicate n true ∧
      r.1.log_block_bufs = List.replicate n
        (env.LOG_BLOCK_MAGIC ++
          List.replicate (env.block_size - env.LOG_BLOCK_MAGIC.length) 0) ∧
      ∀ id : Nat, first ≤ id → id < first + n →
        get_empty r.1 id = some true ∧ get_buf r.1 id = some (blank env) := by
  obtain ⟨hinv, hf, hc⟩ := reachable_inv env h hok block_in_use disk first n hdisk s0 s ops
    hinit hrun
  obtain ⟨r, hr, hf1, hc1, ha, hnx, hall⟩ := flush_all_blank env h hok idx s k hinv
    (by omega) (by omega)
  obtain ⟨r2, hr2, hinv2, -, -⟩ := flush_n_inv env h hok idx s k hinv
  rw [hr] at hr2
  have e : r = r2 := Option.some.inj hr2
  rw [← e] at hinv2
  rw [hc] at hall
  refine ⟨r, hr, ha, hnx, ?_, ?_, fun id hid1 hid2 => ?_⟩
  · apply List.ext_getElem?
    intro j
    by_cases hj : j < n
    · rw [(hall j hj).2, List.getElem?_replicate, if_pos hj]
    · rw [List.getElem?_eq_none (by rw [hinv2.blocks.empty_length, hc1, hc]; omega),
        List.getElem?_replicate, if_neg hj]
  · apply List.ext_getElem?
    intro j
    by_cases hj : j < n
    · rw [(hall j hj).1, List.getElem?_replicate, if_pos hj]
      rfl
    · rw [List.getElem?_eq_none (by rw [hinv2.blocks.bufs_length, hc1, hc]; omega),
        List.getElem?_replicate, if_neg hj]
  · have hj := hall (id - first) (by omega)
    simp only [get_empty, get_buf, hf1, hf, hid1, if_true]
    exact ⟨hj.2, hj.1⟩

/-- C11 at the sample log after the four stores: flushing two blocks or more leaves two
blank blocks flagged empty. -/
theorem flush_all_witness :
    init sampleEnv noneInUse noDisk 10 2 = some sampleFresh ∧
    run_ops sampleEnv sampleFresh sampleStores = some sampleFull ∧
    flush_n_oldest_blocks sampleEnv allLive sampleFull 5 =
      some ({ sampleFresh with active_log_block := 10 }, [7, 7, 7]) ∧
    ∃ r, flush_n_oldest_blocks sampleEnv allLive sampleFull 5 = some r ∧
      r.1.active_log_block = sampleFull.active_log_block ∧
      r.1.next_patch_offset = sampleEnv.LOG_BLOCK_MAGIC.length ∧
      r.1.block_is_empty = List.replicate 2 true ∧
      r.1.log_block_bufs = List.replicate 2
        (sampleEnv.LOG_BLOCK_MAGIC ++
          List.replicate (sampleEnv.block_size - sampleEnv.LOG_BLOCK_MAGIC.length) 0) ∧
      ∀ id : Nat, 10 ≤ id → id < 10 + 2 →
        get_empty r.1 id = some true ∧ get_buf r.1 id = some (blank sampleEnv) :=
  ⟨by decide, by decide, by decide,
    flush_all sampleEnv sampleEnv_laws sampleEnv_ok noneInUse noDisk 10 2
      (noneInUse_diskOK 10 2) sampleFresh sampleFull sampleStores (by decide) (by decide)
      allLive 5 (by decide) (by decide)⟩

/-! ### Compaction: C17, C15, C18 -/

theorem scan_from_guarded {P : Type} (env : Env P) (data : List Nat) :
    ∀ (fuel off : Nat) (ps : List P) (o : Nat),
      scan_from env data fuel off = some (ps, o) → off + records_size env ps < UINT16 →
      o = off + records_size env ps ∧ Guarded env off ps := by
  intro fuel
  induction fuel with
  | zero =>
    intro off ps o h _
    simp [scan_from] at h
  | succ fuel ih =>
    intro off ps o h hlt
    unfold scan_from at h
    split at h
    · rename_i hg
      split at h
      · obtain ⟨e1, e2⟩ := Prod.mk.inj (Option.some.inj h)
        rw [← e1, ← e2]
        exact ⟨rfl, trivial⟩
      · rename_i p hp
        simp only [Option.map_eq_some'] at h
        obtain ⟨⟨rest, o1⟩, hrest, e⟩ := h
        obtain ⟨e1, e2⟩ := Prod.mk.inj e
        simp only at e1 e2
        rw [← e1] at hlt ⊢
        simp only [records_size] at hlt ⊢
        rw [Nat.mod_eq_of_lt (by omega)] at hrest
        obtain ⟨i1, i2⟩ := ih _ rest o1 hrest (by omega)
        refine ⟨by rw [← e2, i1]; omega, hg, i2⟩
    · obtain ⟨e1, e2⟩ := Prod.mk.inj (Option.some.inj h)
      rw [← e1, ← e2]
      exact ⟨rfl, trivial⟩

theorem guarded_filter {P : Type} (env : Env P) (f : P → Bool) (ps : List P) :
    ∀ off off1 : Nat, Guarded env off ps → off1 ≤ off → Guarded env off1 (ps.filter f) := by
  induction ps with
  | nil =>
    intro _ _ _ _
    trivial
  | cons p ps ih =>
    intro off off1 hg hle
    obtain ⟨g1, g2⟩ := hg
    by_cases hf : f p = true
    · rw [List.filter_cons_of_pos hf]
      exact ⟨by omega, ih _ _ g2 (by omega)⟩
    · rw [List.filter_cons_of_neg hf]
      exact ih _ _ g2 (by omega)

theorem walk_guarded {P : Type} (env : Env P) (ps : List P) :
    ∀ off : Nat, Guarded env off ps → walk env off ps = (ps, off + records_size env ps) := by
  induction ps with
  | nil =>
    intro off _
    rfl
  | cons p ps ih =>
    intro off hg
    obtain ⟨g1, g2⟩ := hg
    simp only [walk, g1, if_true, ih _ g2, records_size, Nat.add_assoc]

theorem records_size_filter_add {P : Type} (env : Env P) (f : P → Bool) (ps : List P) :
    records_size env ps =
      records_size env (ps.filter f) + records_size env (ps.filter (fun p => !f p)) := by
  induction ps with
  | nil => rfl
  | cons p ps ih =>
    by_cases hf : f p = true
    · rw [List.filter_cons_of_pos hf, List.filter_cons_of_neg (by simp [hf])]
      simp only [records_size]
      omega
    · rw [List.filter_cons_of_neg hf, List.filter_cons_of_pos (by simpa using hf)]
      simp only [records_size]
      omega

theorem scan_block_guarded {P : Type} (env : Env P) (data : List Nat) (ps : List P)
    (off : Nat) (hscan : scan_block env data = some (ps, off))
    (hfit : env.LOG_BLOCK_MAGIC.length + records_size env ps < UINT16) :
    off = env.LOG_BLOCK_MAGIC.length + records_size env ps ∧
      Guarded env env.LOG_BLOCK_MAGIC.length ps := by
  unfold scan_block at hscan
  simp only [Option.bind_eq_bind, Option.bind_eq_some] at hscan
  obtain ⟨_, -, h⟩ := hscan
  exact scan_from_guarded env data _ _ ps off h hfit

/-- The block a compaction that discards a patch leaves behind, and its scan. -/
theorem compress_block_changed {P : Type} (env : Env P) (h : CodecLaws env) (hok : EnvOK env)
    (idx : CoreIndex P) (s s1 : Storage) (id : Nat) (data : List Nat) (ps : List P)
    (off : Nat) (hget : get_buf s id = some data) (hlen : data.length = env.block_size)
    (hscan : scan_block env data = some (ps, off))
    (hfit : env.LOG_BLOCK_MAGIC.length + records_size env ps ≤ env.block_size)
    (hchanged : ps.any (fun p => !keep_patch env idx p) = true)
    (hc : compress_block env idx s id = some s1) :
    s1 = set_buf s id (env.LOG_BLOCK_MAGIC ++ records env (ps.filter (keep_patch env idx)) ++
        List.replicate (env.block_size - env.LOG_BLOCK_MAGIC.length -
          records_size env (ps.filter (keep_patch env idx))) 0) ∧
      scan_block env (env.LOG_BLOCK_MAGIC ++ records env (ps.filter (keep_patch env idx)) ++
        List.replicate (env.block_size - env.LOG_BLOCK_MAGIC.length -
          records_size env (ps.filter (keep_patch env idx))) 0) =
        some (ps.filter (keep_patch env idx),
          env.LOG_BLOCK_MAGIC.length + records_size env (ps.filter (keep_patch env idx))) := by
  have hbs := hok.block_size_lt
  have hm := hok.magic_le
  have hle := records_size_filter_le env (keep_patch env idx) ps
  obtain ⟨-, hg⟩ := scan_block_guarded env data ps off hscan (by omega)
  constructor
  · unfold compress_block at hc
    simp only [hget, hscan, Option.bind_eq_bind, Option.some_bind, hchanged, if_true,
      init_log_block, init_log_block_data_eq env hok data hlen, Option.bind_eq_some] at hc
    obtain ⟨_, -, d1, hd1, _, -, e⟩ := hc
    rw [get_buf_set_buf_self s id (blank env) data hget] at hd1
    have e1 : blank env = d1 := Option.some.inj hd1
    rw [← e1] at e
    have e2 := (Option.some.inj e).symm
    rw [e2]
    have hw := write_patches_zeros env h hbs (ps.filter (keep_patch env idx))
      env.LOG_BLOCK_MAGIC (env.block_size - env.LOG_BLOCK_MAGIC.length) (by omega) (by omega)
    unfold blank
    rw [hw]
    simp [set_buf]
  · rw [scan_block_records env h hok _ _ (by
      simp only [List.length_append, List.length_replicate, records_length env h]
      omega)]
    rw [walk_guarded env _ _ (guarded_filter env _ ps _ _ hg (le_refl _))]

theorem compress_block_total {P : Type} (env : Env P) (hok : EnvOK env) (idx : CoreIndex P)
    (s : Storage) (id : Nat) (data : List Nat) (r : List P × Nat)
    (hget : get_buf s id = some data) (hlen : data.length = env.block_size)
    (hscan : scan_block env data = some r) (hidx : IndexOK idx) :
    ∃ s1, compress_block env idx s id = some s1 := by
  have hall : r.1.all (patches_nonempty env idx) = true := by
    rw [List.all_eq_true]
    intro p _
    exact patches_nonempty_of_indexOK env idx hidx p
  have hm : magic_ok env (blank env) = true := magic_ok_append env _
  unfold compress_block
  simp only [hget, hscan, hall, check, Option.bind_eq_bind, Option.some_bind, if_true,
    init_log_block, init_log_block_data_eq env hok data hlen,
    get_buf_set_buf_self s id (blank env) data hget, hm]
  split
  · exact ⟨_, rfl⟩
  · exact ⟨_, rfl⟩

theorem compress_block_scan_aux {P : Type} (env : Env P) (h : CodecLaws env)
    (hok : EnvOK env) (idx : CoreIndex P) (s s1 : Storage) (id : Nat) (data : List Nat)
    (ps : List P) (off : Nat) (hget : get_buf s id = some data)
    (hlen : data.length = env.block_size) (hscan : scan_block env data = some (ps, off))
    (hfit : env.LOG_BLOCK_MAGIC.length + records_size env ps ≤ env.block_size)
    (hc : compress_block env idx s id = some s1) :
    ((∀ p ∈ ps, keep_patch env idx p = true) → s1 = s) ∧
      ∃ data1, get_buf s1 id = some data1 ∧
        scan_block env data1 = some (ps.filter (keep_patch env idx),
          env.LOG_BLOCK_MAGIC.length + records_size env (ps.filter (keep_patch env idx))) := by
  have hbs := hok.block_size_lt
  by_cases hall : ∀ p ∈ ps, keep_patch env idx p = true
  · have hu := compress_block_unchanged env idx s id data (ps, off) hget hscan hall
    rw [hu] at hc
    have e : s = s1 := Option.some.inj hc
    rw [← e]
    refine ⟨fun _ => rfl, data, hget, ?_⟩
    have hf : ps.filter (keep_patch env idx) = ps := List.filter_eq_self.2 hall
    rw [hf, hscan, (scan_block_guarded env data ps off hscan (by omega)).1]
  · have hchanged : ps.any (fun p => !keep_patch env idx p) = true := by
      rw [List.any_eq_true]
      by_contra hno
      apply hall
      intro p hp
      by_contra hk
      exact hno ⟨p, hp, by simpa using hk⟩
    obtain ⟨e1, e2⟩ := compress_block_changed env h hok idx s s1 id data ps off hget hlen
      hscan hfit hchanged hc
    refine ⟨fun hk => absurd hk hall, _, ?_, e2⟩
    rw [e1]
    exact get_buf_set_buf_self s id _ data hget

/-- The patches found by the scan of a block written by the log lie inside the block. -/
theorem blockInv_scan_fits {P : Type} (env : Env P) (h : CodecLaws env) (hok : EnvOK env)
    (data : List Nat) (ps : List P) (off : Nat) (hb : BlockInv env data)
    (hscan : scan_block env data = some (ps, off)) :
    env.LOG_BLOCK_MAGIC.length + records_size env ps ≤ env.block_size := by
  obtain ⟨ps1, hs1, tail, hd, hl, -, -⟩ := scan_block_layout env h hok data hb
  rw [hs1] at hscan
  obtain ⟨e, -⟩ := Prod.mk.inj (Option.some.inj hscan)
  rw [← e]
  have hlen := congrArg List.length hd
  rw [hl, List.length_append, List.length_append, records_length env h] at hlen
  omega

/-- C17. For a log block of `block_size` bytes whose scan returns patches that lie inside
the block: when `compress_block` returns, a scan of the block yields exactly the patches of
the scan before the call whose data block has a patch list in the in-core index and which
are not less than the first element of that list, in their original order; and when no
scanned patch is discarded the state, the bytes of the block among it, is untouched. With an
in-core index that holds no empty list, `compress_block` returns. -/
theorem compress_block_scan {P : Type} (env : Env P) (h : CodecLaws env)
    (hok : EnvOK env) (idx : CoreIndex P) (s : Storage) (id : Nat) (data : List Nat)
    (ps : List P) (off : Nat) (hget : get_buf s id = some data)
    (hlen : data.length = env.block_size) (hscan : scan_block env data = some (ps, off))
    (hfit : env.LOG_BLOCK_MAGIC.length + records_size env ps ≤ env.block_size) :
    (∀ s1, compress_block env idx s id = some s1 →
      ((∀ p ∈ ps, keep_patch env idx p = true) → s1 = s) ∧
      ∃ data1 off1, get_buf s1 id = some data1 ∧
        scan_block env data1 = some (ps.filter (keep_patch env idx), off1)) ∧
      (IndexOK idx → ∃ s1, compress_block env idx s id = some s1) := by
  refine ⟨fun s1 hc => ?_, fun hidx =>
    compress_block_total env hok idx s id data (ps, off) hget hlen hscan hidx⟩
  obtain ⟨a, data1, b, c⟩ := compress_block_scan_aux env h hok idx s s1 id data ps off hget
    hlen hscan hfit hc
  exact ⟨a, data1, _, b, c⟩

/-- C15. For a log block of `block_size` bytes whose scan returns patches that lie inside
the block: when `compress_block` returns a state, `compress_block` on that state with the
same in-core index returns that state again. -/
theorem compress_block_idempotent {P : Type} (env : Env P) (h : CodecLaws env)
    (hok : EnvOK env) (idx : CoreIndex P) (s s1 : Storage) (id : Nat) (data : List Nat)
    (ps : List P) (off : Nat) (hget : get_buf s id = some data)
    (hlen : data.length = env.block_size) (hscan : scan_block env data = some (ps, off))
    (hfit : env.LOG_BLOCK_MAGIC.length + records_size env ps ≤ env.block_size)
    (hc : compress_block env idx s id = some s1) :
    compress_block env idx s1 id = some s1 := by
  obtain ⟨-, data1, hget1, hscan1⟩ := compress_block_scan_aux env h hok idx s s1 id data ps
    off hget hlen hscan hfit hc
  exact compress_block_unchanged env idx s1 id data1 _ hget1 hscan1
    (fun q hq => (List.mem_filter.1 hq).2)

/-- C18. When `reclaim_space` returns, having compacted the selected block and made it
active, `next_patch_offset` is the offset that a scan of that block yielded before the call
minus the sum of the serialized sizes of the patches the compaction discarded, provided the
scanned patches lie inside the block. With an in-core index that holds no empty list and
one buffer per log block, `reclaim_space` returns. -/
theorem reclaim_space_offset {P : Type} (env : Env P) (h : CodecLaws env)
    (hok : EnvOK env) (idx : CoreIndex P) (s : Storage) (n : Nat) (data : List Nat)
    (ps : List P) (off : Nat)
    (hget : get_buf s (select_log_block_for_compression s) = some data)
    (hlen : data.length = env.block_size) (hscan : scan_block env data = some (ps, off))
    (hfit : env.LOG_BLOCK_MAGIC.length + records_size env ps ≤ env.block_size) :
    (∀ s2, reclaim_space env idx s n = some s2 →
      s2.active_log_block = select_log_block_for_compression s ∧
      s2.next_patch_offset =
        off - records_size env (ps.filter (fun p => !keep_patch env idx p)) ∧
      records_size env (ps.filter (fun p => !keep_patch env idx p)) ≤ off) ∧
      (IndexOK idx → s.log_block_bufs.length = s.number_of_blocks →
        ∃ s2, reclaim_space env idx s n = some s2) := by
  have hbs := hok.block_size_lt
  have hoff := (scan_block_guarded env data ps off hscan (by omega)).1
  have hsum := records_size_filter_add env (keep_patch env idx) ps
  constructor
  · intro s2 hr
    obtain ⟨-, -, ha⟩ := reclaim_space_fields env idx s s2 n hr
    unfold reclaim_space at hr
    simp only [Option.bind_eq_bind, Option.bind_eq_some] at hr
    obtain ⟨s1, hc, hset⟩ := hr
    obtain ⟨-, data1, hget1, hscan1⟩ := compress_block_scan_aux env h hok idx s s1 _ data ps
      off hget hlen hscan hfit hc
    obtain ⟨d, r, hd, hsc, hs2⟩ := set_active_eq_some env s1 s2 _ hset
    rw [hget1] at hd
    have e : data1 = d := Option.some.inj hd
    rw [← e, hscan1] at hsc
    have e2 := Option.some.inj hsc
    rw [hs2, ← e2]
    refine ⟨rfl, ?_, by omega⟩
    simp only
    omega
  · intro hidx hbufs
    obtain ⟨s1, hc⟩ := compress_block_total env hok idx s _ data (ps, off) hget hlen hscan
      hidx
    obtain ⟨-, data1, hget1, hscan1⟩ := compress_block_scan_aux env h hok idx s s1 _ data ps
      off hget hlen hscan hfit hc
    obtain ⟨hge, hj, -⟩ := get_buf_lt s _ data hget
    obtain ⟨hf, hn, -⟩ := compress_block_fields env idx s s1 _ hc
    have hrange : s1.first_block ≤ select_log_block_for_compression s ∧
        select_log_block_for_compression s < s1.first_block + s1.number_of_blocks := by
      rw [hf, hn]
      omega
    refine ⟨{ s1 with active_log_block := select_log_block_for_compression s,
                      next_patch_offset := env.LOG_BLOCK_MAGIC.length +
                        records_size env (ps.filter (keep_patch env idx)) }, ?_⟩
    unfold reclaim_space
    simp only [hc, Option.bind_eq_bind, Option.some_bind, set_active_log_block, hrange,
      check, hget1, hscan1, and_self, decide_True, if_true]

/-- C17 on the sample log of three blocks: of the two patches of block 11, compaction with
the index `sampleHalf` keeps the second. -/
theorem compress_block_scan_witness :
    get_buf sampleUsed 11 = some [76, 79, 71, 66, 3, 7, 1, 3, 7, 2, 0, 0, 0, 0, 0, 0] ∧
    scan_block sampleEnv [76, 79, 71, 66, 3, 7, 1, 3, 7, 2, 0, 0, 0, 0, 0, 0] =
      some ([⟨7, 1, 0⟩, ⟨7, 2, 0⟩], 10) ∧
    compress_block sampleEnv sampleHalf sampleUsed 11 = some sampleCompacted ∧
    [(⟨7, 1, 0⟩ : SamplePatch), ⟨7, 2, 0⟩].filter (keep_patch sampleEnv sampleHalf) =
      [⟨7, 2, 0⟩] ∧
    ((∀ s1, compress_block sampleEnv sampleHalf sampleUsed 11 = some s1 →
      ((∀ p ∈ [(⟨7, 1, 0⟩ : SamplePatch), ⟨7, 2, 0⟩],
        keep_patch sampleEnv sampleHalf p = true) → s1 = sampleUsed) ∧
      ∃ data1 off1, get_buf s1 11 = some data1 ∧
        scan_block sampleEnv data1 =
          some ([(⟨7, 1, 0⟩ : SamplePatch), ⟨7, 2, 0⟩].filter
            (keep_patch sampleEnv sampleHalf), off1)) ∧
      (IndexOK sampleHalf → ∃ s1, compress_block sampleEnv sampleHalf sampleUsed 11 = some s1)) :=
  ⟨by decide, by decide, by decide, by decide,
    compress_block_scan sampleEnv sampleEnv_laws sampleEnv_ok sampleHalf sampleUsed 11
      [76, 79, 71, 66, 3, 7, 1, 3, 7, 2, 0, 0, 0, 0, 0, 0] [⟨7, 1, 0⟩, ⟨7, 2, 0⟩] 10
      (by decide) (by decide) (by decide) (by decide)⟩

/-- C15 on the sample log of three blocks: a second compaction of block 11 changes
nothing. -/
theorem compress_block_idempotent_witness :
    compress_block sampleEnv sampleHalf sampleUsed 11 = some sampleCompacted ∧
    sampleCompacted ≠ sampleUsed ∧
    compress_block sampleEnv sampleHalf sampleCompacted 11 = some sampleCompacted :=
  ⟨by decide, by decide,
    compress_block_idempotent sampleEnv sampleEnv_laws sampleEnv_ok sampleHalf sampleUsed
      sampleCompacted 11 [76, 79, 71, 66, 3, 7, 1, 3, 7, 2, 0, 0, 0, 0, 0, 0]
      [⟨7, 1, 0⟩, ⟨7, 2, 0⟩] 10 (by decide) (by decide) (by decide) (by decide) (by decide)⟩

/-- C18 on the sample log of three blocks: one of the two patches of block 11 is older than
the oldest live patch of its data block, and `next_patch_offset` is 10 - 3. -/
theorem reclaim_space_offset_witness :
    select_log_block_for_compression sampleUsed = 11 ∧
    scan_block sampleEnv [76, 79, 71, 66, 3, 7, 1, 3, 7, 2, 0, 0, 0, 0, 0, 0] =
      some ([⟨7, 1, 0⟩, ⟨7, 2, 0⟩], 10) ∧
    reclaim_space sampleEnv sampleHalf sampleUsed 3 =
      some { sampleCompacted with active_log_block := 11, next_patch_offset := 7 } ∧
    records_size sampleEnv ([(⟨7, 1, 0⟩ : SamplePatch), ⟨7, 2, 0⟩].filter
      (fun p => !keep_patch sampleEnv sampleHalf p)) = 3 ∧
    ((∀ s2, reclaim_space sampleEnv sampleHalf sampleUsed 3 = some s2 →
      s2.active_log_block = select_log_block_for_compression sampleUsed ∧
      s2.next_patch_offset =
        10 - records_size sampleEnv ([(⟨7, 1, 0⟩ : SamplePatch), ⟨7, 2, 0⟩].filter
          (fun p => !keep_patch sampleEnv sampleHalf p)) ∧
      records_size sampleEnv ([(⟨7, 1, 0⟩ : SamplePatch), ⟨7, 2, 0⟩].filter
          (fun p => !keep_patch sampleEnv sampleHalf p)) ≤ 10) ∧
      (IndexOK sampleHalf → sampleUsed.log_block_bufs.length = sampleUsed.number_of_blocks →
        ∃ s2, reclaim_space sampleEnv sampleHalf sampleUsed 3 = some s2)) :=
  ⟨by decide, by decide, by decide, by decide,
    reclaim_space_offset sampleEnv sampleEnv_laws sampleEnv_ok sampleHalf sampleUsed 3
      [76, 79, 71, 66, 3, 7, 1, 3, 7, 2, 0, 0, 0, 0, 0, 0] [⟨7, 1, 0⟩, ⟨7, 2, 0⟩] 10
      (by decide) (by decide) (by decide) (by decide)⟩

/-! ### The fill scenario: C13 -/

theorem guarded_of_fits {P : Type} (env : Env P) (h : CodecLaws env) (ps : List P) :
    ∀ off : Nat, off + records_size env ps < env.block_size → Guarded env off ps := by
  induction ps with
  | nil =>
    intro _ _
    trivial
  | cons p ps ih =>
    intro off hlt
    simp only [records_size] at hlt
    have := h.min_size p
    exact ⟨by omega, ih _ (by omega)⟩

theorem block_of_length {P : Type} (env : Env P) (h : CodecLaws env) (ps : List P)
    (hfit : env.LOG_BLOCK_MAGIC.length + records_size env ps ≤ env.block_size) :
    (block_of env ps).length = env.block_size := by
  simp only [block_of, List.length_append, List.length_replicate, records_length env h]
  omega

theorem scan_block_block_of {P : Type} (env : Env P) (h : CodecLaws env) (hok : EnvOK env)
    (ps : List P)
    (hfit : env.LOG_BLOCK_MAGIC.length + records_size env ps < env.block_size) :
    scan_block env (block_of env ps) =
      some (ps, env.LOG_BLOCK_MAGIC.length + records_size env ps) := by
  unfold block_of
  rw [scan_block_records env h hok _ _ (by
    simp only [List.length_append, List.length_replicate, records_length env h]
    omega)]
  rw [walk_guarded env _ _ (guarded_of_fits env h ps _ hfit)]

theorem write_at_block_of {P : Type} (env : Env P) (h : CodecLaws env) (ps : List P) (p : P)
    (hfit : env.LOG_BLOCK_MAGIC.length + records_size env ps +
      env.codec.get_serialized_size p ≤ env.block_size) :
    write_at (block_of env ps) (env.LOG_BLOCK_MAGIC.length + records_size env ps)
      (env.codec.serialize p) = block_of env (ps ++ [p]) := by
  unfold block_of
  have hl : (env.LOG_BLOCK_MAGIC ++ records env ps).length =
      env.LOG_BLOCK_MAGIC.length + records_size env ps := by
    rw [List.length_append, records_length env h]
  have hw := write_at_append (env.LOG_BLOCK_MAGIC ++ records env ps)
    (List.replicate (env.block_size - env.LOG_BLOCK_MAGIC.length - records_size env ps) 0)
    (env.codec.serialize p) (by
      rw [List.length_replicate, h.serialize_length]
      omega)
  rw [hl] at hw
  rw [hw, records_append, records_size_append]
  simp only [records, records_size, List.append_nil, Nat.add_zero, List.drop_replicate,
    h.serialize_length, List.append_assoc]
  have e : env.block_size - env.LOG_BLOCK_MAGIC.length - records_size env ps -
      env.codec.get_serialized_size p = env.block_size - env.LOG_BLOCK_MAGIC.length -
        (records_size env ps + env.codec.get_serialized_size p) := by omega
  rw [e]

theorem records_size_const {P : Type} (env : Env P) (c : Nat) (ps : List P)
    (hsz : ∀ q ∈ ps, env.codec.get_serialized_size q = c) :
    records_size env ps = c * ps.length := by
  induction ps with
  | nil => rfl
  | cons p ps ih =>
    simp only [records_size, List.length_cons]
    rw [ih (fun q hq => hsz q (List.mem_cons_of_mem _ hq)), hsz p (List.mem_cons_self _ _)]
    rw [Nat.mul_succ]
    omega

theorem store_patch_write_block_of {P : Type} (env : Env P) (h : CodecLaws env)
    (hbs : env.block_size < UINT16) (s : Storage) (p : P) (qs : List P)
    (hge : s.first_block ≤ s.active_log_block)
    (hbuf : s.log_block_bufs[s.active_log_block - s.first_block]? = some (block_of env qs))
    (hnext : s.next_patch_offset = env.LOG_BLOCK_MAGIC.length + records_size env qs)
    (hfit : env.LOG_BLOCK_MAGIC.length + records_size env qs +
      env.codec.get_serialized_size p ≤ env.block_size) :
    store_patch_write env s p =
      some ({ s with
        block_is_empty := s.block_is_empty.set (s.active_log_block - s.first_block) false,
        log_block_bufs := s.log_block_bufs.set (s.active_log_block - s.first_block)
          (block_of env (qs ++ [p])),
        next_patch_offset := env.LOG_BLOCK_MAGIC.length + records_size env (qs ++ [p]) },
        true) := by
  have hget : get_buf s s.active_log_block = some (block_of env qs) := by
    simp only [get_buf, hge, if_true, hbuf]
  unfold store_patch_write
  simp only [hget, Option.bind_eq_bind, Option.some_bind, set_empty, set_buf, hnext,
    write_at_block_of env h qs p hfit, records_size_append, records_size, Nat.add_zero]
  rw [Nat.mod_eq_of_lt (by omega)]
  simp only [Nat.add_assoc]

theorem store_patch_eq_write {P : Type} (env : Env P) (idx : CoreIndex P) (s : Storage)
    (p : P) (hlen : s.log_block_bufs.length = s.number_of_blocks)
    (hc : s.number_of_blocks ≠ 0) (hnext : s.next_patch_offset ≤ env.block_size)
    (hfit : env.codec.get_serialized_size p ≤ env.block_size - s.next_patch_offset) :
    store_patch env idx s p = store_patch_write env s p := by
  unfold store_patch
  have hnot : ¬ env.codec.get_serialized_size p > env.block_size - s.next_patch_offset := by
    omega
  simp [check, hlen, hc, hnext, hnot]

theorem store_patch_eq_reclaim {P : Type} (env : Env P) (idx : CoreIndex P) (s s1 : Storage)
    (p : P) (hlen : s.log_block_bufs.length = s.number_of_blocks)
    (hc : s.number_of_blocks ≠ 0) (hnext : s.next_patch_offset ≤ env.block_size)
    (hbig : env.codec.get_serialized_size p > env.block_size - s.next_patch_offset)
    (hr : reclaim_space env idx s (env.codec.get_serialized_size p) = some s1) :
    store_patch env idx s p =
      if env.codec.get_serialized_size p >
          (env.block_size + SIZE_T - s1.next_patch_offset) % SIZE_T then
        (set_active_log_block env s1 s.active_log_block).bind (fun s2 => some (s2, false))
      else store_patch_write env s1 p := by
  unfold store_patch
  simp only [check, hlen, hc, hnext, hbig, hr, decide_True, if_true, if_false,
    Option.bind_eq_bind, Option.some_bind, ge_iff_le]

theorem set_active_block_of {P : Type} (env : Env P) (h : CodecLaws env) (hok : EnvOK env)
    (s : Storage) (id : Nat) (qs : List P) (hge : s.first_block ≤ id)
    (hlt : id < s.first_block + s.number_of_blocks)
    (hbuf : s.log_block_bufs[id - s.first_block]? = some (block_of env qs))
    (hfit : env.LOG_BLOCK_MAGIC.length + records_size env qs < env.block_size) :
    set_active_log_block env s id =
      some { s with active_log_block := id,
                    next_patch_offset := env.LOG_BLOCK_MAGIC.length + records_size env qs } := by
  have hget : get_buf s id = some (block_of env qs) := by
    simp only [get_buf, hge, if_true, hbuf]
  unfold set_active_log_block
  simp only [check, hge, hlt, and_self, decide_True, if_true, hget,
    scan_block_block_of env h hok qs hfit, Option.bind_eq_bind, Option.some_bind]

theorem reclaim_space_live {P : Type} (env : Env P) (h : CodecLaws env) (hok : EnvOK env)
    (idx : CoreIndex P) (s : Storage) (n : Nat) (qs : List P)
    (hge : s.first_block ≤ select_log_block_for_compression s)
    (hlt : select_log_block_for_compression s < s.first_block + s.number_of_blocks)
    (hbuf : s.log_block_bufs[select_log_block_for_compression s - s.first_block]? =
      some (block_of env qs))
    (hfit : env.LOG_BLOCK_MAGIC.length + records_size env qs < env.block_size)
    (hlive : ∀ q ∈ qs, keep_patch env idx q = true) :
    reclaim_space env idx s n =
      some { s with active_log_block := select_log_block_for_compression s,
                    next_patch_offset := env.LOG_BLOCK_MAGIC.length + records_size env qs } := by
  have hget : get_buf s (select_log_block_for_compression s) = some (block_of env qs) := by
    simp only [get_buf, hge, if_true, hbuf]
  have hc := compress_block_unchanged env idx s _ (block_of env qs) _ hget
    (scan_block_block_of env h hok qs hfit) hlive
  unfold reclaim_space
  simp only [hc, Option.bind_eq_bind, Option.some_bind]
  exact set_active_block_of env h hok s _ qs hge hlt hbuf hfit

theorem fill_state_lo {P : Type} (env : Env P) (first : Nat) (ps : List P)
    (hle : ps.length ≤ 40) :
    fill_state env first ps =
      { first_block := first, number_of_blocks := 2, active_log_block := first,
        next_patch_offset := env.LOG_BLOCK_MAGIC.length + records_size env ps,
        block_is_empty := [ps.isEmpty, true],
        log_block_bufs := [block_of env ps, block_of env []] } := by
  unfold fill_state
  simp only [hle, if_true, decide_True, List.take_of_length_le hle,
    List.drop_of_length_le hle]

theorem fill_state_hi {P : Type} (env : Env P) (first : Nat) (ps : List P)
    (hlt : 40 < ps.length) :
    fill_state env first ps =
      { first_block := first, number_of_blocks := 2, active_log_block := first + 1,
        next_patch_offset := env.LOG_BLOCK_MAGIC.length + records_size env (ps.drop 40),
        block_is_empty := [false, false],
        log_block_bufs := [block_of env (ps.take 40), block_of env (ps.drop 40)] } := by
  have hne : ps.isEmpty = false := by
    cases ps with
    | nil => simp at hlt
    | cons _ _ => rfl
  have hnot : ¬ ps.length ≤ 40 := by omega
  unfold fill_state
  simp only [hnot, if_false, decide_False, hne]

theorem fill_store_true {P : Type} (env : Env P) (h : CodecLaws env)
    (hbs : env.block_size = 4096) (hm : env.LOG_BLOCK_MAGIC.length = 8)
    (idx : CoreIndex P) (first : Nat) (ps : List P) (p : P)
    (hsz : ∀ q ∈ ps, env.codec.get_serialized_size q = 100)
    (hp : env.codec.get_serialized_size p = 100) (hlen : ps.length < 80) :
    store_patch env idx (fill_state env first ps) p =
      some (fill_state env first (ps ++ [p]), true) := by
  have hok : EnvOK env := ⟨by omega, by unfold UINT16; omega⟩
  have hrs := records_size_const env 100 ps hsz
  have hnil : records_size env ([] : List P) = 0 := rfl
  by_cases h40 : ps.length < 40
  · rw [fill_state_lo env first ps (by omega),
      fill_state_lo env first (ps ++ [p]) (by rw [List.length_append]; simp; omega)]
    rw [store_patch_eq_write env idx _ p rfl (by simp) (by simp only; omega)
      (by simp only; omega)]
    rw [store_patch_write_block_of env h hok.block_size_lt _ p ps (by simp) (by simp) rfl
      (by omega)]
    simp
  · by_cases h41 : ps.length = 40
    · rw [fill_state_lo env first ps (by omega),
        fill_state_hi env first (ps ++ [p]) (by rw [List.length_append]; simp; omega)]
      have hsel : select_log_block_for_compression
          { first_block := first, number_of_blocks := 2, active_log_block := first,
            next_patch_offset := env.LOG_BLOCK_MAGIC.length + records_size env ps,
            block_is_empty := [ps.isEmpty, true],
            log_block_bufs := [block_of env ps, block_of env []] } = first + 1 := by
        simp [select_log_block_for_compression]
      have hr := reclaim_space_live env h hok idx
        { first_block := first, number_of_blocks := 2, active_log_block := first,
          next_patch_offset := env.LOG_BLOCK_MAGIC.length + records_size env ps,
          block_is_empty := [ps.isEmpty, true],
          log_block_bufs := [block_of env ps, block_of env []] }
        (env.codec.get_serialized_size p) []
        (by rw [hsel]; simp) (by rw [hsel]; simp) (by rw [hsel]; simp)
        (by rw [hnil]; omega) (fun q hq => by cases hq)
      rw [hsel] at hr
      rw [store_patch_eq_reclaim env idx _ _ p rfl (by simp) (by simp only; omega)
        (by simp only; omega) hr]
      simp only [hnil, Nat.add_zero]
      rw [size_t_sub _ _ (by omega) hok.block_size_lt, if_neg (by omega)]
      rw [store_patch_write_block_of env h hok.block_size_lt _ p [] (by simp) (by simp)
        (by simp [hnil]) (by rw [hnil]; omega)]
      have ht : (ps ++ [p]).take 40 = ps := by
        rw [← h41]
        simp
      have hd : (ps ++ [p]).drop 40 = [p] := by
        rw [← h41]
        simp
      have hne : ps ≠ [] := by
        intro e
        rw [e] at h41
        cases h41
      simp [ht, hd, hne]
    · rw [fill_state_hi env first ps (by omega),
        fill_state_hi env first (ps ++ [p]) (by rw [List.length_append]; simp; omega)]
      have hszd : ∀ q ∈ ps.drop 40, env.codec.get_serialized_size q = 100 :=
        fun q hq => hsz q (List.mem_of_mem_drop hq)
      have hrsd := records_size_const env 100 (ps.drop 40) hszd
      rw [List.length_drop] at hrsd
      rw [store_patch_eq_write env idx _ p rfl (by simp) (by simp only; omega)
        (by simp only; omega)]
      rw [store_patch_write_block_of env h hok.block_size_lt _ p (ps.drop 40) (by simp)
        (by simp) rfl (by omega)]
      have ht : (ps ++ [p]).take 40 = ps.take 40 :=
        List.take_append_of_le_length (by omega)
      have hd : (ps ++ [p]).drop 40 = ps.drop 40 ++ [p] :=
        List.drop_append_of_le_length (by omega)
      simp [ht, hd]

theorem fill_store_false {P : Type} (env : Env P) (h : CodecLaws env)
    (hbs : env.block_size = 4096) (hm : env.LOG_BLOCK_MAGIC.length = 8)
    (idx : CoreIndex P) (first : Nat) (ps : List P) (p : P)
    (hsz : ∀ q ∈ ps, env.codec.get_serialized_size q = 100)
    (hp : env.codec.get_serialized_size p = 100) (hlen : ps.length = 80)
    (hlive : ∀ q ∈ ps, keep_patch env idx q = true) :
    store_patch env idx (fill_state env first ps) p =
      some (fill_state env first ps, false) := by
  have hok : EnvOK env := ⟨by omega, by unfold UINT16; omega⟩
  have hrsd := records_size_const env 100 (ps.drop 40)
    (fun q hq => hsz q (List.mem_of_mem_drop hq))
  have hrst := records_size_const env 100 (ps.take 40)
    (fun q hq => hsz q (List.mem_of_mem_take hq))
  rw [List.length_drop] at hrsd
  rw [List.length_take] at hrst
  rw [fill_state_hi env first ps (by omega)]
  have hsel : select_log_block_for_compression
      { first_block := first, number_of_blocks := 2, active_log_block := first + 1,
        next_patch_offset := env.LOG_BLOCK_MAGIC.length + records_size env (ps.drop 40),
        block_is_empty := [false, false],
        log_block_bufs := [block_of env (ps.take 40), block_of env (ps.drop 40)] } =
      first := by
    simp [select_log_block_for_compression]
  have hr := reclaim_space_live env h hok idx
    { first_block := first, number_of_blocks := 2, active_log_block := first + 1,
      next_patch_offset := env.LOG_BLOCK_MAGIC.length + records_size env (ps.drop 40),
      block_is_empty := [false, false],
      log_block_bufs := [block_of env (ps.take 40), block_of env (ps.drop 40)] }
    (env.codec.get_serialized_size p) (ps.take 40)
    (by rw [hsel]) (by rw [hsel]; simp) (by rw [hsel]; simp)
    (by omega) (fun q hq => hlive q (List.mem_of_mem_take hq))
  rw [hsel] at hr
  rw [store_patch_eq_reclaim env idx _ _ p rfl (by simp) (by simp only; omega)
    (by simp only; omega) hr]
  simp only
  rw [size_t_sub _ _ (by omega) hok.block_size_lt, if_pos (by omega)]
  rw [set_active_block_of env h hok _ (first + 1) (ps.drop 40) (by simp) (by simp)
    (by simp) (by omega)]
  rfl

theorem block_of_nil {P : Type} (env : Env P) : block_of env ([] : List P) = blank env := by
  simp [block_of, blank, records, records_size]

theorem init_fresh_two {P : Type} (env : Env P) (h : CodecLaws env) (hok : EnvOK env)
    (block_in_use : Nat → Bool) (disk : Nat → List Nat) (first : Nat)
    (hfresh : ∀ id : Nat, block_in_use id = false) :
    init env block_in_use disk first 2 = some (fill_state env first []) := by
  have hl : (List.replicate env.block_size 0).length = env.block_size :=
    List.length_replicate _ _
  have hb := init_log_block_data_eq env hok _ hl
  rw [fill_state_lo env first [] (by simp), block_of_nil]
  unfold init
  simp only [List.range', init_loop, hfresh, Bool.false_eq_true, if_false, constructed,
    init_log_block, get_buf, set_buf, set_empty, List.nil_append, Nat.sub_self, le_refl,
    if_true, List.getElem?_cons_zero, Option.bind_eq_bind, Option.some_bind, hb,
    List.set_cons_zero, List.replicate]
  simp only [Nat.le_add_right, if_true, Nat.add_sub_cancel_left, List.cons_append,
    List.nil_append, List.getElem?_cons_succ, List.getElem?_cons_zero, Option.some_bind, hb,
    List.set_cons_succ, List.set_cons_zero]
  simp [check, set_active_log_block, get_buf, scan_block_blank env h hok, records_size]

theorem store_results_cons {P : Type} (env : Env P) (s s1 : Storage) (c : CoreIndex P × P)
    (calls : List (CoreIndex P × P)) (b : Bool) (r : Storage × List Bool)
    (h1 : store_patch env c.1 s c.2 = some (s1, b))
    (h2 : store_results env s1 calls = some r) :
    store_results env s (c :: calls) = some (r.1, b :: r.2) := by
  simp only [store_results, h1, h2, Option.bind_eq_bind, Option.some_bind]

theorem fill_results {P : Type} (env : Env P) (h : CodecLaws env)
    (hbs : env.block_size = 4096) (hm : env.LOG_BLOCK_MAGIC.length = 8) (first : Nat) :
    ∀ (calls : List (CoreIndex P × P)) (ps : List P), ps.length ≤ 80 →
      (∀ q ∈ ps, env.codec.get_serialized_size q = 100) →
      (∀ c ∈ calls, env.codec.get_serialized_size c.2 = 100) →
      LiveCalls env (fill_state env first ps) ps calls →
      store_results env (fill_state env first ps) calls =
        some (fill_state env first (ps ++ (calls.map Prod.snd).take (80 - ps.length)),
          List.replicate (min calls.length (80 - ps.length)) true ++
            List.replicate (calls.length - (80 - ps.length)) false) := by
  intro calls
  induction calls with
  | nil =>
    intro ps _ _ _ _
    simp [store_results]
  | cons c calls ih =>
    intro ps hlen hsz hcs hlive
    obtain ⟨hkeep, hnext⟩ := hlive
    have hc := hcs c (List.mem_cons_self _ _)
    have hcs1 : ∀ d ∈ calls, env.codec.get_serialized_size d.2 = 100 :=
      fun d hd => hcs d (List.mem_cons_of_mem _ hd)
    by_cases h80 : ps.length < 80
    · have hst := fill_store_true env h hbs hm c.1 first ps c.2 hsz hc h80
      have hl1 := hnext _ _ hst
      simp only [if_true] at hl1
      have hsz1 : ∀ q ∈ ps ++ [c.2], env.codec.get_serialized_size q = 100 := by
        intro q hq
        rcases List.mem_append.1 hq with hq1 | hq2
        · exact hsz q hq1
        · rw [List.mem_singleton.1 hq2]
          exact hc
      have hi := ih (ps ++ [c.2]) (by rw [List.length_append]; simp; omega) hsz1 hcs1 hl1
      rw [store_results_cons env _ _ c calls true _ hst hi]
      obtain ⟨k, hk⟩ : ∃ k, 80 - ps.length = k + 1 := ⟨80 - ps.length - 1, by omega⟩
      have hk1 : 80 - (ps ++ [c.2]).length = k := by
        rw [List.length_append]
        simp
        omega
      rw [hk, hk1]
      simp only [List.map_cons, List.take_succ_cons, List.length_cons, List.append_assoc,
        List.singleton_append, Nat.add_sub_add_right, Nat.add_min_add_right,
        List.replicate_succ, List.cons_append, List.nil_append]
    · have hl80 : ps.length = 80 := by omega
      have hst := fill_store_false env h hbs hm c.1 first ps c.2 hsz hc hl80 hkeep
      have hl1 := hnext _ _ hst
      simp only [Bool.false_eq_true, if_false] at hl1
      have hi := ih ps hlen hsz hcs1 hl1
      rw [store_results_cons env _ _ c calls false _ hst hi]
      simp [hl80, List.replicate_succ]

/-- C13. With two fresh log blocks of 4096 bytes, a magic of 8 bytes, a lawful codec and
in-core indexes that hold every stored patch live, a sequence of `store_patch` calls with
patches of 100 bytes returns `true` for the first 80 calls and `false` for every later one.
The first 40 patches lie in the first block; the 41st call makes the second block active and
the patches 41 to 80 lie there; the refused calls leave the state as it was. -/
theorem fill_scenario {P : Type} (env : Env P) (h : CodecLaws env)
    (hbs : env.block_size = 4096) (hm : env.LOG_BLOCK_MAGIC.length = 8)
    (block_in_use : Nat → Bool) (disk : Nat → List Nat) (first : Nat)
    (hfresh : ∀ id : Nat, block_in_use id = false) (s0 : Storage)
    (calls : List (CoreIndex P × P))
    (hinit : init env block_in_use disk first 2 = some s0)
    (hsz : ∀ c ∈ calls, env.codec.get_serialized_size c.2 = 100)
    (hlive : LiveCalls env s0 [] calls) :
    store_results env s0 calls =
      some (fill_state env first ((calls.map Prod.snd).take 80),
        List.replicate (min calls.length 80) true ++
          List.replicate (calls.length - 80) false) := by
  have hok : EnvOK env := ⟨by omega, by unfold UINT16; omega⟩
  rw [init_fresh_two env h hok block_in_use disk first hfresh] at hinit
  have e : fill_state env first [] = s0 := Option.some.inj hinit
  rw [← e] at hlive ⊢
  have := fill_results env h hbs hm first calls [] (by simp) (fun q hq => by cases hq) hsz
    hlive
  simpa using this

theorem fillEnv_laws : CodecLaws fillEnv :=
  ⟨sampleEnv_laws.serialize_length, sampleEnv_laws.load_serialize, sampleEnv_laws.load_zero,
    sampleEnv_laws.min_size⟩

theorem fillCalls_size : ∀ c ∈ fillCalls, fillEnv.codec.get_serialized_size c.2 = 100 := by
  intro c hc
  simp only [fillCalls, List.mem_map] at hc
  obtain ⟨n, -, rfl⟩ := hc
  rfl

theorem fillCalls_keep :
    ∀ c ∈ fillCalls, ∀ q, keep_patch fillEnv c.1 q = true := by
  intro c hc q
  simp only [fillCalls, List.mem_map] at hc
  obtain ⟨n, -, rfl⟩ := hc
  simp [keep_patch, allLive, fillEnv, sampleCodec]

/-- C13 for 85 calls over the sample codec: 80 calls return `true`, the last 5 `false`. -/
theorem fill_scenario_witness :
    init fillEnv noneInUse noDisk 10 2 = some (fill_state fillEnv 10 []) ∧
    fillCalls.length = 85 ∧
    store_results fillEnv (fill_state fillEnv 10 []) fillCalls =
      some (fill_state fillEnv 10 ((fillCalls.map Prod.snd).take 80),
        List.replicate (min fillCalls.length 80) true ++
          List.replicate (fillCalls.length - 80) false) :=
  ⟨init_fresh_two fillEnv fillEnv_laws ⟨by decide, by decide⟩ noneInUse noDisk 10
      (fun _ => rfl),
    by decide,
    fill_scenario fillEnv fillEnv_laws rfl rfl noneInUse noDisk 10 (fun _ => rfl)
      (fill_state fillEnv 10 []) fillCalls
      (init_fresh_two fillEnv fillEnv_laws ⟨by decide, by decide⟩ noneInUse noDisk 10
        (fun _ => rfl))
      fillCalls_size (liveCalls_of_keeps fillEnv fillCalls fillCalls_keep _ _)⟩

/-! ### Content that the log did not write: C21 -/

/-- The scan of a block written by the log ends inside the block. -/
theorem scan_offset_le_of_blockInv {P : Type} (env : Env P) (h : CodecLaws env)
    (hok : EnvOK env) (data : List Nat) (r : List P × Nat) (hb : BlockInv env data)
    (hscan : scan_block env data = some r) : r.2 ≤ env.block_size := by
  have hfit := blockInv_scan_fits env h hok data r.1 r.2 hb hscan
  have hbs := hok.block_size_lt
  rw [(scan_block_guarded env data r.1 r.2 hscan (by omega)).1]
  exact hfit

/-- C21, the failing input. A block of 16 bytes begins with the magic, followed by a record
header that declares 50 bytes. The scan accepts the record, which runs past the end of the
block, and ends at offset 54. `init` over two such blocks in use returns with
`next_patch_offset` 54, above the block size, and the assertion of `store_patch` on
`next_patch_offset` then fails; `load_patches`, `flush_block` and `compress_block` scan
the same record. -/
theorem scan_accepts_overlong_record :
    CodecLaws sampleEnv ∧
    foreignBlock.length = sampleEnv.block_size ∧
    magic_ok sampleEnv foreignBlock = true ∧
    scan_block sampleEnv foreignBlock = some ([⟨7, 2, 47⟩], 54) ∧
    sampleEnv.block_size <
      sampleEnv.LOG_BLOCK_MAGIC.length + sampleEnv.codec.get_serialized_size ⟨7, 2, 47⟩ ∧
    init sampleEnv allInUse foreignDisk 10 2 = some sampleForeign ∧
    sampleEnv.block_size < sampleForeign.next_patch_offset ∧
    store_patch sampleEnv allLive sampleForeign ⟨7, 1, 0⟩ = none ∧
    load_patches sampleEnv allInUse sampleForeign =
      some [(7, [⟨7, 2, 47⟩, ⟨7, 2, 47⟩])] ∧
    (flush_block sampleEnv allLive sampleForeign 11).map (fun r => r.2) = some [7] ∧
    compress_block sampleEnv noneLive sampleForeign 11 =
      some { sampleForeign with log_block_bufs := [foreignBlock, blank sampleEnv] } :=
  ⟨sampleEnv_laws, by decide, by decide, by decide, by decide, by decide, by decide,
    by decide, by decide, by decide, by decide⟩

end DiffOocore
